import Mathlib

/-!
# Conway's Game of Life on a torus: `gameoflife.c`

A shallow embedding of the simulation engine of `gameoflife.c` and proofs of
its specified properties.

Modelling conventions.

* C `int` is the 32-bit two's-complement type.  Its values are `Int`s, and the
  result of an index computation (`i + rows`, `i * cols + j`) or of a conversion
  by `fscanf` is reduced to the `int` range by `to_int`.  `%` and `/` are the
  truncating C operators and have no result for a zero divisor.  The counters
  `liveCells` and `total_live` count cells of one grid; they are kept exact.
* The two blocks obtained from `malloc` in `initialize_board` are the two
  lists of a `Heap`; a pointer to one of them (`data->array`,
  `data->next_board`) is a `Bool` naming the block.  Reading or writing
  outside a block, or through `NULL`, has no result (`none`).
* The static `total_live` is a field of the `Heap`.
* The threads run in lockstep between barriers.  One round is executed phase
  by phase, and inside a phase the threads are run in the order of their ids.
-/

namespace GameOfLife

/-! ## Control flow and arithmetic of C -/

/-- The values taken by `i` in `for (i = lo; i <= hi; i++)`. -/
def intRange (lo hi : Int) : List Int :=
  (List.range (hi + 1 - lo).toNat).map (fun (n : Nat) => lo + (n : Int))

/-- The `int` kept of an exact value `v`: `v` modulo 2^32, in `[-2^31, 2^31)`. -/
def to_int (v : Int) : Int :=
  (v + 2147483648) % 4294967296 - 2147483648

/-- The grids on which the index computations of the program stay in the range
of `int`: `rows * cols ≤ INT_MAX` for `i * cols + j`, and `2 * rows ≤ INT_MAX`,
`2 * cols ≤ INT_MAX` for `i + rows` and `j + cols` in `cell_state`. -/
def fits (rows cols : Int) : Prop :=
  rows * cols ≤ 2147483647 ∧ 2 * rows ≤ 2147483647 ∧ 2 * cols ≤ 2147483647

instance (rows cols : Int) : Decidable (fits rows cols) := by
  unfold fits
  infer_instance

/-- C `a % b` on `int`. -/
def c_mod (a b : Int) : Option Int :=
  if b = 0 then none else some (Int.tmod a b)

/-- C `a / b` on `int`. -/
def c_div (a b : Int) : Option Int :=
  if b = 0 then none else some (Int.tdiv a b)

/-! ## Data model -/

/-- The global state shared by all threads: the two grid blocks and the
static counter `total_live`. -/
structure Heap where
  block0 : List Int
  block1 : List Int
  total_live : Int
deriving DecidableEq

/-- The block a pointer names. -/
def Heap.block (h : Heap) (p : Bool) : List Int :=
  if p then h.block1 else h.block0

/-- Read `p[off]`. -/
def Heap.load (h : Heap) (p : Bool) (off : Int) : Option Int :=
  if 0 ≤ off then (h.block p)[off.toNat]? else none

/-- Replace the contents of the block a pointer names. -/
def Heap.set_block (h : Heap) (p : Bool) (g : List Int) : Heap :=
  if p then { h with block1 := g } else { h with block0 := g }

/-- Write `p[off] = v`. -/
def Heap.store (h : Heap) (p : Bool) (off : Int) (v : Int) : Option Heap :=
  if 0 ≤ off ∧ off < ((h.block p).length : Int) then
    some (h.set_block p ((h.block p).set off.toNat v))
  else none

/-- The record `struct gol_data`. -/
structure gol_data where
  rows : Int
  cols : Int
  iters : Int
  array : Bool
  next_board : Bool
  output_mode : Int
  id : Int
  grid_allocation : Int
  num_threads : Int
  print_partition : Int
deriving DecidableEq

/-! ## `get_value_at` and `cell_state` -/

/-- Function `get_value_at`: the address of cell `(i, j)` in `data->array`, as an
offset into that block, or `NULL` (`none`). Only the upper bounds are tested. -/
def get_value_at (i j : Int) (data : gol_data) : Option Int :=
  if i < data.rows ∧ j < data.cols then some (to_int (to_int (i * data.cols) + j)) else none

/-- The read `*get_value_at(..)`. -/
def deref (h : Heap) (data : gol_data) (p : Option Int) : Option Int :=
  p.bind (h.load data.array)

/-- Function `cell_state`: the new state of cell `(x, y)`. The difference
`liveCells - self` is kept exact: when it leaves the range of `int` the exact
value is at least 4 and the wrapped value is negative, and both give 0. -/
def cell_state (h : Heap) (x y : Int) (data : gol_data) : Option Int := do
  let rows := data.rows
  let cols := data.cols
  let liveCells ← (intRange (x - 1) (x + 1)).foldlM (fun liveCells i =>
    (intRange (y - 1) (y + 1)).foldlM (fun liveCells j => do
      let wi ← c_mod (to_int (i + rows)) rows
      let wj ← c_mod (to_int (j + cols)) cols
      let v ← deref h data (get_value_at wi wj data)
      pure (if v = 1 then liveCells + 1 else liveCells)) liveCells) (0 : Int)
  let self ← deref h data (get_value_at x y data)
  let liveCells := liveCells - self
  if liveCells ≤ 1 ∨ liveCells ≥ 4 then pure 0
  else if liveCells = 3 then pure 1
  else deref h data (get_value_at x y data)

/-! ## `partition` -/

/-- The four outputs of `partition`. -/
structure Part where
  start_row : Int
  start_col : Int
  end_row : Int
  end_col : Int
deriving DecidableEq

/-- Function `partition`: the inclusive row and column bounds of thread
`data->id`. -/
def partition (data : gol_data) : Option Part := do
  let n := if data.grid_allocation ≠ 0 then data.cols else data.rows
  let num_big_parts ← c_mod n data.num_threads
  let q ← c_div (n - num_big_parts) data.num_threads
  let big_part_size := q + 1
  let start := (intRange 0 (data.id - 1)).foldl (fun start i =>
    if i < num_big_parts then start + big_part_size
    else start + (big_part_size - 1)) (0 : Int)
  let end_ := if data.id < num_big_parts then start + big_part_size - 1
    else start + big_part_size - 2
  if data.grid_allocation ≠ 0 then
    pure { start_row := 0, end_row := data.rows - 1, start_col := start, end_col := end_ }
  else
    pure { start_col := 0, end_col := data.cols - 1, start_row := start, end_row := end_ }

/-! ## `play_gol` -/

/-- The state private to one thread running `play_gol`: its copy of the
record (`tid_args[i]`) and the bounds computed once by `partition`. -/
structure Thread where
  data : gol_data
  part : Part
deriving DecidableEq

/-- Entry of `play_gol` (line 212). -/
def play_gol_init (data : gol_data) : Option Thread := do
  let part ← partition data
  pure { data := data, part := part }

/-- Lines 215-216, executed by every thread before the first barrier of a
round. -/
def round_reset (h : Heap) : Heap := { h with total_live := 0 }

/-- The body of the computing loop (lines 220-222) at cell `(j, k)`; the state
is the heap and the local `liveCells`. -/
def compute_cell (data : gol_data) (st : Heap × Int) (j k : Int) : Option (Heap × Int) := do
  let newCell ← cell_state st.1 j k data
  let h1 ← st.1.store data.next_board (to_int (to_int (j * data.cols) + k)) newCell
  pure (h1, st.2 + newCell)

/-- The computing loop of `play_gol` (lines 218-224): returns the heap and the
local `liveCells`. -/
def compute_partition (t : Thread) (h : Heap) : Option (Heap × Int) :=
  (intRange t.part.start_row t.part.end_row).foldlM (fun st j =>
    (intRange t.part.start_col t.part.end_col).foldlM (fun st k =>
      compute_cell t.data st j k) st) (h, 0)

/-- Lines 218-231 for one thread: compute, swap the thread's two pointers, add
the local count to `total_live`. -/
def round_body (t : Thread) (h : Heap) : Option (Thread × Heap) := do
  let (h1, liveCells) ← compute_partition t h
  let data1 := { t.data with array := t.data.next_board, next_board := t.data.array }
  pure ({ t with data := data1 }, { h1 with total_live := h1.total_live + liveCells })

/-- All threads execute lines 218-231, in the order of their ids. -/
def run_bodies : List Thread → Heap → Option (List Thread × Heap)
  | [], h => some ([], h)
  | t :: ts, h => do
      let (t1, h1) ← round_body t h
      let (ts1, h2) ← run_bodies ts h1
      pure (t1 :: ts1, h2)

/-- One iteration of the loop of `play_gol`, for all threads: every thread
resets `total_live`, the barrier is passed, every thread computes, swaps and
accumulates. The board printed by thread 0 does not change the state. -/
def play_gol_round (ts : List Thread) (h : Heap) : Option (List Thread × Heap) :=
  run_bodies ts (ts.foldl (fun h1 _ => round_reset h1) h)

/-- The loop `for (i = 0; i < iters; i++)` of all threads, `n` iterations. -/
def play_gol_rounds : Nat → List Thread → Heap → Option (List Thread × Heap)
  | 0, ts, h => some (ts, h)
  | n + 1, ts, h => do
      let (ts1, h1) ← play_gol_round ts h
      play_gol_rounds n ts1 h1

/-- Lines 93-101 of `main`: thread `i` receives a copy of `data` with
`id = i` and enters `play_gol`. -/
def spawn (data : gol_data) : Option (List Thread) :=
  (intRange 0 (data.num_threads - 1)).mapM (fun i => play_gol_init { data with id := i })

/-- All threads run `play_gol` to completion (lines 93-105 of `main`). -/
def play_gol_all (data : gol_data) (h : Heap) : Option (List Thread × Heap) := do
  let ts ← spawn data
  play_gol_rounds data.iters.toNat ts h

/-- Function `print_board`: the marks printed, row by row (`true` is a star),
and the printed live-cell total. -/
def print_board (h : Heap) (data : gol_data) : Option (List (List Bool) × Int) := do
  let marks ← (intRange 0 (data.rows - 1)).mapM (fun i =>
    (intRange 0 (data.cols - 1)).mapM (fun j => do
      let v ← deref h data (get_value_at i j data)
      pure (decide (v = 1))))
  pure (marks, h.total_live)

/-- What `main` writes after the threads are joined (lines 107-117): the board,
when `output_mode` is set, and the line `total_live` live cells after `iters`
rounds. -/
structure Report where
  board : Option (List (List Bool) × Int)
  live : Int
  rounds : Int
deriving DecidableEq

/-- Lines 93-117 of `main`: run the threads, then print the board reached
through `main`'s own record `data`, and the final line. -/
def main_report (data : gol_data) (h : Heap) : Option Report := do
  let (_, h1) ← play_gol_all data h
  let board ← if data.output_mode ≠ 0 then (print_board h1 data).map some else pure none
  pure { board := board, live := h1.total_live, rounds := data.iters }

/-! ## `initialize_board` and `main` -/

/-- The compile-time constants `NUM_THREADS`, `PARTITION` and `OUTPUT_MODE`. -/
structure Config where
  NUM_THREADS : Int
  PARTITION : Int
  OUTPUT_MODE : Int
deriving DecidableEq

/-- The constants of the source. -/
def source_config : Config :=
  { NUM_THREADS := 12, PARTITION := 0, OUTPUT_MODE := 1 }

/-- How a call ends when it does not complete with `return 0`: it returns another
status, the process exits, or the behaviour is undefined (an access outside a
block). -/
inductive Stop where
  | returned (status : Int)
  | exited (code : Int)
  | undefined
deriving DecidableEq

/-- What the program text does not determine: whether `malloc` of a number of
bytes succeeds, the contents of a fresh block, whether `main` obtains its two
arrays and its threads (lines 80-101), and whether `system("clear")` returns 0
in `main` (line 108). -/
structure Env where
  malloc_ok : Nat → Bool
  junk : Bool → Nat → Int
  threads_ok : Bool
  clear_ok : Bool

/-- The value of `sizeof(int) * rows * cols` in the arithmetic of `size_t`, for
4-byte `int` and 64-bit `size_t`. -/
def alloc_size (rows cols : Int) : Nat :=
  ((4 * rows * cols) % 2 ^ 64).toNat

/-- A call `malloc(bytes)` for the block `p`: `NULL` (`none`), or a block of
`bytes / 4` cells with arbitrary contents. -/
def malloc (env : Env) (p : Bool) (bytes : Nat) : Option (List Int) :=
  if env.malloc_ok bytes then some ((List.range (bytes / 4)).map (env.junk p)) else none

/-- The `long` that `strtol` returns for a decimal numeral of value `v`: the
value itself, or the nearest bound of the 64-bit range. -/
def to_long (v : Int) : Int :=
  max (-9223372036854775808) (min v 9223372036854775807)

/-- The `int` that `fscanf` stores for the conversion `%d` of a numeral of value
`t`: the C library converts the numeral with `strtol` and keeps the low 32 bits. -/
def scan_value (t : Int) : Int :=
  to_int (to_long t)

/-- A call `fscanf(infile, "%d", &x)` on the numerals left in the file: the
`int` stored and the rest, or `none` when the call does not return 1. -/
def scan_int : List Int → Option (Int × List Int)
  | [] => none
  | t :: rest => some (scan_value t, rest)

/-- The global state when `main` starts: nothing is allocated and
`total_live = 0`. -/
def initial_heap : Heap :=
  { block0 := [], block1 := [], total_live := 0 }

/-- Lines 178-182 of `initialize_board`: every cell of `data->array` is set to 0. -/
def zero_fill (data : gol_data) (h : Heap) : Option Heap :=
  (intRange 0 (data.rows - 1)).foldlM (fun h1 i =>
    (intRange 0 (data.cols - 1)).foldlM (fun h2 j =>
      h2.store data.array (to_int (to_int (i * data.cols) + j)) 0) h1) h

/-- Lines 184-196 of `initialize_board`: `n` more coordinate pairs are read and
their cells set to 1. -/
def read_coords (data : gol_data) : Nat → List Int → Heap → Except Stop Heap
  | 0, _, h => pure h
  | n + 1, toks, h =>
    match toks with
    | r :: c :: rest =>
      match get_value_at (scan_value r) (scan_value c) data with
      | none => throw (Stop.returned 1)
      | some off =>
        match h.store data.array off 1 with
        | none => throw Stop.undefined
        | some h1 => read_coords data n rest h1
    | _ => throw (Stop.returned 1)

/-- Function `initialize_board`, on the record `data` of `main` and the integers of
the input file (`none` when the file cannot be opened). The result `ok` is
`return 0`, with the record and the heap it leaves. -/
def initialize_board (cfg : Config) (env : Env) (data : gol_data)
    (infile : Option (List Int)) : Except Stop (gol_data × Heap) := do
  let toks ← match infile with
    | none => throw (Stop.exited 1)
    | some toks => pure toks
  let (rows, toks) ← match scan_int toks with
    | none => throw (Stop.returned 1)
    | some r => pure r
  let (cols, toks) ← match scan_int toks with
    | none => throw (Stop.returned 1)
    | some r => pure r
  let (iters, toks) ← match scan_int toks with
    | none => throw (Stop.returned 1)
    | some r => pure r
  let data :=
    { data with rows := rows, cols := cols, iters := iters, num_threads := cfg.NUM_THREADS,
                grid_allocation := cfg.PARTITION, output_mode := cfg.OUTPUT_MODE }
  let b0 ← match malloc env false (alloc_size data.rows data.cols) with
    | none => throw (Stop.exited 1)
    | some b => pure b
  let data := { data with array := false }
  let h : Heap := { initial_heap with block0 := b0 }
  let (numcoords, toks) ← match scan_int toks with
    | none => throw (Stop.returned 1)
    | some r => pure r
  let b1 ← match malloc env true (alloc_size data.rows data.cols) with
    | none => throw (Stop.exited 1)
    | some b => pure b
  let data := { data with next_board := true }
  let h : Heap := { h with block1 := b1 }
  let h ← match zero_fill data h with
    | none => throw Stop.undefined
    | some h1 => pure h1
  let h ← read_coords data numcoords.toNat toks h
  pure (data, { h with total_live := numcoords })

/-- Function `main`: its exit status is 1 when there is no argument, when
`initialize_board` does not return 0, when an array of `main` or a thread cannot
be obtained, or when `system("clear")` fails after the threads are joined;
otherwise the threads run and `main` writes its report and returns 0. The board
printed before the threads start (line 70) changes no state and is left out. -/
def main (cfg : Config) (env : Env) (data : gol_data) (argc : Int)
    (infile : Option (List Int)) : Except Stop Report :=
  if argc < 2 then throw (Stop.exited 1)
  else
    match initialize_board cfg env data infile with
    | Except.error (Stop.returned _) => throw (Stop.exited 1)
    | Except.error e => throw e
    | Except.ok (data1, h) =>
      if env.threads_ok = false then throw (Stop.exited 1)
      else
        match play_gol_all data1 h with
        | none => throw Stop.undefined
        | some _ =>
          if data1.output_mode ≠ 0 ∧ env.clear_ok = false then throw (Stop.exited 1)
          else
            match main_report data1 h with
            | none => throw Stop.undefined
            | some report => pure report

/-! ## The order of the actions of the threads -/

/-- The actions a thread executes in one iteration of the loop of `play_gol`. -/
inductive Action where
  | reset
  | wait
  | compute
  | swap
  | accumulate
  | print
deriving DecidableEq

/-- One iteration of the loop of `play_gol` in program order: lines 215-216
(`reset`), 217 (`wait`), 218-224 (`compute`), 225-227 (`swap`), 229-231
(`accumulate`, under the mutex), 233 (`wait`), 235-239 (`print`, by thread 0) and
240 (`wait`). All three waits are on `barrier1`, initialised for all threads. -/
def round_actions : List Action :=
  [Action.reset, Action.wait, Action.compute, Action.swap, Action.accumulate, Action.wait,
    Action.print, Action.wait]

/-- The action a thread executes next when it has completed `p` actions. -/
def next_action (p : Nat) : Option Action :=
  round_actions[p % 8]?

/-- Whether thread `k` can execute its next action, `ps m` being the number of
actions thread `m` has completed: the thread has not finished its `iters`
iterations, and when its next action is a wait on the barrier, every thread has
arrived at that wait. -/
def can_step (T iters : Nat) (ps : Nat → Nat) (k : Nat) : Prop :=
  k < T ∧ ps k < 8 * iters ∧
    (next_action (ps k) = some Action.wait → ∀ m, m < T → ps k ≤ ps m)

instance (T iters : Nat) (ps : Nat → Nat) (k : Nat) : Decidable (can_step T iters ps k) := by
  unfold can_step
  infer_instance

/-- The scheduler lets thread `k` run: the thread executes its next action, or
nothing happens when it is blocked at the barrier or has finished. -/
def sched_step (T iters : Nat) (ps : Nat → Nat) (k : Nat) : Nat → Nat :=
  if can_step T iters ps k then Function.update ps k (ps k + 1) else ps

/-- The state reached from the start of `play_gol` in all `T` threads when the
scheduler lets the threads of a list run one after the other. -/
def run_schedule (T iters : Nat) (ks : List Nat) : Nat → Nat :=
  ks.foldl (sched_step T iters) (fun _ => 0)

/-- The index of the first wait after `p` completed actions, not counting the
wait at index `p` itself. -/
def next_wait (p : Nat) : Nat :=
  p - p % 8 + (if p % 8 < 1 then 1 else if p % 8 < 5 then 5 else if p % 8 < 7 then 7 else 9)

/-! ## Functional forms used in the statements -/

/-- The cell `grid[x][y]` of a flat row-major grid with `cols` columns. -/
def cell (g : List Int) (cols x y : Int) : Int :=
  g.getD (x * cols + y).toNat 0

/-- The neighbour count of the specification: the sum of the 3×3 block
centred at `(x, y)`, coordinates taken modulo `rows` and `cols`, minus the
cell itself. -/
def neighbour_count (g : List Int) (rows cols x y : Int) : Int :=
  (([-1, 0, 1] : List Int).map (fun dx =>
    (([-1, 0, 1] : List Int).map (fun dy =>
      cell g cols ((x + dx) % rows) ((y + dy) % cols))).sum)).sum - cell g cols x y

/-- The number of cells equal to 1 that `cell_state` counts in the wrapped 3×3
block centred at `(x, y)`. -/
def live_count (g : List Int) (rows cols x y : Int) : Int :=
  ([x - 1, x, x + 1].map (fun i =>
    ([y - 1, y, y + 1].map (fun j =>
      if cell g cols (i % rows) (j % cols) = 1 then (1 : Int) else 0)).sum)).sum

/-- The value `cell_state` returns on a well-formed grid. -/
def next_state (g : List Int) (rows cols x y : Int) : Int :=
  let c := live_count g rows cols x y - cell g cols x y
  if c ≤ 1 ∨ c ≥ 4 then 0 else if c = 3 then 1 else cell g cols x y

/-- The length of the partitioned axis. -/
def axis_len (data : gol_data) : Int :=
  if data.grid_allocation ≠ 0 then data.cols else data.rows

/-- The first index of a part along the partitioned axis. -/
def Part.lo (p : Part) (data : gol_data) : Int :=
  if data.grid_allocation ≠ 0 then p.start_col else p.start_row

/-- The last index of a part along the partitioned axis. -/
def Part.hi (p : Part) (data : gol_data) : Int :=
  if data.grid_allocation ≠ 0 then p.end_col else p.end_row

/-- Closed form of the first index of thread `k` on an axis of length `n` split
among `T` threads. -/
def part_point (n T k : Int) : Int := k * (n / T) + min k (n % T)

/-- The number of indices `partition` gives thread `i` along the partitioned
axis. -/
def part_size (data : gol_data) (i : Int) : Int :=
  match partition { data with id := i } with
  | some p => p.hi data - p.lo data + 1
  | none => 0

/-- The row-major grid of `rows × cols` cells whose cell `(x, y)` is `f x y`. -/
def mk_board (rows cols : Int) (f : Int → Int → Int) : List Int :=
  (List.range (rows * cols).toNat).map
    (fun (n : Nat) => f ((n : Int) / cols) ((n : Int) % cols))

/-- The cell values of the grid whose live cells are exactly those of a list. -/
def live_at (l : List (Int × Int)) (x y : Int) : Int :=
  if (x, y) ∈ l then 1 else 0

/-- The indicator of a list of rows (or of columns). -/
def ind_mem (s : List Int) (x : Int) : Int :=
  if x ∈ s then 1 else 0

/-- The number of indices among `x - 1, x, x + 1`, wrapped modulo `n`, at which
`a` is 1, for an indicator `a`. -/
def tri (n : Int) (a : Int → Int) (x : Int) : Int :=
  a ((x - 1) % n) + a (x % n) + a ((x + 1) % n)

/-- The sum of `f` over all cells of a `rows × cols` grid, row by row. -/
def grid_sum (rows cols : Int) (f : Int → Int → Int) : Int :=
  ((intRange 0 (rows - 1)).map (fun j => ((intRange 0 (cols - 1)).map (f j)).sum)).sum

/-- The cells `(j, k)` visited by the computing loop of a thread, in order. -/
def cells_of (p : Part) : List (Int × Int) :=
  (intRange p.start_row p.end_row).flatMap (fun j =>
    (intRange p.start_col p.end_col).map (fun k => (j, k)))

/-- The effect on a block of the writes `next_board[j * cols + k] = f j k` for
the cells of a list, in order. -/
def write_cells (cols : Int) (f : Int → Int → Int) (g : List Int) (l : List (Int × Int)) :
    List Int :=
  l.foldl (fun b c => b.set (c.1 * cols + c.2).toNat (f c.1 c.2)) g

/-- The bounds `partition` computes for thread `k`, in closed form. -/
def part_of (data : gol_data) (k : Int) : Part :=
  if data.grid_allocation ≠ 0 then
    { start_row := 0, end_row := data.rows - 1,
      start_col := part_point (axis_len data) data.num_threads k,
      end_col := part_point (axis_len data) data.num_threads (k + 1) - 1 }
  else
    { start_col := 0, end_col := data.cols - 1,
      start_row := part_point (axis_len data) data.num_threads k,
      end_row := part_point (axis_len data) data.num_threads (k + 1) - 1 }

/-- Thread `k` when its record points to block `p` as `array` and to the other
block as `next_board`. -/
def thread_at (data : gol_data) (p : Bool) (k : Int) : Thread :=
  { data := { data with id := k, array := p, next_board := !p }, part := part_of data k }

/-- All threads, their records pointing to block `p` as `array`. -/
def threads_at (data : gol_data) (p : Bool) : List Thread :=
  (intRange 0 (data.num_threads - 1)).map (thread_at data p)

/-- The cells of a `rows × cols` grid, row by row. -/
def all_cells (rows cols : Int) : List (Int × Int) :=
  (intRange 0 (rows - 1)).flatMap (fun j => (intRange 0 (cols - 1)).map (fun k => (j, k)))

/-- The first `n` coordinate pairs listed in the input after its four leading
numerals, as `fscanf` stores them: the pairs `initialize_board` reads. -/
def listed_pairs : Nat → List Int → List (Int × Int)
  | n + 1, r :: c :: rest => (scan_value r, scan_value c) :: listed_pairs n rest
  | _, _ => []

/-- The number of cells equal to 1 in a `rows × cols` grid. -/
def live_cells (rows cols : Int) (g : List Int) : Int :=
  grid_sum rows cols (fun x y => if cell g cols x y = 1 then 1 else 0)

/-- The heap after one round in which block `p` was the current grid: the other
block holds the next generation and `total_live` its sum. -/
def round_heap (data : gol_data) (p : Bool) (h : Heap) : Heap :=
  { h.set_block (!p)
      (mk_board data.rows data.cols (next_state (h.block p) data.rows data.cols)) with
    total_live := (mk_board data.rows data.cols
      (next_state (h.block p) data.rows data.cols)).sum }

/-- The block the threads call `array` after `n` rounds, when it was `p` at the
start. -/
def ptr_after : Nat → Bool → Bool
  | 0, p => p
  | n + 1, p => ptr_after n (!p)

/-- The heap after `n` rounds, block `p` being the current grid at the start. -/
def rounds_heap (data : gol_data) : Nat → Bool → Heap → Heap
  | 0, _, h => h
  | n + 1, p, h => rounds_heap data n (!p) (round_heap data p h)

/-- The grid after `n` generations of a `rows × cols` grid `g`. -/
def generation (rows cols : Int) : Nat → List Int → List Int
  | 0, g => g
  | n + 1, g => generation rows cols n (mk_board rows cols (next_state g rows cols))

/-! ## Sample inputs -/

/-- The record built by `initialize_board` for the input `5 5 1 3  2 1  2 2  2 3`,
with the constants of the source: `NUM_THREADS = 12`, `PARTITION = 0`,
`OUTPUT_MODE = 1`. -/
def ex_data : gol_data :=
  { rows := 5, cols := 5, iters := 1, array := false, next_board := true, output_mode := 1,
    id := 0, grid_allocation := 0, num_threads := 12, print_partition := 0 }

/-- The heap built for that input: the horizontal blinker centred at `(2, 2)` in
the first block, arbitrary values in the second block, `total_live = 3`. -/
def ex_heap : Heap :=
  { block0 := [0, 0, 0, 0, 0,  0, 0, 0, 0, 0,  0, 1, 1, 1, 0,  0, 0, 0, 0, 0,  0, 0, 0, 0, 0],
    block1 := List.replicate 25 7,
    total_live := 3 }

/-- A 5×5 grid whose only live cells are `(0, 1)`, `(0, 2)`, `(0, 3)`. -/
def wrap_heap : Heap :=
  { block0 := [0, 1, 1, 1, 0,  0, 0, 0, 0, 0,  0, 0, 0, 0, 0,  0, 0, 0, 0, 0,  0, 0, 0, 0, 0],
    block1 := List.replicate 25 0,
    total_live := 3 }

/-- A 5×5 grid whose live cells are the 2×2 block with corner `(1, 1)`. -/
def block_heap : Heap :=
  { block0 := [0, 0, 0, 0, 0,  0, 1, 1, 0, 0,  0, 1, 1, 0, 0,  0, 0, 0, 0, 0,  0, 0, 0, 0, 0],
    block1 := List.replicate 25 0,
    total_live := 4 }

/-- The record for a 3×3 grid and one round. -/
def lone_data : gol_data :=
  { rows := 3, cols := 3, iters := 1, array := false, next_board := true, output_mode := 1,
    id := 0, grid_allocation := 0, num_threads := 12, print_partition := 0 }

/-- The 3×3 grid with only the centre cell alive. -/
def lone_heap : Heap :=
  { block0 := [0, 0, 0,  0, 1, 0,  0, 0, 0],
    block1 := List.replicate 9 0,
    total_live := 1 }

/-- An environment in which every `malloc` succeeds, fresh blocks hold the
value 7 in every cell, the threads are created and `system("clear")` returns 0. -/
def ex_env : Env :=
  { malloc_ok := fun _ => true, junk := fun _ _ => 7, threads_ok := true, clear_ok := true }

/-- The record of a grid of 50000 × 46341 cells: `rows * cols` exceeds `INT_MAX`. -/
def wide_data : gol_data :=
  { ex_data with rows := 50000, cols := 46341 }

/-- The record of a grid of 1500000000 × 1 cells: `2 * rows` exceeds `INT_MAX`. -/
def tall_data : gol_data :=
  { ex_data with rows := 1500000000, cols := 1 }

/-- The record of a grid of 1 × 1500000000 cells: `2 * cols` exceeds `INT_MAX`. -/
def flat_data : gol_data :=
  { ex_data with rows := 1, cols := 1500000000 }

/-! ## Proofs -/

/-! ### The transition rule: `cell_state` -/

theorem intRange_three (x : Int) : intRange (x - 1) (x + 1) = [x - 1, x, x + 1] := by
  have h : x + 1 + 1 - (x - 1) = 3 := by ring
  simp [intRange, h, List.range_succ]
  omega

theorem idx_bounds {rows cols x y : Int} (hx0 : 0 ≤ x) (hx : x < rows) (hy0 : 0 ≤ y)
    (hy : y < cols) : 0 ≤ x * cols + y ∧ x * cols + y < rows * cols := by
  constructor
  · have := mul_nonneg hx0 (le_trans hy0 hy.le)
    omega
  · have h1 : (x + 1) * cols ≤ rows * cols :=
      mul_le_mul_of_nonneg_right (by omega) (le_trans hy0 hy.le)
    have h2 : (x + 1) * cols = x * cols + cols := by ring
    omega

theorem to_int_eq {v : Int} (h0 : -2147483648 ≤ v) (h1 : v ≤ 2147483647) : to_int v = v := by
  unfold to_int
  omega

theorem to_int_high {v : Int} (h0 : 2147483648 ≤ v) (h1 : v < 6442450944) :
    to_int v = v - 4294967296 := by
  unfold to_int
  have e : v + 2147483648 = (v + 2147483648 - 4294967296) + 4294967296 * 1 := by ring
  rw [e, Int.add_mul_emod_self_left, Int.emod_eq_of_lt (by omega) (by omega)]
  ring

theorem to_int_add (a b : Int) : to_int (to_int a + b) = to_int (a + b) := by
  unfold to_int
  omega

/-- On a grid of at most 2^31 cells the index of an in-range cell is computed
exactly. -/
theorem index_exact {rows cols x y : Int} (hb : rows * cols ≤ 2147483648) (hx0 : 0 ≤ x)
    (hx : x < rows) (hy0 : 0 ≤ y) (hy : y < cols) :
    to_int (to_int (x * cols) + y) = x * cols + y := by
  obtain ⟨h0, h1⟩ := idx_bounds hx0 hx hy0 hy
  rw [to_int_add]
  exact to_int_eq (by omega) (by omega)

theorem index_eq {rows cols x y : Int} (hfit : fits rows cols) (hx0 : 0 ≤ x) (hx : x < rows)
    (hy0 : 0 ≤ y) (hy : y < cols) : to_int (to_int (x * cols) + y) = x * cols + y :=
  index_exact (le_trans hfit.1 (by decide)) hx0 hx hy0 hy

/-- A grid of at least 2×2 cells fits as soon as its number of cells does. -/
theorem fits_of_cells {rows cols : Int} (hr : 2 ≤ rows) (hc : 2 ≤ cols)
    (h : rows * cols ≤ 2147483647) : fits rows cols := by
  have h1 : rows * 2 ≤ rows * cols := mul_le_mul_of_nonneg_left hc (by omega)
  have h2 : 2 * cols ≤ rows * cols := mul_le_mul_of_nonneg_right hr (by omega)
  exact ⟨h, by omega, by omega⟩

theorem load_cell (h : Heap) (data : gol_data) {x y : Int}
    (hfit : fits data.rows data.cols)
    (hlen : ((h.block data.array).length : Int) = data.rows * data.cols)
    (hx0 : 0 ≤ x) (hx : x < data.rows) (hy0 : 0 ≤ y) (hy : y < data.cols) :
    deref h data (get_value_at x y data) = some (cell (h.block data.array) data.cols x y) := by
  obtain ⟨h0, h1⟩ := idx_bounds hx0 hx hy0 hy
  have hlt : (x * data.cols + y).toNat < (h.block data.array).length := by omega
  simp [deref, get_value_at, hx, hy, index_eq hfit hx0 hx hy0 hy, Heap.load, h0, cell,
    List.getD, List.getElem?_eq_getElem hlt]

theorem wrap_mod {n i : Int} (hn : 1 ≤ n) (hi : -1 ≤ i) (hin : i ≤ n)
    (h2 : 2 * n ≤ 2147483647) : c_mod (to_int (i + n)) n = some (i % n) := by
  have h0 : n ≠ 0 := by omega
  rw [to_int_eq (by omega) (by omega)]
  simp [c_mod, h0, Int.tmod_eq_emod (show 0 ≤ i + n by omega) (show 0 ≤ n by omega)]

theorem foldlM_some_add {α : Type} (l : List α) (f : α → Int)
    (body : Int → α → Option Int) (acc : Int)
    (hb : ∀ a ∈ l, ∀ s, body s a = some (s + f a)) :
    l.foldlM body acc = some (acc + (l.map f).sum) := by
  induction l generalizing acc with
  | nil => simp
  | cons a l ih =>
    rw [List.foldlM_cons, hb a (List.mem_cons_self _ _)]
    simp only [Option.bind_eq_bind, Option.some_bind]
    rw [ih _ (fun b hb1 s => hb b (List.mem_cons_of_mem _ hb1) s)]
    simp [add_assoc]

theorem read_wrapped (h : Heap) (data : gol_data) {i j : Int} (lc : Int)
    (hfit : fits data.rows data.cols)
    (hlen : ((h.block data.array).length : Int) = data.rows * data.cols)
    (hr : 1 ≤ data.rows) (hc : 1 ≤ data.cols) (hi : -1 ≤ i) (hj : -1 ≤ j)
    (hi1 : i ≤ data.rows) (hj1 : j ≤ data.cols) :
    (do
      let wi ← c_mod (to_int (i + data.rows)) data.rows
      let wj ← c_mod (to_int (j + data.cols)) data.cols
      let v ← deref h data (get_value_at wi wj data)
      pure (if v = 1 then lc + 1 else lc) : Option Int)
    = some (lc + if cell (h.block data.array) data.cols (i % data.rows) (j % data.cols) = 1
        then 1 else 0) := by
  have hi0 := Int.emod_nonneg i (show data.rows ≠ 0 by omega)
  have hi2 := Int.emod_lt_of_pos i (show 0 < data.rows by omega)
  have hj0 := Int.emod_nonneg j (show data.cols ≠ 0 by omega)
  have hj2 := Int.emod_lt_of_pos j (show 0 < data.cols by omega)
  rw [wrap_mod hr hi hi1 hfit.2.1, wrap_mod hc hj hj1 hfit.2.2]
  simp only [Option.bind_eq_bind, Option.some_bind, load_cell h data hfit hlen hi0 hi2 hj0 hj2]
  split_ifs <;> simp

theorem cell_state_eq (h : Heap) (data : gol_data) {x y : Int}
    (hfit : fits data.rows data.cols)
    (hlen : ((h.block data.array).length : Int) = data.rows * data.cols)
    (hx0 : 0 ≤ x) (hx : x < data.rows) (hy0 : 0 ≤ y) (hy : y < data.cols) :
    cell_state h x y data
      = some (next_state (h.block data.array) data.rows data.cols x y) := by
  have hr : 1 ≤ data.rows := by omega
  have hc : 1 ≤ data.cols := by omega
  have hcount : (intRange (x - 1) (x + 1)).foldlM (fun liveCells i =>
      (intRange (y - 1) (y + 1)).foldlM (fun liveCells j => do
        let wi ← c_mod (to_int (i + data.rows)) data.rows
        let wj ← c_mod (to_int (j + data.cols)) data.cols
        let v ← deref h data (get_value_at wi wj data)
        pure (if v = 1 then liveCells + 1 else liveCells)) liveCells) (0 : Int)
      = some (live_count (h.block data.array) data.rows data.cols x y) := by
    rw [foldlM_some_add _ (fun i => ([y - 1, y, y + 1].map (fun j =>
      if cell (h.block data.array) data.cols (i % data.rows) (j % data.cols) = 1
      then (1 : Int) else 0)).sum)]
    · simp [live_count, intRange_three]
    · intro i hi s
      rw [foldlM_some_add _ (fun j =>
        if cell (h.block data.array) data.cols (i % data.rows) (j % data.cols) = 1
        then (1 : Int) else 0)]
      · simp [intRange_three]
      · intro j hj s1
        rw [intRange_three] at hi hj
        simp only [List.mem_cons, List.mem_singleton, List.not_mem_nil, or_false] at hi hj
        exact read_wrapped h data s1 hfit hlen hr hc (by omega) (by omega) (by omega)
          (by omega)
  unfold cell_state
  simp only [Option.bind_eq_bind, Option.pure_def] at hcount
  simp only [hcount, Option.bind_eq_bind, Option.some_bind,
    load_cell h data hfit hlen hx0 hx hy0 hy, next_state, Option.pure_def]
  split_ifs <;> rfl

theorem cell_binary {g : List Int} (hbin : ∀ v ∈ g, v = 0 ∨ v = 1) (cols x y : Int) :
    cell g cols x y = 0 ∨ cell g cols x y = 1 := by
  unfold cell
  rcases Nat.lt_or_ge (x * cols + y).toNat g.length with hlt | hge
  · rw [List.getD_eq_getElem _ _ hlt]
    exact hbin _ (List.getElem_mem _)
  · left
    simp [List.getD, List.getElem?_eq_none hge]

theorem live_count_binary {g : List Int} (hbin : ∀ v ∈ g, v = 0 ∨ v = 1)
    (rows cols x y : Int) :
    live_count g rows cols x y = neighbour_count g rows cols x y + cell g cols x y := by
  have e : ∀ a b, (if cell g cols a b = 1 then (1 : Int) else 0) = cell g cols a b := by
    intro a b
    rcases cell_binary hbin cols a b with h0 | h1
    · simp [h0]
    · simp [h1]
  simp only [live_count, neighbour_count, e, List.map_cons, List.map_nil, List.sum_cons,
    List.sum_nil, add_zero, Int.add_neg_one, sub_add_cancel]

/-- Claim C1, as the code has it. On a grid of `rows ≥ 1` by `cols ≥ 1` cells that
fits (`rows * cols`, `2 * rows` and `2 * cols` at most `INT_MAX`) and whose cells
are all 0 or 1, and for an in-range cell `(x, y)`, `cell_state` returns 0 when the
toroidal neighbour count `c` of the specification satisfies `c ≤ 1` or `c ≥ 4`,
returns 1 when `c = 3`, and returns the current value of the cell when `c = 2`. -/
theorem cell_state_conway (h : Heap) (data : gol_data) (x y : Int)
    (hfit : fits data.rows data.cols)
    (hlen : ((h.block data.array).length : Int) = data.rows * data.cols)
    (hbin : ∀ v ∈ h.block data.array, v = 0 ∨ v = 1)
    (hx : 0 ≤ x ∧ x < data.rows) (hy : 0 ≤ y ∧ y < data.cols) :
    (neighbour_count (h.block data.array) data.rows data.cols x y ≤ 1 ∨
      4 ≤ neighbour_count (h.block data.array) data.rows data.cols x y →
        cell_state h x y data = some 0) ∧
    (neighbour_count (h.block data.array) data.rows data.cols x y = 3 →
        cell_state h x y data = some 1) ∧
    (neighbour_count (h.block data.array) data.rows data.cols x y = 2 →
        cell_state h x y data = some (cell (h.block data.array) data.cols x y)) := by
  rw [cell_state_eq h data hfit hlen hx.1 hx.2 hy.1 hy.2]
  simp only [next_state, live_count_binary hbin, add_sub_cancel_right]
  refine ⟨fun hc1 => ?_, fun h3 => ?_, fun h2 => ?_⟩
  · rw [if_pos (by omega)]
  · rw [if_neg (by omega), if_pos h3]
  · rw [if_neg (by omega), if_neg (by omega)]

theorem cell_state_conway_witness :
    (fits ex_data.rows ex_data.cols ∧
      ((ex_heap.block ex_data.array).length : Int) = ex_data.rows * ex_data.cols ∧
      (∀ v ∈ ex_heap.block ex_data.array, v = 0 ∨ v = 1) ∧
      (0 ≤ (1 : Int) ∧ (1 : Int) < ex_data.rows) ∧ (0 ≤ (2 : Int) ∧ (2 : Int) < ex_data.cols)) ∧
    cell_state ex_heap 1 2 ex_data = some 1 :=
  ⟨⟨by decide, by decide, by decide, by decide, by decide⟩,
    (cell_state_conway ex_heap ex_data 1 2 (by decide) (by decide) (by decide) (by decide)
      (by decide)).2.1 (by decide)⟩

/-! ### The partitioner: `partition` -/

theorem intRange_length (lo hi : Int) : (intRange lo hi).length = (hi + 1 - lo).toNat := by
  simp [intRange]

theorem intRange_succ {lo hi : Int} (h : lo ≤ hi + 1) :
    intRange lo (hi + 1) = intRange lo hi ++ [hi + 1] := by
  unfold intRange
  have e : (hi + 1 + 1 - lo).toNat = (hi + 1 - lo).toNat + 1 := by omega
  rw [e, List.range_succ, List.map_append]
  simp only [List.map_cons, List.map_nil, List.append_cancel_left_eq, List.cons.injEq, and_true]
  omega

theorem intRange_empty {lo hi : Int} (h : hi < lo) : intRange lo hi = [] := by
  unfold intRange
  have e : (hi + 1 - lo).toNat = 0 := by omega
  simp [e]

theorem mem_intRange {lo hi i : Int} : i ∈ intRange lo hi ↔ lo ≤ i ∧ i ≤ hi := by
  simp only [intRange, List.mem_map, List.mem_range]
  constructor
  · rintro ⟨n, hn, rfl⟩
    omega
  · intro h
    exact ⟨(i - lo).toNat, by omega, by omega⟩

theorem start_fold (q R : Int) (hR : 0 ≤ R) (m : Nat) :
    (intRange 0 ((m : Int) - 1)).foldl (fun start i =>
      if i < R then start + (q + 1) else start + (q + 1 - 1)) (0 : Int)
      = m * q + min (m : Int) R := by
  induction m with
  | zero => 
    rw [intRange_empty (by simp)]
    simp
    omega
  | succ m ih =>
    have e : ((m + 1 : Nat) : Int) - 1 = ((m : Int) - 1) + 1 := by push_cast; ring
    rw [e, intRange_succ (by omega), List.foldl_append, ih]
    simp only [List.foldl_cons, List.foldl_nil, sub_add_cancel]
    have e2 : ((m + 1 : Nat) : Int) * q = m * q + q := by push_cast; ring
    rw [e2]
    split_ifs <;> push_cast <;> omega

theorem part_point_succ (n T k : Int) :
    part_point n T (k + 1) = part_point n T k + (if k < n % T then n / T + 1 else n / T) := by
  unfold part_point
  have e : (k + 1) * (n / T) = k * (n / T) + n / T := by ring
  rw [e]
  split_ifs <;> omega

theorem part_point_zero (n T : Int) (hT : 1 ≤ T) : part_point n T 0 = 0 := by
  have := Int.emod_nonneg n (show T ≠ 0 by omega)
  simp [part_point, this]

theorem part_point_last (n T : Int) (hT : 1 ≤ T) : part_point n T T = n := by
  have h1 := Int.emod_lt_of_pos n (show 0 < T by omega)
  have h2 := Int.emod_add_ediv n T
  unfold part_point
  rw [min_eq_right h1.le]
  have e : T * (n / T) = n / T * T := mul_comm _ _
  omega

theorem part_point_step (n T k : Int) (hn : 0 ≤ n) (hT : 1 ≤ T) :
    part_point n T k ≤ part_point n T (k + 1) := by
  have := Int.ediv_nonneg hn (show 0 ≤ T by omega)
  rw [part_point_succ]
  split_ifs <;> omega

theorem part_point_mono (n T : Int) (hn : 0 ≤ n) (hT : 1 ≤ T) {k k1 : Int} (hk : k ≤ k1) :
    part_point n T k ≤ part_point n T k1 := by
  obtain ⟨d, rfl⟩ : ∃ d : Nat, k1 = k + d := ⟨(k1 - k).toNat, by omega⟩
  clear hk
  induction d with
  | zero => simp
  | succ d ih =>
    have := part_point_step n T (k + d) hn hT
    have e : k + ((d + 1 : Nat) : Int) = k + d + 1 := by push_cast; ring
    rw [e]
    omega

/-- The value of `partition` in closed form. -/
theorem partition_eq (data : gol_data) (hn : 0 ≤ axis_len data) (hT : 1 ≤ data.num_threads)
    (hk : 0 ≤ data.id) :
    partition data = some (part_of data data.id) := by
  have hT0 : data.num_threads ≠ 0 := by omega
  have hR0 := Int.emod_nonneg (axis_len data) hT0
  have hmod : c_mod (axis_len data) data.num_threads
      = some (axis_len data % data.num_threads) := by
    simp [c_mod, hT0, Int.tmod_eq_emod hn (show 0 ≤ data.num_threads by omega)]
  have hdiv : c_div (axis_len data - axis_len data % data.num_threads) data.num_threads
      = some (axis_len data / data.num_threads) := by
    have h1 : axis_len data - axis_len data % data.num_threads
        = data.num_threads * (axis_len data / data.num_threads) := by
      have := Int.emod_add_ediv (axis_len data) data.num_threads
      omega
    have h2 := Int.ediv_nonneg hn (show 0 ≤ data.num_threads by omega)
    have h3 : 0 ≤ data.num_threads * (axis_len data / data.num_threads) :=
      mul_nonneg (by omega) h2
    rw [h1]
    simp [c_div, hT0, Int.tdiv_eq_ediv h3 (show 0 ≤ data.num_threads by omega),
      Int.mul_ediv_cancel_left _ hT0]
  have hfold := start_fold (axis_len data / data.num_threads)
    (axis_len data % data.num_threads) hR0 data.id.toNat
  rw [Int.toNat_of_nonneg hk] at hfold
  have hsucc := part_point_succ (axis_len data) data.num_threads data.id
  unfold partition part_of
  simp only []
  rw [show (if data.grid_allocation ≠ 0 then data.cols else data.rows) = axis_len data from rfl]
  simp only [hmod, hdiv, Option.bind_eq_bind, Option.some_bind, hfold, Option.pure_def]
  unfold part_point at hsucc ⊢
  rw [hsucc]
  split_ifs <;> simp only [Option.some.injEq, Part.mk.injEq, true_and, and_true] <;> omega

theorem partition_lo_hi (data : gol_data) (hn : 0 ≤ axis_len data)
    (hT : 1 ≤ data.num_threads) {k : Int} (hk : 0 ≤ k) {p : Part}
    (hp : partition { data with id := k } = some p) :
    p.lo data = part_point (axis_len data) data.num_threads k ∧
    p.hi data = part_point (axis_len data) data.num_threads (k + 1) - 1 := by
  rw [partition_eq { data with id := k } hn hT hk] at hp
  simp only [Option.some.injEq] at hp
  subst hp
  unfold Part.lo Part.hi part_of
  by_cases hg : data.grid_allocation ≠ 0
  · rw [if_pos hg, if_pos hg, if_pos hg]
    exact ⟨rfl, rfl⟩
  · rw [if_neg hg, if_neg hg, if_neg hg]
    exact ⟨rfl, rfl⟩

theorem partition_some (data : gol_data) (hn : 0 ≤ axis_len data)
    (hT : 1 ≤ data.num_threads) {k : Int} (hk : 0 ≤ k) :
    ∃ p, partition { data with id := k } = some p :=
  ⟨_, partition_eq { data with id := k } hn hT hk⟩

theorem part_point_cover (n T : Int) (hT : 1 ≤ T) (i : Int) (hi : 0 ≤ i) (m : Nat)
    (him : i < part_point n T m) :
    ∃ k : Int, 0 ≤ k ∧ k < m ∧ part_point n T k ≤ i ∧ i < part_point n T (k + 1) := by
  induction m with
  | zero =>
    rw [Nat.cast_zero, part_point_zero n T hT] at him
    omega
  | succ m ih =>
    by_cases h : i < part_point n T m
    · obtain ⟨k, h0, h1, h2, h3⟩ := ih h
      exact ⟨k, h0, by push_cast; omega, h2, h3⟩
    · refine ⟨m, by omega, by push_cast; omega, by omega, ?_⟩
      have e : ((m + 1 : Nat) : Int) = (m : Int) + 1 := by push_cast; ring
      rw [e] at him
      exact him

/-- Claim C2. For an axis of length `N ≥ 0` split among `T ≥ 1` threads, `partition`
returns bounds for every thread id `k = 0..T-1`; an index lies in `[0, N)` exactly
when it lies in the inclusive range `[start, end]` of some thread; and no index
lies in the ranges of two different threads. -/
theorem partition_coverage (data : gol_data) (hN : 0 ≤ axis_len data)
    (hT : 1 ≤ data.num_threads) :
    (∀ k : Int, 0 ≤ k → k < data.num_threads →
      ∃ p, partition { data with id := k } = some p) ∧
    (∀ i : Int, (0 ≤ i ∧ i < axis_len data) ↔
      ∃ k p, 0 ≤ k ∧ k < data.num_threads ∧ partition { data with id := k } = some p ∧
        p.lo data ≤ i ∧ i ≤ p.hi data) ∧
    (∀ (k k1 : Int) (p p1 : Part) (i : Int), 0 ≤ k → k < data.num_threads →
      0 ≤ k1 → k1 < data.num_threads →
      partition { data with id := k } = some p →
      partition { data with id := k1 } = some p1 →
      p.lo data ≤ i → i ≤ p.hi data → p1.lo data ≤ i → i ≤ p1.hi data → k = k1) := by
  refine ⟨fun k hk _ => partition_some data hN hT hk, fun i => ⟨?_, ?_⟩, ?_⟩
  · rintro ⟨hi0, hi1⟩
    have hlast := part_point_last (axis_len data) data.num_threads hT
    have hcast : ((data.num_threads.toNat : Nat) : Int) = data.num_threads :=
      Int.toNat_of_nonneg (by omega)
    obtain ⟨k, h0, h1, h2, h3⟩ := part_point_cover (axis_len data) data.num_threads hT i hi0
      data.num_threads.toNat (by rw [hcast, hlast]; exact hi1)
    obtain ⟨p, hp⟩ := partition_some data hN hT h0
    obtain ⟨hlo, hhi⟩ := partition_lo_hi data hN hT h0 hp
    exact ⟨k, p, h0, by omega, hp, by omega, by omega⟩
  · rintro ⟨k, p, h0, h1, hp, h2, h3⟩
    obtain ⟨hlo, hhi⟩ := partition_lo_hi data hN hT h0 hp
    have hz := part_point_zero (axis_len data) data.num_threads hT
    have hlast := part_point_last (axis_len data) data.num_threads hT
    have m1 := part_point_mono (axis_len data) data.num_threads hN hT h0
    have m2 := part_point_mono (axis_len data) data.num_threads hN hT
      (show k + 1 ≤ data.num_threads by omega)
    omega
  · intro k k1 p p1 i h0 _ h10 _ hp hp1 a1 a2 b1 b2
    obtain ⟨hlo, hhi⟩ := partition_lo_hi data hN hT h0 hp
    obtain ⟨hlo1, hhi1⟩ := partition_lo_hi data hN hT h10 hp1
    by_contra hne
    rcases lt_or_gt_of_ne hne with hlt | hgt
    · have := part_point_mono (axis_len data) data.num_threads hN hT
        (show k + 1 ≤ k1 by omega)
      omega
    · have := part_point_mono (axis_len data) data.num_threads hN hT
        (show k1 + 1 ≤ k by omega)
      omega

theorem partition_coverage_witness :
    (0 ≤ axis_len ex_data ∧ 1 ≤ ex_data.num_threads) ∧
    (∀ i : Int, (0 ≤ i ∧ i < axis_len ex_data) ↔
      ∃ k p, 0 ≤ k ∧ k < ex_data.num_threads ∧
        partition { ex_data with id := k } = some p ∧
        p.lo ex_data ≤ i ∧ i ≤ p.hi ex_data) :=
  ⟨⟨by decide, by decide⟩, (partition_coverage ex_data (by decide) (by decide)).2.1⟩

theorem floor_rat_div (n T : Int) (hT : 1 ≤ T) : ⌊(n : ℚ) / (T : ℚ)⌋ = n / T := by
  have h := Rat.floor_intCast_div_natCast n T.toNat
  have e : ((T.toNat : Nat) : Int) = T := Int.toNat_of_nonneg (by omega)
  have e2 : ((T.toNat : Nat) : ℚ) = (T : ℚ) := by
    rw [← Int.cast_natCast, e]
  rw [e, e2] at h
  exact h

theorem ceil_rat_div (n T : Int) (hT : 1 ≤ T) (hr : 0 < n % T) :
    ⌈(n : ℚ) / (T : ℚ)⌉ = n / T + 1 := by
  have h1 : ⌈(n : ℚ) / (T : ℚ)⌉ = -⌊((-n : Int) : ℚ) / (T : ℚ)⌋ := by
    rw [← Int.ceil_neg]
    congr 1
    push_cast
    ring
  rw [h1, floor_rat_div _ _ hT]
  have hlt := Int.emod_lt_of_pos n (show 0 < T by omega)
  have hsum := Int.emod_add_ediv n T
  have h2 : -n / T = -(n / T) - 1 ∧ -n % T = T - n % T := by
    rw [Int.ediv_emod_unique (show 0 < T by omega)]
    refine ⟨?_, by omega, by omega⟩
    have e : T * (-(n / T) - 1) = -(T * (n / T)) - T := by ring
    omega
  omega

theorem part_size_eq (data : gol_data) (hn : 0 ≤ axis_len data)
    (hT : 1 ≤ data.num_threads) {k : Int} (hk : 0 ≤ k) :
    part_size data k = part_point (axis_len data) data.num_threads (k + 1)
      - part_point (axis_len data) data.num_threads k := by
  obtain ⟨p, hp⟩ := partition_some data hn hT hk
  obtain ⟨hlo, hhi⟩ := partition_lo_hi data hn hT hk hp
  simp only [part_size, hp]
  omega

theorem part_size_sum (data : gol_data) (hn : 0 ≤ axis_len data)
    (hT : 1 ≤ data.num_threads) (m : Nat) :
    ((intRange 0 ((m : Int) - 1)).map (part_size data)).sum
      = part_point (axis_len data) data.num_threads m := by
  induction m with
  | zero =>
    rw [intRange_empty (by simp), Nat.cast_zero, part_point_zero _ _ hT]
    rfl
  | succ m ih =>
    have e : ((m + 1 : Nat) : Int) - 1 = ((m : Int) - 1) + 1 := by push_cast; ring
    have e2 : ((m + 1 : Nat) : Int) = (m : Int) + 1 := by push_cast; ring
    rw [e, intRange_succ (by omega), List.map_append, List.sum_append, ih, sub_add_cancel,
      e2]
    simp only [List.map_cons, List.map_nil, List.sum_cons, List.sum_nil, add_zero]
    rw [part_size_eq data hn hT (by omega)]
    omega

/-- Claim C3. For an axis of length `N ≥ 0`, `T ≥ 1` threads and a thread id
`k` in `[0, T)`, `partition` gives thread `k` a range of `ceil(N/T)` indices
when `k < N mod T` and of `floor(N/T)` indices otherwise; the range starts at
the sum of the sizes of threads `0..k-1`; every size is `floor(N/T)` or
`floor(N/T) + 1`, and the sizes of two threads differ by at most 1. -/
theorem partition_sizes (data : gol_data) (hN : 0 ≤ axis_len data)
    (hT : 1 ≤ data.num_threads) (k : Int) (hk0 : 0 ≤ k) (_hk : k < data.num_threads) :
    ∃ p, partition { data with id := k } = some p ∧
      p.hi data - p.lo data + 1
        = (if k < axis_len data % data.num_threads
            then ⌈(axis_len data : ℚ) / (data.num_threads : ℚ)⌉
            else ⌊(axis_len data : ℚ) / (data.num_threads : ℚ)⌋) ∧
      p.lo data = ((intRange 0 (k - 1)).map (part_size data)).sum ∧
      (p.hi data - p.lo data + 1 = ⌊(axis_len data : ℚ) / (data.num_threads : ℚ)⌋ ∨
        p.hi data - p.lo data + 1
          = ⌊(axis_len data : ℚ) / (data.num_threads : ℚ)⌋ + 1) ∧
      ∀ (k1 : Int) (p1 : Part), 0 ≤ k1 → k1 < data.num_threads →
        partition { data with id := k1 } = some p1 →
        |(p.hi data - p.lo data + 1) - (p1.hi data - p1.lo data + 1)| ≤ 1 := by
  obtain ⟨p, hp⟩ := partition_some data hN hT hk0
  obtain ⟨hlo, hhi⟩ := partition_lo_hi data hN hT hk0 hp
  have hsucc := part_point_succ (axis_len data) data.num_threads k
  have hR0 := Int.emod_nonneg (axis_len data) (show data.num_threads ≠ 0 by omega)
  have hfl := floor_rat_div (axis_len data) data.num_threads hT
  have hsize : p.hi data - p.lo data + 1
      = if k < axis_len data % data.num_threads then axis_len data / data.num_threads + 1
        else axis_len data / data.num_threads := by
    rw [hlo, hhi, hsucc]
    ring
  refine ⟨p, hp, ?_, ?_, ?_, ?_⟩
  · rw [hsize, hfl]
    split_ifs with hlt
    · rw [ceil_rat_div _ _ hT (by omega)]
    · rfl
  · have hs := part_size_sum data hN hT k.toNat
    rw [Int.toNat_of_nonneg hk0] at hs
    rw [hs, hlo]
  · rw [hsize, hfl]
    split_ifs
    · right; rfl
    · left; rfl
  · intro k1 p1 h10 _ hp1
    obtain ⟨hlo1, hhi1⟩ := partition_lo_hi data hN hT h10 hp1
    have hsucc1 := part_point_succ (axis_len data) data.num_threads k1
    have hsize1 : p1.hi data - p1.lo data + 1
        = if k1 < axis_len data % data.num_threads then axis_len data / data.num_threads + 1
          else axis_len data / data.num_threads := by
      rw [hlo1, hhi1, hsucc1]
      ring
    rw [hsize, hsize1, abs_le]
    split_ifs <;> constructor <;> omega

theorem partition_sizes_witness :
    (0 ≤ axis_len ex_data ∧ 1 ≤ ex_data.num_threads ∧ (0 : Int) ≤ 1 ∧
      (1 : Int) < ex_data.num_threads) ∧
    ∃ p, partition { ex_data with id := 1 } = some p ∧ p.lo ex_data = 1 ∧ p.hi ex_data = 1 ∧
      p.lo ex_data = ((intRange 0 (1 - 1)).map (part_size ex_data)).sum := by
  refine ⟨⟨by decide, by decide, by decide, by decide⟩, ?_⟩
  obtain ⟨p, hp, _, hsum, _, _⟩ :=
    partition_sizes ex_data (by decide) (by decide) 1 (by decide) (by decide)
  have hp2 : partition { ex_data with id := 1 }
      = some { start_row := 1, start_col := 0, end_row := 1, end_col := 4 } := by decide
  rw [hp2] at hp
  simp only [Option.some.injEq] at hp
  subst hp
  exact ⟨_, hp2, by decide, by decide, hsum⟩

/-! ### One round of all threads -/

theorem block_set_block_same (h : Heap) (p : Bool) (g : List Int) :
    (h.set_block p g).block p = g := by
  cases p <;> rfl

theorem block_set_block_other (h : Heap) {p q : Bool} (g : List Int) (hq : q ≠ p) :
    (h.set_block p g).block q = h.block q := by
  cases p <;> cases q <;> first | rfl | exact absurd rfl hq

theorem total_live_set_block (h : Heap) (p : Bool) (g : List Int) :
    (h.set_block p g).total_live = h.total_live := by
  cases p <;> rfl

theorem set_block_set_block (h : Heap) (p : Bool) (g g1 : List Int) :
    (h.set_block p g).set_block p g1 = h.set_block p g1 := by
  cases p <;> rfl

theorem set_block_self (h : Heap) (p : Bool) : h.set_block p (h.block p) = h := by
  cases p <;> rfl

theorem store_eq (h : Heap) (p : Bool) {off : Int} (v : Int) (h0 : 0 ≤ off)
    (h1 : off < ((h.block p).length : Int)) :
    h.store p off v = some (h.set_block p ((h.block p).set off.toNat v)) := by
  simp [Heap.store, h0, h1]

/-- The body of the computing loop at an in-range cell. -/
theorem body_step (d : gol_data) (hfit : fits d.rows d.cols) (st : Heap × Int)
    {j k : Int} (hj0 : 0 ≤ j) (hj : j < d.rows) (hk0 : 0 ≤ k) (hk : k < d.cols)
    (hlenA : ((st.1.block d.array).length : Int) = d.rows * d.cols)
    (hlenN : ((st.1.block d.next_board).length : Int) = d.rows * d.cols) :
    compute_cell d st j k
    = some (st.1.set_block d.next_board
        ((st.1.block d.next_board).set (j * d.cols + k).toNat
          (next_state (st.1.block d.array) d.rows d.cols j k)),
        st.2 + next_state (st.1.block d.array) d.rows d.cols j k) := by
  obtain ⟨b0, b1⟩ := idx_bounds hj0 hj hk0 hk
  unfold compute_cell
  rw [cell_state_eq st.1 d hfit hlenA hj0 hj hk0 hk, index_eq hfit hj0 hj hk0 hk]
  simp only [Option.bind_eq_bind, Option.some_bind]
  rw [store_eq st.1 d.next_board _ b0 (by omega)]
  rfl

theorem write_cells_length (cols : Int) (f : Int → Int → Int) (g : List Int)
    (l : List (Int × Int)) : (write_cells cols f g l).length = g.length := by
  induction l generalizing g with
  | nil => rfl
  | cons c l ih =>
    simp only [write_cells, List.foldl_cons] at ih ⊢
    rw [ih]
    simp

/-- The computing loop over a list of in-range cells. -/
theorem fold_cells (d : gol_data) (hfit : fits d.rows d.cols) (hne : d.array ≠ d.next_board)
    (l : List (Int × Int))
    (hl : ∀ c ∈ l, (0 ≤ c.1 ∧ c.1 < d.rows) ∧ (0 ≤ c.2 ∧ c.2 < d.cols))
    (h0 : Heap) (a : Int)
    (hlenA : ((h0.block d.array).length : Int) = d.rows * d.cols)
    (hlenN : ((h0.block d.next_board).length : Int) = d.rows * d.cols) :
    l.foldlM (fun (st : Heap × Int) (c : Int × Int) => compute_cell d st c.1 c.2) (h0, a)
    = some (h0.set_block d.next_board
        (write_cells d.cols (next_state (h0.block d.array) d.rows d.cols)
          (h0.block d.next_board) l),
        a + (l.map (fun c => next_state (h0.block d.array) d.rows d.cols c.1 c.2)).sum) := by
  induction l generalizing h0 a with
  | nil =>
    simp [write_cells, set_block_self]
  | cons c l ih =>
    obtain ⟨⟨hj0, hj⟩, hk0, hk⟩ := hl c (List.mem_cons_self _ _)
    rw [List.foldlM_cons, body_step d hfit (h0, a) hj0 hj hk0 hk hlenA hlenN]
    simp only [Option.bind_eq_bind, Option.some_bind]
    have eA := block_set_block_other h0 ((h0.block d.next_board).set (c.1 * d.cols + c.2).toNat
      (next_state (h0.block d.array) d.rows d.cols c.1 c.2)) hne
    have eN := block_set_block_same h0 d.next_board
      ((h0.block d.next_board).set (c.1 * d.cols + c.2).toNat
        (next_state (h0.block d.array) d.rows d.cols c.1 c.2))
    rw [ih (fun c1 hc1 => hl c1 (List.mem_cons_of_mem _ hc1)) _ _
      (by rw [eA]; exact hlenA) (by rw [eN, List.length_set]; exact hlenN)]
    rw [eA, eN, set_block_set_block]
    simp [write_cells, add_assoc]

theorem foldlM_nested {σ : Type} (xs ys : List Int) (f : σ → Int → Int → Option σ) (s : σ) :
    xs.foldlM (fun st j => ys.foldlM (fun st k => f st j k) st) s
      = (xs.flatMap (fun j => ys.map (fun k => (j, k)))).foldlM (fun st c => f st c.1 c.2) s := by
  induction xs generalizing s with
  | nil => rfl
  | cons x xs ih =>
    rw [List.foldlM_cons, List.flatMap_cons, List.foldlM_append, List.foldlM_map]
    congr 1
    funext s1
    exact ih s1

theorem compute_partition_eq (t : Thread) (h : Heap) :
    compute_partition t h
      = (cells_of t.part).foldlM (fun st c => compute_cell t.data st c.1 c.2) (h, 0) := by
  unfold compute_partition cells_of
  exact foldlM_nested _ _ (fun st j k => compute_cell t.data st j k) (h, 0)

theorem part_point_nonneg (n T : Int) (hn : 0 ≤ n) (hT : 1 ≤ T) {k : Int} (hk : 0 ≤ k) :
    0 ≤ part_point n T k := by
  have h1 := part_point_mono n T hn hT hk
  rw [part_point_zero n T hT] at h1
  exact h1

theorem part_point_le (n T : Int) (hn : 0 ≤ n) (hT : 1 ≤ T) {k : Int} (hk : k ≤ T) :
    part_point n T k ≤ n := by
  have h1 := part_point_mono n T hn hT hk
  rw [part_point_last n T hT] at h1
  exact h1

theorem cells_in_range (data : gol_data) (hr : 0 ≤ data.rows) (hc : 0 ≤ data.cols)
    (hT : 1 ≤ data.num_threads) {k : Int} (hk0 : 0 ≤ k) (hk : k < data.num_threads) :
    ∀ c ∈ cells_of (part_of data k),
      (0 ≤ c.1 ∧ c.1 < data.rows) ∧ (0 ≤ c.2 ∧ c.2 < data.cols) := by
  intro c hc1
  have hn : 0 ≤ axis_len data := by
    unfold axis_len
    split_ifs <;> assumption
  have h1 := part_point_nonneg (axis_len data) data.num_threads hn hT hk0
  have h2 := part_point_le (axis_len data) data.num_threads hn hT (show k + 1 ≤ _ by omega)
  simp only [cells_of, List.mem_flatMap, List.mem_map, mem_intRange] at hc1
  obtain ⟨j, hj, i, hi, rfl⟩ := hc1
  unfold part_of axis_len at *
  split_ifs at * <;> simp only [] at * <;> omega

theorem write_cells_append (cols : Int) (f : Int → Int → Int) (g : List Int)
    (l1 l2 : List (Int × Int)) :
    write_cells cols f g (l1 ++ l2) = write_cells cols f (write_cells cols f g l1) l2 := by
  simp [write_cells, List.foldl_append]

/-- The computing loop of thread `k`: the cells of its part are written into
the other block and counted. -/
theorem compute_partition_spec (data : gol_data) (hfit : fits data.rows data.cols) (p : Bool)
    (hr : 0 ≤ data.rows)
    (hc : 0 ≤ data.cols) (hT : 1 ≤ data.num_threads) {k : Int} (hk0 : 0 ≤ k)
    (hk : k < data.num_threads) (h0 : Heap)
    (hlenA : ((h0.block p).length : Int) = data.rows * data.cols)
    (hlenN : ((h0.block (!p)).length : Int) = data.rows * data.cols) :
    compute_partition (thread_at data p k) h0
      = some (h0.set_block (!p) (write_cells data.cols
          (next_state (h0.block p) data.rows data.cols) (h0.block (!p))
          (cells_of (part_of data k))),
        0 + ((cells_of (part_of data k)).map
          (fun c => next_state (h0.block p) data.rows data.cols c.1 c.2)).sum) := by
  have hne : (thread_at data p k).data.array ≠ (thread_at data p k).data.next_board := by
    simp [thread_at]
  rw [compute_partition_eq]
  exact fold_cells (thread_at data p k).data hfit hne _ (cells_in_range data hr hc hT hk0 hk) h0 0
    hlenA hlenN

/-- One thread's share of a round: the cells of its part are written into the
other block, its pointers are swapped and its count is added to `total_live`. -/
theorem round_body_spec (data : gol_data) (hfit : fits data.rows data.cols) (p : Bool)
    (hr : 0 ≤ data.rows) (hc : 0 ≤ data.cols)
    (hT : 1 ≤ data.num_threads) {k : Int} (hk0 : 0 ≤ k) (hk : k < data.num_threads)
    (h0 : Heap)
    (hlenA : ((h0.block p).length : Int) = data.rows * data.cols)
    (hlenN : ((h0.block (!p)).length : Int) = data.rows * data.cols) :
    round_body (thread_at data p k) h0
      = some (thread_at data (!p) k,
          { h0.set_block (!p) (write_cells data.cols (next_state (h0.block p) data.rows data.cols)
              (h0.block (!p)) (cells_of (part_of data k))) with
            total_live := h0.total_live
              + ((cells_of (part_of data k)).map
                  (fun c => next_state (h0.block p) data.rows data.cols c.1 c.2)).sum }) := by
  unfold round_body
  rw [compute_partition_spec data hfit p hr hc hT hk0 hk h0 hlenA hlenN]
  simp [thread_at, total_live_set_block]

/-- The threads of a list of ids execute their share of a round one after the
other. -/
theorem run_bodies_spec (data : gol_data) (hfit : fits data.rows data.cols) (p : Bool)
    (hr : 0 ≤ data.rows) (hc : 0 ≤ data.cols)
    (hT : 1 ≤ data.num_threads) (ks : List Int)
    (hks : ∀ k ∈ ks, 0 ≤ k ∧ k < data.num_threads) (h0 : Heap)
    (hlenA : ((h0.block p).length : Int) = data.rows * data.cols)
    (hlenN : ((h0.block (!p)).length : Int) = data.rows * data.cols) :
    run_bodies (ks.map (thread_at data p)) h0
      = some (ks.map (thread_at data (!p)),
          { h0.set_block (!p) (write_cells data.cols (next_state (h0.block p) data.rows data.cols)
              (h0.block (!p)) (ks.flatMap (fun k => cells_of (part_of data k)))) with
            total_live := h0.total_live
              + ((ks.flatMap (fun k => cells_of (part_of data k))).map
                  (fun c => next_state (h0.block p) data.rows data.cols c.1 c.2)).sum }) := by
  induction ks generalizing h0 with
  | nil => 
    simp [run_bodies, write_cells, set_block_self]
  | cons k ks ih =>
    obtain ⟨hk0, hk⟩ := hks k (List.mem_cons_self _ _)
    have hpn : p ≠ !p := by cases p <;> simp
    simp only [List.map_cons, run_bodies]
    rw [round_body_spec data hfit p hr hc hT hk0 hk h0 hlenA hlenN]
    simp only [Option.bind_eq_bind, Option.some_bind]
    have eA : ∀ g tl, (({ h0.set_block (!p) g with total_live := tl } : Heap)).block p
        = h0.block p := by
      intro g tl
      cases p <;> rfl
    have eN : ∀ g tl, (({ h0.set_block (!p) g with total_live := tl } : Heap)).block (!p)
        = g := by
      intro g tl
      cases p <;> rfl
    rw [ih (fun k1 hk1 => hks k1 (List.mem_cons_of_mem _ hk1)) _
      (by rw [eA]; exact hlenA) (by rw [eN, write_cells_length]; exact hlenN)]
    simp only [eA, eN, Option.some_bind, Option.pure_def, List.flatMap_cons, write_cells_append,
      List.map_append, List.sum_append, Option.some.injEq, Prod.mk.injEq, true_and]
    cases p <;> simp [Heap.set_block, add_assoc]

theorem idx_inj {cols x y x1 y1 : Int} (hy0 : 0 ≤ y) (hy : y < cols) (hy10 : 0 ≤ y1)
    (hy1 : y1 < cols) (h : x * cols + y = x1 * cols + y1) : x = x1 ∧ y = y1 := by
  have hx : x = x1 := by
    by_contra hne
    rcases lt_or_gt_of_ne hne with hlt | hgt
    · have h1 : (x + 1) * cols ≤ x1 * cols :=
        mul_le_mul_of_nonneg_right (by omega) (by omega)
      have h2 : (x + 1) * cols = x * cols + cols := by ring
      omega
    · have h1 : (x1 + 1) * cols ≤ x * cols :=
        mul_le_mul_of_nonneg_right (by omega) (by omega)
      have h2 : (x1 + 1) * cols = x1 * cols + cols := by ring
      omega
  subst hx
  exact ⟨rfl, by omega⟩

/-- After the writes of a list of in-range cells, the cell `(x, y)` holds `f x y`
if it is in the list or held that value before. -/
theorem write_cells_get (rows cols : Int) (f : Int → Int → Int) (l : List (Int × Int))
    (hl : ∀ c ∈ l, (0 ≤ c.1 ∧ c.1 < rows) ∧ (0 ≤ c.2 ∧ c.2 < cols))
    (g : List Int) (hlen : (g.length : Int) = rows * cols)
    {x y : Int} (hx0 : 0 ≤ x) (hx : x < rows) (hy0 : 0 ≤ y) (hy : y < cols)
    (h : (x, y) ∈ l ∨ g[(x * cols + y).toNat]? = some (f x y)) :
    (write_cells cols f g l)[(x * cols + y).toNat]? = some (f x y) := by
  induction l generalizing g with
  | nil =>
    rcases h with h | h
    · simp at h
    · exact h
  | cons c l ih =>
    obtain ⟨⟨cx0, cx⟩, cy0, cy⟩ := hl c (List.mem_cons_self _ _)
    obtain ⟨b0, b1⟩ := idx_bounds hx0 hx hy0 hy
    obtain ⟨d0, d1⟩ := idx_bounds cx0 cx cy0 cy
    simp only [write_cells, List.foldl_cons]
    apply ih (fun c1 hc1 => hl c1 (List.mem_cons_of_mem _ hc1))
    · rw [List.length_set]
      exact hlen
    · by_cases hcell : c = (x, y)
      · right
        subst hcell
        rw [List.getElem?_set]
        simp only [if_true]
        rw [if_pos (by omega)]
      · rcases h with h | h
        · rcases List.mem_cons.1 h with h | h
          · exact absurd h.symm hcell
          · left
            exact h
        · right
          rw [List.getElem?_set]
          have hne : (c.1 * cols + c.2).toNat ≠ (x * cols + y).toNat := by
            intro he
            have he2 : c.1 * cols + c.2 = x * cols + y := by omega
            obtain ⟨e1, e2⟩ := idx_inj cy0 cy hy0 hy he2
            exact hcell (Prod.ext e1 e2)
          rw [if_neg hne]
          exact h

theorem mk_board_length (rows cols : Int) (f : Int → Int → Int) :
    (mk_board rows cols f).length = (rows * cols).toNat := by
  simp [mk_board]

theorem div_mod_of_idx {cols x y : Int} (hy0 : 0 ≤ y) (hy : y < cols) :
    (x * cols + y) / cols = x ∧ (x * cols + y) % cols = y := by
  rw [Int.ediv_emod_unique (by omega)]
  refine ⟨?_, hy0, hy⟩
  rw [mul_comm]
  omega

theorem mk_board_get (rows cols : Int) (f : Int → Int → Int) {x y : Int}
    (hx0 : 0 ≤ x) (hx : x < rows) (hy0 : 0 ≤ y) (hy : y < cols) :
    (mk_board rows cols f)[(x * cols + y).toNat]? = some (f x y) := by
  obtain ⟨b0, b1⟩ := idx_bounds hx0 hx hy0 hy
  obtain ⟨e1, e2⟩ := div_mod_of_idx (x := x) hy0 hy
  have hlt : (x * cols + y).toNat < (rows * cols).toNat := by omega
  simp only [mk_board, List.getElem?_map, List.getElem?_range hlt, Option.map_some',
    Int.toNat_of_nonneg b0, e1, e2]

theorem cell_mk_board (rows cols : Int) (f : Int → Int → Int) {x y : Int}
    (hx0 : 0 ≤ x) (hx : x < rows) (hy0 : 0 ≤ y) (hy : y < cols) :
    cell (mk_board rows cols f) cols x y = f x y := by
  simp [cell, List.getD, mk_board_get rows cols f hx0 hx hy0 hy]

/-- A block of `rows * cols` cells that holds `f x y` at every in-range cell
`(x, y)` is the board of `f`. -/
theorem eq_mk_board (rows cols : Int) (hc : 0 < cols) (f : Int → Int → Int) (g : List Int)
    (hlen : (g.length : Int) = rows * cols)
    (hg : ∀ x y : Int, 0 ≤ x → x < rows → 0 ≤ y → y < cols →
      g[(x * cols + y).toNat]? = some (f x y)) :
    g = mk_board rows cols f := by
  apply List.ext_getElem?
  intro n
  by_cases hn : n < g.length
  · have hy0 := Int.emod_nonneg (n : Int) (show cols ≠ 0 by omega)
    have hy := Int.emod_lt_of_pos (n : Int) hc
    have hx0 : 0 ≤ (n : Int) / cols := Int.ediv_nonneg (by omega) (by omega)
    have hsum := Int.emod_add_ediv (n : Int) cols
    have hcomm : cols * ((n : Int) / cols) = (n : Int) / cols * cols := mul_comm _ _
    have hx : (n : Int) / cols < rows := by
      by_contra hge
      have h1 : rows * cols ≤ (n : Int) / cols * cols :=
        mul_le_mul_of_nonneg_right (by omega) (by omega)
      omega
    have e : ((n : Int) / cols * cols + (n : Int) % cols).toNat = n := by omega
    have h1 := hg _ _ hx0 hx hy0 hy
    have h2 := mk_board_get rows cols f hx0 hx hy0 hy
    rw [e] at h1 h2
    rw [h1, h2]
  · have h1 : g.length ≤ n := by omega
    have h2 : (mk_board rows cols f).length ≤ n := by
      rw [mk_board_length]
      omega
    rw [List.getElem?_eq_none h1, List.getElem?_eq_none h2]

theorem axis_len_nonneg (data : gol_data) (hr : 0 ≤ data.rows) (hc : 0 ≤ data.cols) :
    0 ≤ axis_len data := by
  unfold axis_len
  split_ifs <;> assumption

/-- Every in-range cell is visited by some thread. -/
theorem mem_all_cells (data : gol_data) (hr : 0 ≤ data.rows) (hc : 0 ≤ data.cols)
    (hT : 1 ≤ data.num_threads) {x y : Int} (hx0 : 0 ≤ x) (hx : x < data.rows)
    (hy0 : 0 ≤ y) (hy : y < data.cols) :
    (x, y) ∈ (intRange 0 (data.num_threads - 1)).flatMap
      (fun k => cells_of (part_of data k)) := by
  have hn := axis_len_nonneg data hr hc
  have hlast := part_point_last (axis_len data) data.num_threads hT
  have hcast : ((data.num_threads.toNat : Nat) : Int) = data.num_threads :=
    Int.toNat_of_nonneg (by omega)
  simp only [List.mem_flatMap, cells_of, List.mem_map, mem_intRange, Prod.mk.injEq]
  by_cases hg : data.grid_allocation ≠ 0
  · have hax : axis_len data = data.cols := by simp [axis_len, hg]
    obtain ⟨k, h0, h1, h2, h3⟩ := part_point_cover (axis_len data) data.num_threads hT y hy0
      data.num_threads.toNat (by rw [hcast, hlast, hax]; exact hy)
    refine ⟨k, ⟨h0, by omega⟩, x, ?_, y, ?_, rfl, rfl⟩
    · simp only [part_of, if_pos hg]
      omega
    · simp only [part_of, if_pos hg]
      omega
  · have hax : axis_len data = data.rows := by simp [axis_len, hg]
    obtain ⟨k, h0, h1, h2, h3⟩ := part_point_cover (axis_len data) data.num_threads hT x hx0
      data.num_threads.toNat (by rw [hcast, hlast, hax]; exact hx)
    refine ⟨k, ⟨h0, by omega⟩, x, ?_, y, ?_, rfl, rfl⟩
    · simp only [part_of, if_neg hg]
      omega
    · simp only [part_of, if_neg hg]
      omega

theorem all_cells_in_range (data : gol_data) (hr : 0 ≤ data.rows) (hc : 0 ≤ data.cols)
    (hT : 1 ≤ data.num_threads) :
    ∀ c ∈ (intRange 0 (data.num_threads - 1)).flatMap (fun k => cells_of (part_of data k)),
      (0 ≤ c.1 ∧ c.1 < data.rows) ∧ (0 ≤ c.2 ∧ c.2 < data.cols) := by
  intro c hc1
  obtain ⟨k, hk, hck⟩ := List.mem_flatMap.1 hc1
  rw [mem_intRange] at hk
  exact cells_in_range data hr hc hT hk.1 (by omega) c hck

/-- The writes of all threads turn any block of the right size into the board
of `f`. -/
theorem write_all_cells (data : gol_data) (hr : 0 ≤ data.rows) (hc : 0 < data.cols)
    (hT : 1 ≤ data.num_threads) (f : Int → Int → Int) (g : List Int)
    (hlen : (g.length : Int) = data.rows * data.cols) :
    write_cells data.cols f g
      ((intRange 0 (data.num_threads - 1)).flatMap (fun k => cells_of (part_of data k)))
      = mk_board data.rows data.cols f := by
  apply eq_mk_board data.rows data.cols hc
  · rw [write_cells_length]
    exact hlen
  · intro x y hx0 hx hy0 hy
    exact write_cells_get data.rows data.cols f _ (all_cells_in_range data hr hc.le hT) g hlen
      hx0 hx hy0 hy (Or.inl (mem_all_cells data hr hc.le hT hx0 hx hy0 hy))

theorem sum_flatMap {α β : Type} (l : List α) (f : α → List β) (g : β → Int) :
    ((l.flatMap f).map g).sum = (l.map (fun a => ((f a).map g).sum)).sum := by
  induction l with
  | nil => rfl
  | cons a l ih => simp [List.flatMap_cons, ih]

theorem sum_swap {α β : Type} (xs : List α) (ys : List β) (f : α → β → Int) :
    (xs.map (fun a => (ys.map (f a)).sum)).sum
      = (ys.map (fun b => (xs.map (fun a => f a b)).sum)).sum := by
  induction xs with
  | nil => simp
  | cons a xs ih =>
    simp only [List.map_cons, List.sum_cons, ih]
    rw [← List.sum_map_add]

theorem intRange_append {a b c : Int} (hab : a ≤ b) (hbc : b ≤ c + 1) :
    intRange a (b - 1) ++ intRange b c = intRange a c := by
  obtain ⟨d, rfl⟩ : ∃ d : Nat, c = b - 1 + d := ⟨(c + 1 - b).toNat, by omega⟩
  clear hbc
  induction d with
  | zero =>
    rw [Nat.cast_zero, add_zero, intRange_empty (show b - 1 < b by omega), List.append_nil]
  | succ d ih =>
    have e : b - 1 + ((d + 1 : Nat) : Int) = b - 1 + d + 1 := by push_cast; ring
    rw [e, intRange_succ (by omega), intRange_succ (by omega), ← List.append_assoc, ih]

/-- The ranges of threads `0..m-1` follow one another without a gap. -/
theorem parts_concat (n T : Int) (hn : 0 ≤ n) (hT : 1 ≤ T) (m : Nat) :
    (intRange 0 ((m : Int) - 1)).flatMap
      (fun k => intRange (part_point n T k) (part_point n T (k + 1) - 1))
      = intRange 0 (part_point n T m - 1) := by
  induction m with
  | zero =>
    rw [Nat.cast_zero, part_point_zero n T hT, intRange_empty (by omega)]
    rfl
  | succ m ih =>
    have e : ((m + 1 : Nat) : Int) - 1 = ((m : Int) - 1) + 1 := by push_cast; ring
    have e2 : ((m + 1 : Nat) : Int) = (m : Int) + 1 := by push_cast; ring
    rw [e, intRange_succ (by omega), List.flatMap_append, ih, sub_add_cancel, e2]
    simp only [List.flatMap_cons, List.flatMap_nil, List.append_nil]
    exact intRange_append (part_point_nonneg n T hn hT (by omega))
      (by have := part_point_step n T m hn hT; omega)

theorem parts_concat_all (n T : Int) (hn : 0 ≤ n) (hT : 1 ≤ T) :
    (intRange 0 (T - 1)).flatMap
      (fun k => intRange (part_point n T k) (part_point n T (k + 1) - 1))
      = intRange 0 (n - 1) := by
  have h := parts_concat n T hn hT T.toNat
  rw [Int.toNat_of_nonneg (by omega), part_point_last n T hT] at h
  exact h

/-- The local counts of all threads add up to the sum over the whole grid. -/
theorem all_cells_sum (data : gol_data) (hr : 0 ≤ data.rows) (hc : 0 ≤ data.cols)
    (hT : 1 ≤ data.num_threads) (f : Int → Int → Int) :
    (((intRange 0 (data.num_threads - 1)).flatMap (fun k => cells_of (part_of data k))).map
      (fun c => f c.1 c.2)).sum = grid_sum data.rows data.cols f := by
  have hn := axis_len_nonneg data hr hc
  have hcat := parts_concat_all (axis_len data) data.num_threads hn hT
  rw [sum_flatMap]
  by_cases hg : data.grid_allocation ≠ 0
  · have hax : axis_len data = data.cols := by simp [axis_len, hg]
    simp only [cells_of, part_of, if_pos hg, sum_flatMap, List.map_map, Function.comp_def]
    rw [sum_swap]
    unfold grid_sum
    congr 1
    apply List.map_congr_left
    intro j _
    rw [← sum_flatMap _ _ (f j), hcat, hax]
  · have hax : axis_len data = data.rows := by simp [axis_len, hg]
    simp only [cells_of, part_of, if_neg hg, sum_flatMap, List.map_map, Function.comp_def]
    rw [← sum_flatMap _ _ (fun j => ((intRange 0 (data.cols - 1)).map (f j)).sum), hcat, hax]
    rfl

theorem mk_board_succ (R : Nat) (cols : Int) (hc : 0 ≤ cols) (f : Int → Int → Int) :
    mk_board ((R : Int) + 1) cols f
      = mk_board R cols f ++ (intRange 0 (cols - 1)).map (f R) := by
  have e : (((R : Int) + 1) * cols).toNat = ((R : Int) * cols).toNat + cols.toNat := by
    have h1 : 0 ≤ (R : Int) * cols := mul_nonneg (by omega) hc
    have h2 : ((R : Int) + 1) * cols = (R : Int) * cols + cols := by ring
    omega
  have e3 : (cols - 1 + 1 - 0).toNat = cols.toNat := by
    congr 1
    ring
  unfold mk_board intRange
  rw [e, List.range_add, List.map_append, e3, List.map_map, List.map_map]
  congr 1
  apply List.map_congr_left
  intro m hm
  have hm1 : (m : Int) < cols := by
    have := List.mem_range.1 hm
    omega
  have h1 : 0 ≤ (R : Int) * cols := mul_nonneg (by omega) hc
  have e4 : (((( (R : Int) * cols).toNat + m : Nat)) : Int) = (R : Int) * cols + m := by
    push_cast
    omega
  obtain ⟨d1, d2⟩ := div_mod_of_idx (x := (R : Int)) (show 0 ≤ (m : Int) by omega) hm1
  simp only [Function.comp_def, e4, d1, d2, zero_add]

theorem sum_mk_board (rows cols : Int) (hr : 0 ≤ rows) (hc : 0 ≤ cols) (f : Int → Int → Int) :
    (mk_board rows cols f).sum = grid_sum rows cols f := by
  obtain ⟨R, rfl⟩ : ∃ R : Nat, rows = R := ⟨rows.toNat, by omega⟩
  clear hr
  induction R with
  | zero => 
    simp [mk_board, grid_sum, intRange_empty]
  | succ R ih =>
    have e : ((R + 1 : Nat) : Int) = (R : Int) + 1 := by push_cast; ring
    rw [e, mk_board_succ R cols hc, List.sum_append, ih]
    unfold grid_sum
    rw [add_sub_cancel_right, show (R : Int) = ((R : Int) - 1) + 1 by ring,
      intRange_succ (by omega), List.map_append, List.sum_append]
    simp

theorem foldl_reset (ts : List Thread) (hts : ts ≠ []) (h : Heap) :
    ts.foldl (fun h1 _ => round_reset h1) h = round_reset h := by
  induction ts generalizing h with
  | nil => exact absurd rfl hts
  | cons t ts ih =>
    rw [List.foldl_cons]
    by_cases h1 : ts = []
    · subst h1
      rfl
    · rw [ih h1]
      rfl

theorem threads_at_ne_nil (data : gol_data) (p : Bool) (hT : 1 ≤ data.num_threads) :
    threads_at data p ≠ [] := by
  intro h
  have h1 := congrArg List.length h
  simp only [threads_at, List.length_map, intRange_length, List.length_nil] at h1
  omega

theorem mem_threads_at (data : gol_data) (p : Bool) {t : Thread}
    (ht : t ∈ threads_at data p) : t.data.array = p := by
  simp only [threads_at, List.mem_map] at ht
  obtain ⟨k, _, rfl⟩ := ht
  rfl

/-- One round of all threads, with block `p` as the current grid. -/
theorem play_gol_round_spec (data : gol_data) (hfit : fits data.rows data.cols) (p : Bool)
    (hr : 0 ≤ data.rows)
    (hc : 0 < data.cols) (hT : 1 ≤ data.num_threads) (h0 : Heap)
    (hlenA : ((h0.block p).length : Int) = data.rows * data.cols)
    (hlenN : ((h0.block (!p)).length : Int) = data.rows * data.cols) :
    play_gol_round (threads_at data p) h0
      = some (threads_at data (!p), round_heap data p h0) := by
  unfold play_gol_round
  rw [foldl_reset _ (threads_at_ne_nil data p hT)]
  have eA : (round_reset h0).block p = h0.block p := by cases p <;> rfl
  have eN : (round_reset h0).block (!p) = h0.block (!p) := by cases p <;> rfl
  unfold threads_at
  rw [run_bodies_spec data hfit p hr hc.le hT _ (fun k hk => by rw [mem_intRange] at hk; omega)
    (round_reset h0) (by rw [eA]; exact hlenA) (by rw [eN]; exact hlenN)]
  rw [eA, eN, write_all_cells data hr hc hT _ _ hlenN, all_cells_sum data hr hc.le hT,
    ← sum_mk_board _ _ hr hc.le]
  unfold round_heap
  cases p <;> simp [Heap.set_block, round_reset]

theorem round_heap_block_same (data : gol_data) (p : Bool) (h : Heap) :
    (round_heap data p h).block p = h.block p := by
  cases p <;> rfl

theorem round_heap_block_other (data : gol_data) (p : Bool) (h : Heap) :
    (round_heap data p h).block (!p)
      = mk_board data.rows data.cols (next_state (h.block p) data.rows data.cols) := by
  cases p <;> rfl

theorem round_heap_total_live (data : gol_data) (p : Bool) (h : Heap) :
    (round_heap data p h).total_live
      = (mk_board data.rows data.cols (next_state (h.block p) data.rows data.cols)).sum := by
  cases p <;> rfl

theorem mk_board_length_int (rows cols : Int) (hr : 0 ≤ rows) (hc : 0 ≤ cols)
    (f : Int → Int → Int) : ((mk_board rows cols f).length : Int) = rows * cols := by
  rw [mk_board_length]
  exact Int.toNat_of_nonneg (mul_nonneg hr hc)

/-- The rounds of all threads, with block `p` as the current grid at the start. -/
theorem play_gol_rounds_spec (data : gol_data) (hfit : fits data.rows data.cols)
    (hr : 0 ≤ data.rows) (hc : 0 < data.cols)
    (hT : 1 ≤ data.num_threads) (n : Nat) (p : Bool) (h0 : Heap)
    (hlenA : ((h0.block p).length : Int) = data.rows * data.cols)
    (hlenN : ((h0.block (!p)).length : Int) = data.rows * data.cols) :
    play_gol_rounds n (threads_at data p) h0
      = some (threads_at data (ptr_after n p), rounds_heap data n p h0) := by
  induction n generalizing p h0 with
  | zero => rfl
  | succ n ih =>
    simp only [play_gol_rounds, ptr_after, rounds_heap]
    rw [play_gol_round_spec data hfit p hr hc hT h0 hlenA hlenN]
    simp only [Option.bind_eq_bind, Option.some_bind]
    apply ih
    · rw [round_heap_block_other]
      exact mk_board_length_int _ _ hr hc.le _
    · rw [Bool.not_not, round_heap_block_same]
      exact hlenA

theorem mapM_some {α β : Type} (l : List α) (f : α → Option β) (g : α → β)
    (h : ∀ a ∈ l, f a = some (g a)) : l.mapM f = some (l.map g) := by
  induction l with
  | nil => rfl
  | cons a l ih =>
    rw [List.mapM_cons, h a (List.mem_cons_self _ _),
      ih (fun b hb => h b (List.mem_cons_of_mem _ hb))]
    rfl

/-- The threads created by `main` and their bounds. -/
theorem spawn_eq (data : gol_data) (hr : 0 ≤ data.rows) (hc : 0 ≤ data.cols)
    (hT : 1 ≤ data.num_threads) (hptr : data.next_board = !data.array) :
    spawn data = some (threads_at data data.array) := by
  unfold spawn threads_at
  apply mapM_some
  intro k hk
  rw [mem_intRange] at hk
  unfold play_gol_init
  rw [partition_eq { data with id := k } (axis_len_nonneg data hr hc) hT hk.1]
  simp only [Option.bind_eq_bind, Option.some_bind, Option.pure_def, thread_at, ← hptr]
  rfl

/-- The whole run of `play_gol` by all threads. -/
theorem play_gol_all_spec (data : gol_data) (hfit : fits data.rows data.cols)
    (hr : 0 ≤ data.rows) (hc : 0 < data.cols)
    (hT : 1 ≤ data.num_threads) (hptr : data.next_board = !data.array) (h0 : Heap)
    (hlenA : ((h0.block data.array).length : Int) = data.rows * data.cols)
    (hlenN : ((h0.block data.next_board).length : Int) = data.rows * data.cols) :
    play_gol_all data h0
      = some (threads_at data (ptr_after data.iters.toNat data.array),
          rounds_heap data data.iters.toNat data.array h0) := by
  unfold play_gol_all
  rw [spawn_eq data hr hc.le hT hptr]
  simp only [Option.bind_eq_bind, Option.some_bind]
  exact play_gol_rounds_spec data hfit hr hc hT _ _ h0 hlenA (by rw [← hptr]; exact hlenN)

/-! ### Count conservation -/

theorem count_one_eq_sum (l : List Int) (hl : ∀ v ∈ l, v = 0 ∨ v = 1) :
    ((l.count 1 : Nat) : Int) = l.sum := by
  induction l with
  | nil => rfl
  | cons a l ih =>
    have ih1 := ih (fun v hv => hl v (List.mem_cons_of_mem _ hv))
    rcases hl a (List.mem_cons_self _ _) with h0 | h1
    · subst h0
      rw [List.count_cons_of_ne (by decide), ih1]
      simp
    · subst h1
      rw [List.count_cons_self, List.sum_cons, ← ih1]
      push_cast
      ring

theorem next_state_binary {g : List Int} (hbin : ∀ v ∈ g, v = 0 ∨ v = 1)
    (rows cols x y : Int) :
    next_state g rows cols x y = 0 ∨ next_state g rows cols x y = 1 := by
  unfold next_state
  simp only []
  split_ifs
  · left; rfl
  · right; rfl
  · exact cell_binary hbin cols x y

theorem mk_board_binary (rows cols : Int) (f : Int → Int → Int)
    (hf : ∀ x y, f x y = 0 ∨ f x y = 1) : ∀ v ∈ mk_board rows cols f, v = 0 ∨ v = 1 := by
  intro v hv
  simp only [mk_board, List.mem_map] at hv
  obtain ⟨n, _, rfl⟩ := hv
  exact hf _ _

/-- Claim C4, as the code has it. For `rows ≥ 1`, `cols ≥ 1` on a grid that fits
(`rows * cols`, `2 * rows` and `2 * cols` at most `INT_MAX`), a binary current
grid, either partition axis and any number `T ≥ 1` of threads, one round of
`play_gol` by all threads leaves in `total_live` the sum of the local `liveCells`
of the threads, and that value is the number of cells equal to 1 in the whole
next grid. -/
theorem count_conservation (data : gol_data) (h : Heap)
    (hfit : fits data.rows data.cols) (hr : 1 ≤ data.rows)
    (hc : 1 ≤ data.cols) (hT : 1 ≤ data.num_threads)
    (hptr : data.next_board = !data.array)
    (hlenA : ((h.block data.array).length : Int) = data.rows * data.cols)
    (hlenN : ((h.block data.next_board).length : Int) = data.rows * data.cols)
    (hbin : ∀ v ∈ h.block data.array, v = 0 ∨ v = 1) :
    ∃ ts ts1 h1, spawn data = some ts ∧ play_gol_round ts h = some (ts1, h1) ∧
      h1.total_live
        = (ts.map (fun t => ((compute_partition t h).map Prod.snd).getD 0)).sum ∧
      h1.total_live = (((h1.block data.next_board).count 1 : Nat) : Int) := by
  have hr0 : 0 ≤ data.rows := by omega
  have hc0 : 0 < data.cols := by omega
  have hlenN1 : ((h.block (!data.array)).length : Int) = data.rows * data.cols := by
    rw [← hptr]
    exact hlenN
  refine ⟨_, _, _, spawn_eq data hr0 hc0.le hT hptr,
    play_gol_round_spec data hfit data.array hr0 hc0 hT h hlenA hlenN1, ?_, ?_⟩
  · rw [round_heap_total_live, sum_mk_board _ _ hr0 hc0.le,
      ← all_cells_sum data hr0 hc0.le hT, sum_flatMap]
    unfold threads_at
    rw [List.map_map]
    congr 1
    apply List.map_congr_left
    intro k hk
    rw [mem_intRange] at hk
    simp only [Function.comp_def,
      compute_partition_spec data hfit data.array hr0 hc0.le hT hk.1 (by omega) h hlenA hlenN1,
      Option.map_some', Option.getD_some, zero_add]
  · rw [hptr, round_heap_block_other, round_heap_total_live, count_one_eq_sum]
    exact mk_board_binary _ _ _ (fun x y => next_state_binary hbin _ _ x y)

theorem count_conservation_witness :
    (fits ex_data.rows ex_data.cols ∧
      1 ≤ ex_data.rows ∧ 1 ≤ ex_data.cols ∧ 1 ≤ ex_data.num_threads ∧
      ex_data.next_board = !ex_data.array ∧
      ((ex_heap.block ex_data.array).length : Int) = ex_data.rows * ex_data.cols ∧
      ((ex_heap.block ex_data.next_board).length : Int) = ex_data.rows * ex_data.cols ∧
      ∀ v ∈ ex_heap.block ex_data.array, v = 0 ∨ v = 1) ∧
    ∃ ts ts1 h1, spawn ex_data = some ts ∧ play_gol_round ts ex_heap = some (ts1, h1) ∧
      h1.total_live
        = (ts.map (fun t => ((compute_partition t ex_heap).map Prod.snd).getD 0)).sum ∧
      h1.total_live = (((h1.block ex_data.next_board).count 1 : Nat) : Int) :=
  ⟨⟨by decide, by decide, by decide, by decide, by decide, by decide, by decide, by decide⟩,
    count_conservation ex_data ex_heap (by decide) (by decide) (by decide) (by decide) (by decide)
      (by decide) (by decide) (by decide)⟩

/-! ### Zero rounds, and the board printed by `main` -/

theorem partition_isSome (data : gol_data) (hT : data.num_threads ≠ 0) :
    ∃ p, partition data = some p := by
  unfold partition
  simp only [c_mod, c_div, if_neg hT, Option.bind_eq_bind, Option.some_bind, Option.pure_def]
  split_ifs <;> exact ⟨_, rfl⟩

theorem mapM_some_of_forall {α β : Type} (l : List α) (f : α → Option β) (P : β → Prop)
    (h : ∀ a ∈ l, ∃ b, f a = some b ∧ P b) :
    ∃ bs, l.mapM f = some bs ∧ ∀ b ∈ bs, P b := by
  induction l with
  | nil => exact ⟨[], rfl, fun b hb => by simp at hb⟩
  | cons a l ih =>
    obtain ⟨b, hb, hPb⟩ := h a (List.mem_cons_self _ _)
    obtain ⟨bs, hbs, hPbs⟩ := ih (fun a1 ha1 => h a1 (List.mem_cons_of_mem _ ha1))
    refine ⟨b :: bs, ?_, ?_⟩
    · rw [List.mapM_cons, hb, hbs]
      rfl
    · intro b1 hb1
      rcases List.mem_cons.1 hb1 with e | e
      · rw [e]
        exact hPb
      · exact hPbs b1 e

/-- Claim C10. With `iters = 0`, for any heap, any number `T ≥ 1` of threads and
either partition axis, all threads complete `play_gol` and leave the heap (every
cell of both blocks and `total_live`) as it was; every thread still reaches the
grid through the pointer it was given. -/
theorem zero_rounds_identity (data : gol_data) (h : Heap) (hT : 1 ≤ data.num_threads)
    (hit : data.iters = 0) :
    ∃ ts, play_gol_all data h = some (ts, h) ∧ ∀ t ∈ ts, t.data.array = data.array := by
  obtain ⟨ts, hts, hP⟩ := mapM_some_of_forall (intRange 0 (data.num_threads - 1))
    (fun i => play_gol_init { data with id := i }) (fun t => t.data.array = data.array)
    (by
      intro i _
      obtain ⟨p, hp⟩ := partition_isSome { data with id := i } (show data.num_threads ≠ 0 by omega)
      exact ⟨{ data := { data with id := i }, part := p }, by simp [play_gol_init, hp], rfl⟩)
  refine ⟨ts, ?_, hP⟩
  unfold play_gol_all
  rw [show spawn data = some ts from hts, hit]
  rfl

theorem zero_rounds_identity_witness :
    (1 ≤ ({ ex_data with iters := 0 } : gol_data).num_threads ∧
      ({ ex_data with iters := 0 } : gol_data).iters = 0) ∧
    ∃ ts, play_gol_all { ex_data with iters := 0 } ex_heap = some (ts, ex_heap) ∧
      ∀ t ∈ ts, t.data.array = ({ ex_data with iters := 0 } : gol_data).array :=
  ⟨⟨by decide, by decide⟩,
    zero_rounds_identity { ex_data with iters := 0 } ex_heap (by decide) (by decide)⟩

theorem ptr_after_even (n : Nat) (p : Bool) :
    ptr_after n p = if n % 2 = 0 then p else !p := by
  induction n generalizing p with
  | zero => rfl
  | succ n ih =>
    rw [ptr_after, ih]
    rcases Nat.mod_two_eq_zero_or_one n with h | h
    · have h1 : (n + 1) % 2 = 1 := by omega
      simp [h, h1]
    · have h1 : (n + 1) % 2 = 0 := by omega
      simp [h, h1]

/-- After `n` rounds the block the threads call `array` holds generation `n`, and
the other block holds generation `n - 1`. -/
theorem rounds_heap_blocks (data : gol_data) (n : Nat) (p : Bool) (h : Heap) :
    (rounds_heap data n p h).block (ptr_after n p)
      = generation data.rows data.cols n (h.block p) ∧
    (1 ≤ n → (rounds_heap data n p h).block (!(ptr_after n p))
      = generation data.rows data.cols (n - 1) (h.block p)) := by
  induction n generalizing p h with
  | zero => exact ⟨rfl, fun h0 => absurd h0 (by decide)⟩
  | succ n ih =>
    obtain ⟨i1, i2⟩ := ih (!p) (round_heap data p h)
    rw [round_heap_block_other] at i1 i2
    refine ⟨i1, fun _ => ?_⟩
    rcases Nat.eq_zero_or_pos n with h0 | hpos
    · subst h0
      simp only [rounds_heap, ptr_after, Bool.not_not, round_heap_block_same]
      rfl
    · have i3 := i2 hpos
      obtain ⟨m, rfl⟩ : ∃ m, n = m + 1 := ⟨n - 1, by omega⟩
      exact i3

/-- The block reached through `main`'s record after the run: every thread reaches
generation `iters`, but `main`'s pointer is never swapped, so for an odd number
of rounds it names the block holding generation `iters - 1`. -/
theorem main_block_after_run (data : gol_data) (hfit : fits data.rows data.cols)
    (hr : 0 ≤ data.rows) (hc : 0 < data.cols)
    (hT : 1 ≤ data.num_threads) (hptr : data.next_board = !data.array) (h : Heap)
    (hlenA : ((h.block data.array).length : Int) = data.rows * data.cols)
    (hlenN : ((h.block data.next_board).length : Int) = data.rows * data.cols) :
    ∃ ts h1, play_gol_all data h = some (ts, h1) ∧ ts ≠ [] ∧
      (∀ t ∈ ts, h1.block t.data.array
        = generation data.rows data.cols data.iters.toNat (h.block data.array)) ∧
      h1.block data.array
        = generation data.rows data.cols
            (if data.iters.toNat % 2 = 0 then data.iters.toNat else data.iters.toNat - 1)
            (h.block data.array) := by
  obtain ⟨b1, b2⟩ := rounds_heap_blocks data data.iters.toNat data.array h
  refine ⟨_, _, play_gol_all_spec data hfit hr hc hT hptr h hlenA hlenN,
    threads_at_ne_nil data _ hT, ?_, ?_⟩
  · intro t ht
    rw [mem_threads_at data _ ht]
    exact b1
  · rw [ptr_after_even] at b1 b2
    split_ifs with hpar
    · rw [if_pos hpar] at b1
      exact b1
    · rw [if_neg hpar, Bool.not_not] at b2
      exact b2 (by omega)

/-- Claim C5, at the input `5 5 1 3  2 1  2 2  2 3` (one round of the horizontal
blinker). After the run every thread reaches the vertical blinker through its
own record, but `main` prints the board through its own record and shows the
horizontal blinker, the grid before the round. -/
theorem main_report_stale :
    ∃ ts h1, play_gol_all ex_data ex_heap = some (ts, h1) ∧
      (∀ t ∈ ts, print_board h1 t.data
        = some ([[false, false, false, false, false], [false, false, true, false, false],
                 [false, false, true, false, false], [false, false, true, false, false],
                 [false, false, false, false, false]], 3)) ∧
      main_report ex_data ex_heap
        = some { board := some ([[false, false, false, false, false],
                   [false, false, false, false, false], [false, true, true, true, false],
                   [false, false, false, false, false],
                   [false, false, false, false, false]], 3),
                 live := 3, rounds := 1 } := by
  refine ⟨_, _, play_gol_all_spec ex_data (by decide) (by decide) (by decide) (by decide) (by decide)
    ex_heap (by decide) (by decide), ?_, ?_⟩
  · decide
  · decide

/-! ### Patterns on the torus -/

theorem wrap_self {n x : Int} (hx0 : 0 ≤ x) (hx : x < n) : x % n = x :=
  Int.emod_eq_of_lt hx0 hx

theorem wrap_pred {n x : Int} (hx0 : 0 ≤ x) (hx : x < n) :
    (x - 1) % n = if x = 0 then n - 1 else x - 1 := by
  split_ifs with h
  · subst h
    have e : (0 - 1 : Int) = (n - 1) + (-1) * n := by ring
    rw [e, Int.add_mul_emod_self]
    exact Int.emod_eq_of_lt (by omega) (by omega)
  · exact Int.emod_eq_of_lt (by omega) (by omega)

theorem wrap_succ {n x : Int} (hx0 : 0 ≤ x) (hx : x < n) :
    (x + 1) % n = if x = n - 1 then 0 else x + 1 := by
  split_ifs with h
  · subst h
    rw [sub_add_cancel]
    exact Int.emod_self
  · exact Int.emod_eq_of_lt (by omega) (by omega)

/-- The next state of a cell of the board of `f`, in terms of `f`. -/
theorem next_state_mk_board (rows cols : Int) (f : Int → Int → Int) {x y : Int}
    (hx0 : 0 ≤ x) (hx : x < rows) (hy0 : 0 ≤ y) (hy : y < cols) :
    next_state (mk_board rows cols f) rows cols x y
      = (let c := ([x - 1, x, x + 1].map (fun i =>
            ([y - 1, y, y + 1].map (fun j =>
              if f (i % rows) (j % cols) = 1 then (1 : Int) else 0)).sum)).sum - f x y
         if c ≤ 1 ∨ c ≥ 4 then 0 else if c = 3 then 1 else f x y) := by
  have e : ∀ i j : Int, cell (mk_board rows cols f) cols (i % rows) (j % cols)
      = f (i % rows) (j % cols) := fun i j =>
    cell_mk_board rows cols f (Int.emod_nonneg i (by omega)) (Int.emod_lt_of_pos i (by omega))
      (Int.emod_nonneg j (by omega)) (Int.emod_lt_of_pos j (by omega))
  simp only [next_state, live_count, e, cell_mk_board rows cols f hx0 hx hy0 hy]

theorem ind_mem_binary (s : List Int) (x : Int) : ind_mem s x = 0 ∨ ind_mem s x = 1 := by
  unfold ind_mem
  split_ifs
  · right; rfl
  · left; rfl

/-- The next state of a cell of a board whose live cells are a product of a set
of rows and a set of columns. -/
theorem next_state_prod (rows cols : Int) (a b : Int → Int)
    (ha : ∀ x, a x = 0 ∨ a x = 1) (hb : ∀ y, b y = 0 ∨ b y = 1) {x y : Int}
    (hx0 : 0 ≤ x) (hx : x < rows) (hy0 : 0 ≤ y) (hy : y < cols) :
    next_state (mk_board rows cols (fun x y => a x * b y)) rows cols x y
      = (let c := tri rows a x * tri cols b y - a x * b y
         if c ≤ 1 ∨ c ≥ 4 then 0 else if c = 3 then 1 else a x * b y) := by
  rw [next_state_mk_board rows cols _ hx0 hx hy0 hy]
  have e : ∀ i j : Int, (if a i * b j = 1 then (1 : Int) else 0) = a i * b j := by
    intro i j
    rcases ha i with h0 | h1 <;> rcases hb j with h2 | h3 <;> simp [*]
  have e2 : ([x - 1, x, x + 1].map (fun i =>
      ([y - 1, y, y + 1].map (fun j =>
        if a (i % rows) * b (j % cols) = 1 then (1 : Int) else 0)).sum)).sum
      = tri rows a x * tri cols b y := by
    simp only [e, tri, List.map_cons, List.map_nil, List.sum_cons, List.sum_nil]
    ring
  simp only [e2]

theorem live_at_row (r c1 c2 c3 : Int) :
    live_at [(r, c1), (r, c2), (r, c3)]
      = fun x y => ind_mem [r] x * ind_mem [c1, c2, c3] y := by
  funext x y
  simp only [live_at, ind_mem, List.mem_cons, Prod.mk.injEq, List.mem_singleton,
    List.not_mem_nil, or_false]
  by_cases hx : x = r <;> simp [hx]

theorem live_at_col (r1 r2 r3 c : Int) :
    live_at [(r1, c), (r2, c), (r3, c)]
      = fun x y => ind_mem [r1, r2, r3] x * ind_mem [c] y := by
  funext x y
  simp only [live_at, ind_mem, List.mem_cons, Prod.mk.injEq, List.mem_singleton,
    List.not_mem_nil, or_false]
  by_cases hy : y = c <;> simp [hy]

theorem tri_all (n : Int) (x : Int) :
    tri n (ind_mem [(x - 1) % n, x, (x + 1) % n]) x
      = 2 + ind_mem [(x - 1) % n, x, (x + 1) % n] (x % n) := by
  simp [tri, ind_mem]
  ring

theorem tri_zero_last (n : Int) (hn : 3 ≤ n) : tri n (ind_mem [0]) (n - 1) = 1 := by
  have h1 : (n - 1 - 1) % n = n - 1 - 1 := Int.emod_eq_of_lt (by omega) (by omega)
  have h2 : (n - 1) % n = n - 1 := Int.emod_eq_of_lt (by omega) (by omega)
  have h3 : (n - 1 + 1) % n = 0 := by
    rw [sub_add_cancel]
    exact Int.emod_self
  simp only [tri, ind_mem, h1, h2, h3, List.mem_singleton]
  rw [if_neg (by omega), if_neg (by omega)]
  rfl

/-- Claim C8, as the code has it. On a grid of `rows ≥ 3` by `cols ≥ 3` cells, at most
`INT_MAX` cells in all, whose only live cells are
`(0, y-1)`, `(0, y)`, `(0, y+1)` (columns modulo `cols`), `cell_state` returns 1 for
the last-row cell `(rows-1, y)`; and on a grid whose only live cells are
`(x-1, 0)`, `(x, 0)`, `(x+1, 0)` (rows modulo `rows`), `cell_state` returns 1 for
the last-column cell `(x, cols-1)`. -/
theorem toroidal_wrap (data : gol_data) (h : Heap)
    (hcells : data.rows * data.cols ≤ 2147483647) (hr : 3 ≤ data.rows)
    (hc : 3 ≤ data.cols) :
    (∀ y : Int, 0 ≤ y → y < data.cols →
      h.block data.array = mk_board data.rows data.cols
        (live_at [(0, (y - 1) % data.cols), (0, y), (0, (y + 1) % data.cols)]) →
      cell_state h (data.rows - 1) y data = some 1) ∧
    (∀ x : Int, 0 ≤ x → x < data.rows →
      h.block data.array = mk_board data.rows data.cols
        (live_at [((x - 1) % data.rows, 0), (x, 0), ((x + 1) % data.rows, 0)]) →
      cell_state h x (data.cols - 1) data = some 1) := by
  have hfit : fits data.rows data.cols := fits_of_cells (by omega) (by omega) hcells
  constructor
  · intro y hy0 hy hg
    have hlen : ((h.block data.array).length : Int) = data.rows * data.cols := by
      rw [hg]
      exact mk_board_length_int _ _ (by omega) (by omega) _
    rw [cell_state_eq h data hfit hlen (by omega) (by omega) hy0 hy, hg, live_at_row,
      next_state_prod _ _ _ _ (ind_mem_binary _) (ind_mem_binary _) (by omega) (by omega)
        hy0 hy,
      tri_zero_last _ hr, tri_all, wrap_self hy0 hy]
    have e1 : ind_mem [0] (data.rows - 1) = 0 := by
      simp only [ind_mem, List.mem_singleton]
      rw [if_neg (by omega)]
    have e2 : ind_mem [(y - 1) % data.cols, y, (y + 1) % data.cols] y = 1 := by
      simp [ind_mem]
    simp only [e1, e2]
    rfl
  · intro x hx0 hx hg
    have hlen : ((h.block data.array).length : Int) = data.rows * data.cols := by
      rw [hg]
      exact mk_board_length_int _ _ (by omega) (by omega) _
    rw [cell_state_eq h data hfit hlen hx0 hx (by omega) (by omega), hg, live_at_col,
      next_state_prod _ _ _ _ (ind_mem_binary _) (ind_mem_binary _) hx0 hx (by omega)
        (by omega),
      tri_zero_last _ hc, tri_all, wrap_self hx0 hx]
    have e1 : ind_mem [0] (data.cols - 1) = 0 := by
      simp only [ind_mem, List.mem_singleton]
      rw [if_neg (by omega)]
    have e2 : ind_mem [(x - 1) % data.rows, x, (x + 1) % data.rows] x = 1 := by
      simp [ind_mem]
    simp only [e1, e2]
    rfl

theorem toroidal_wrap_witness :
    (ex_data.rows * ex_data.cols ≤ 2147483647 ∧
      3 ≤ ex_data.rows ∧ 3 ≤ ex_data.cols) ∧
    cell_state wrap_heap (ex_data.rows - 1) 2 ex_data = some 1 :=
  ⟨⟨by decide, by decide, by decide⟩,
    (toroidal_wrap ex_data wrap_heap (by decide) (by decide) (by decide)).1 2 (by decide) (by decide)
      (by decide)⟩

theorem mk_board_congr (rows cols : Int) (hr : 0 ≤ rows) (hc : 0 < cols)
    (f g : Int → Int → Int)
    (hfg : ∀ x y : Int, 0 ≤ x → x < rows → 0 ≤ y → y < cols → f x y = g x y) :
    mk_board rows cols f = mk_board rows cols g := by
  apply eq_mk_board rows cols hc g _ (mk_board_length_int rows cols hr hc.le f)
  intro x y hx0 hx hy0 hy
  rw [mk_board_get rows cols f hx0 hx hy0 hy, hfg x y hx0 hx hy0 hy]

theorem tri_single (n : Int) (hn : 3 ≤ n) {r x : Int} (hr0 : 0 ≤ r) (hr : r < n)
    (hx0 : 0 ≤ x) (hx : x < n) :
    tri n (ind_mem [r]) x = ind_mem [(r - 1) % n, r, (r + 1) % n] x := by
  simp only [tri, ind_mem, wrap_pred hr0 hr, wrap_succ hr0 hr, wrap_pred hx0 hx,
    wrap_succ hx0 hx, wrap_self hx0 hx, List.mem_cons, List.mem_singleton, List.not_mem_nil,
    or_false]
  split_ifs <;> omega

theorem live_at_single (r c : Int) :
    live_at [(r, c)] = fun x y => ind_mem [r] x * ind_mem [c] y := by
  funext x y
  simp only [live_at, ind_mem, List.mem_singleton, Prod.mk.injEq]
  by_cases hx : x = r <;> simp [hx]

theorem sum_zero_board (rows cols : Int) : (mk_board rows cols (live_at [])).sum = 0 := by
  apply List.sum_eq_zero
  intro v hv
  simp only [mk_board, List.mem_map] at hv
  obtain ⟨n, _, rfl⟩ := hv
  rfl

/-- The next generation of the grid with one live cell has no live cell. -/
theorem next_single (rows cols : Int) (hr : 3 ≤ rows) (hc : 3 ≤ cols) {r c : Int}
    (hr0 : 0 ≤ r) (hr1 : r < rows) (hc0 : 0 ≤ c) (hc1 : c < cols) :
    mk_board rows cols (next_state (mk_board rows cols (live_at [(r, c)])) rows cols)
      = mk_board rows cols (live_at []) := by
  apply mk_board_congr rows cols (by omega) (by omega)
  intro x y hx0 hx hy0 hy
  rw [live_at_single, next_state_prod _ _ _ _ (ind_mem_binary _) (ind_mem_binary _) hx0 hx
    hy0 hy, tri_single rows hr hr0 hr1 hx0 hx, tri_single cols hc hc0 hc1 hy0 hy]
  have hA := ind_mem_binary [(r - 1) % rows, r, (r + 1) % rows] x
  have hB := ind_mem_binary [(c - 1) % cols, c, (c + 1) % cols] y
  have ha := ind_mem_binary [r] x
  have hb := ind_mem_binary [c] y
  simp only [live_at, List.not_mem_nil, if_false]
  rcases hA with hA | hA <;> rcases hB with hB | hB <;> rcases ha with ha | ha <;>
    rcases hb with hb | hb <;> simp [hA, hB, ha, hb]

/-- One round on the grid whose only live cell is `(r, c)`. -/
theorem loneliness_at (data : gol_data) (h : Heap)
    (hcells : data.rows * data.cols ≤ 2147483647) (hr : 3 ≤ data.rows) (hc : 3 ≤ data.cols)
    (hT : 1 ≤ data.num_threads) (hptr : data.next_board = !data.array)
    (hlenN : ((h.block data.next_board).length : Int) = data.rows * data.cols)
    (r c : Int) (hr0 : 0 ≤ r) (hr1 : r < data.rows) (hc0 : 0 ≤ c) (hc1 : c < data.cols)
    (hg : h.block data.array = mk_board data.rows data.cols (live_at [(r, c)])) :
    ∃ ts ts1 h1, spawn data = some ts ∧ play_gol_round ts h = some (ts1, h1) ∧ ts1 ≠ [] ∧
      (∀ t ∈ ts1, h1.block t.data.array = mk_board data.rows data.cols (live_at [])) ∧
      (∀ t ∈ ts1, ∀ v ∈ h1.block t.data.array, v = 0) ∧
      h1.total_live = 0 := by
  have hfit : fits data.rows data.cols := fits_of_cells (by omega) (by omega) hcells
  have hr2 : 0 ≤ data.rows := by omega
  have hc2 : 0 < data.cols := by omega
  have hlenA : ((h.block data.array).length : Int) = data.rows * data.cols := by
    rw [hg]
    exact mk_board_length_int _ _ hr2 hc2.le _
  have hnext := next_single data.rows data.cols hr hc hr0 hr1 hc0 hc1
  have hblock : ∀ t ∈ threads_at data (!data.array),
      (round_heap data data.array h).block t.data.array
        = mk_board data.rows data.cols (live_at []) := by
    intro t ht
    rw [mem_threads_at data _ ht, round_heap_block_other, hg, hnext]
  refine ⟨_, _, _, spawn_eq data hr2 hc2.le hT hptr,
    play_gol_round_spec data hfit data.array hr2 hc2 hT h hlenA (by rw [← hptr]; exact hlenN),
    threads_at_ne_nil data _ hT, hblock, ?_, ?_⟩
  · intro t ht v hv
    rw [hblock t ht] at hv
    simp only [mk_board, List.mem_map] at hv
    obtain ⟨n, _, rfl⟩ := hv
    rfl
  · rw [round_heap_total_live, hg, hnext, sum_zero_board]

theorem live_at_block (r r1 c c1 : Int) :
    live_at [(r, c), (r, c1), (r1, c), (r1, c1)]
      = fun x y => ind_mem [r, r1] x * ind_mem [c, c1] y := by
  funext x y
  simp only [live_at, ind_mem, List.mem_cons, Prod.mk.injEq, List.mem_singleton,
    List.not_mem_nil, or_false]
  by_cases hx : x = r <;> by_cases hx1 : x = r1 <;> by_cases hy : y = c <;>
    by_cases hy1 : y = c1 <;> simp [hx, hx1, hy, hy1]

theorem tri_pair (n : Int) (hn : 4 ≤ n) {r x : Int} (hr0 : 0 ≤ r) (hr : r < n)
    (hx0 : 0 ≤ x) (hx : x < n) :
    0 ≤ tri n (ind_mem [r, (r + 1) % n]) x ∧ tri n (ind_mem [r, (r + 1) % n]) x ≤ 2 ∧
    (ind_mem [r, (r + 1) % n] x = 1 → tri n (ind_mem [r, (r + 1) % n]) x = 2) := by
  simp only [tri, ind_mem, wrap_succ hr0 hr, wrap_pred hx0 hx,
    wrap_succ hx0 hx, wrap_self hx0 hx, List.mem_cons, List.mem_singleton, List.not_mem_nil,
    or_false]
  split_ifs <;> omega

theorem block_rule (A B s t : Int) (hs : s = 0 ∨ s = 1) (ht : t = 0 ∨ t = 1)
    (hA0 : 0 ≤ A) (hA : A ≤ 2) (hB0 : 0 ≤ B) (hB : B ≤ 2) (hsA : s = 1 → A = 2)
    (htB : t = 1 → B = 2) :
    (let c := A * B - s * t
     if c ≤ 1 ∨ c ≥ 4 then 0 else if c = 3 then 1 else s * t) = s * t := by
  have h3 : s * t = 0 → A * B ≠ 3 := by
    intro _
    interval_cases A <;> interval_cases B <;> decide
  rcases hs with hs | hs <;> rcases ht with ht | ht
  · subst hs ht
    have := h3 (by norm_num)
    simp only [mul_zero, sub_zero]
    split_ifs <;> rfl
  · subst hs ht
    have := h3 (by norm_num)
    simp only [zero_mul, sub_zero]
    split_ifs <;> rfl
  · subst hs ht
    have := h3 (by norm_num)
    simp only [mul_zero, sub_zero]
    split_ifs <;> rfl
  · rw [hsA hs, htB ht, hs, ht]
    decide

/-- The 2×2 block is its own next generation. -/
theorem next_block (rows cols : Int) (hr : 4 ≤ rows) (hc : 4 ≤ cols) {r c : Int}
    (hr0 : 0 ≤ r) (hr1 : r < rows) (hc0 : 0 ≤ c) (hc1 : c < cols) :
    mk_board rows cols (next_state (mk_board rows cols
        (live_at [(r, c), (r, (c + 1) % cols), ((r + 1) % rows, c),
          ((r + 1) % rows, (c + 1) % cols)])) rows cols)
      = mk_board rows cols
        (live_at [(r, c), (r, (c + 1) % cols), ((r + 1) % rows, c),
          ((r + 1) % rows, (c + 1) % cols)]) := by
  apply mk_board_congr rows cols (by omega) (by omega)
  intro x y hx0 hx hy0 hy
  rw [live_at_block, next_state_prod _ _ _ _ (ind_mem_binary _) (ind_mem_binary _) hx0 hx
    hy0 hy]
  obtain ⟨a1, a2, a3⟩ := tri_pair rows hr hr0 hr1 hx0 hx
  obtain ⟨b1, b2, b3⟩ := tri_pair cols hc hc0 hc1 hy0 hy
  exact block_rule _ _ _ _ (ind_mem_binary _ _) (ind_mem_binary _ _) a1 a2 b1 b2 a3 b3

theorem grid_sum_prod (rows cols : Int) (a b : Int → Int) :
    grid_sum rows cols (fun x y => a x * b y)
      = ((intRange 0 (rows - 1)).map a).sum * ((intRange 0 (cols - 1)).map b).sum := by
  unfold grid_sum
  simp only [List.sum_map_mul_left, List.sum_map_mul_right]

theorem intRange_single (lo : Int) : intRange lo lo = [lo] := by
  have e : (lo + 1 - lo).toNat = 1 := by omega
  simp [intRange, e, List.range_succ]

theorem intRange_cons {lo hi : Int} (h : lo ≤ hi) :
    intRange lo hi = lo :: intRange (lo + 1) hi := by
  rw [← intRange_append (a := lo) (b := lo + 1) (c := hi) (by omega) (by omega),
    add_sub_cancel_right, intRange_single]
  rfl

theorem sum_ind_single (n : Int) {r : Int} (hr0 : 0 ≤ r) (hr : r < n) :
    ((intRange 0 (n - 1)).map (ind_mem [r])).sum = 1 := by
  rw [← intRange_append (a := 0) (b := r) (c := n - 1) hr0 (by omega),
    intRange_cons (show r ≤ n - 1 by omega), List.map_append, List.sum_append, List.map_cons,
    List.sum_cons]
  have h1 : ((intRange 0 (r - 1)).map (ind_mem [r])).sum = 0 := by
    apply List.sum_eq_zero
    intro v hv
    obtain ⟨x, hx, rfl⟩ := List.mem_map.1 hv
    rw [mem_intRange] at hx
    simp only [ind_mem, List.mem_singleton]
    rw [if_neg (by omega)]
  have h2 : ((intRange (r + 1) (n - 1)).map (ind_mem [r])).sum = 0 := by
    apply List.sum_eq_zero
    intro v hv
    obtain ⟨x, hx, rfl⟩ := List.mem_map.1 hv
    rw [mem_intRange] at hx
    simp only [ind_mem, List.mem_singleton]
    rw [if_neg (by omega)]
  rw [h1, h2]
  simp [ind_mem]

theorem sum_ind_pair (n : Int) {r r1 : Int} (hr0 : 0 ≤ r) (hr : r < n) (hr10 : 0 ≤ r1)
    (hr1 : r1 < n) (hne : r ≠ r1) :
    ((intRange 0 (n - 1)).map (ind_mem [r, r1])).sum = 2 := by
  have e : ind_mem [r, r1] = fun x => ind_mem [r] x + ind_mem [r1] x := by
    funext x
    simp only [ind_mem, List.mem_cons, List.mem_singleton, List.not_mem_nil, or_false]
    split_ifs <;> omega
  rw [e, List.sum_map_add, sum_ind_single n hr0 hr, sum_ind_single n hr10 hr1]
  rfl

theorem sum_block (rows cols : Int) (hr : 4 ≤ rows) (hc : 4 ≤ cols) {r c : Int}
    (hr0 : 0 ≤ r) (hr1 : r < rows) (hc0 : 0 ≤ c) (hc1 : c < cols) :
    (mk_board rows cols
        (live_at [(r, c), (r, (c + 1) % cols), ((r + 1) % rows, c),
          ((r + 1) % rows, (c + 1) % cols)])).sum = 4 := by
  have hr2 := wrap_succ hr0 hr1
  have hc2 := wrap_succ hc0 hc1
  rw [sum_mk_board _ _ (by omega) (by omega), live_at_block, grid_sum_prod,
    sum_ind_pair rows hr0 hr1 (by rw [hr2]; split_ifs <;> omega)
      (by rw [hr2]; split_ifs <;> omega) (by rw [hr2]; split_ifs <;> omega),
    sum_ind_pair cols hc0 hc1 (by rw [hc2]; split_ifs <;> omega)
      (by rw [hc2]; split_ifs <;> omega) (by rw [hc2]; split_ifs <;> omega)]
  rfl

theorem ptr_after_succ (n : Nat) (p : Bool) : ptr_after (n + 1) p = !(ptr_after n p) := by
  induction n generalizing p with
  | zero => rfl
  | succ n ih =>
    rw [ptr_after, ih]
    rfl

/-- A grid that is its own next generation stays the current grid through any
number of rounds, and `total_live` is its sum after each round. -/
theorem rounds_heap_fixed (data : gol_data) (b : List Int)
    (hfix : mk_board data.rows data.cols (next_state b data.rows data.cols) = b)
    (n : Nat) (p : Bool) (h : Heap) (hb : h.block p = b) :
    (rounds_heap data n p h).block (ptr_after n p) = b ∧
    (1 ≤ n → (rounds_heap data n p h).total_live = b.sum) := by
  induction n generalizing p h with
  | zero => exact ⟨hb, fun h0 => absurd h0 (by decide)⟩
  | succ n ih =>
    have hb1 : (round_heap data p h).block (!p) = b := by
      rw [round_heap_block_other, hb, hfix]
    obtain ⟨i1, i2⟩ := ih (!p) (round_heap data p h) hb1
    refine ⟨i1, fun _ => ?_⟩
    rcases Nat.eq_zero_or_pos n with h0 | hpos
    · subst h0
      simp only [rounds_heap]
      rw [round_heap_total_live, hb, hfix]
    · exact i2 hpos

/-- Claim C6, as the code has it. On a grid of `rows ≥ 4` by `cols ≥ 4` cells, at most
`INT_MAX` cells in all, whose live cells are exactly the 2×2 block `(r, c)`,
`(r, c+1)`, `(r+1, c)`, `(r+1, c+1)` (coordinates modulo `rows` and `cols`), any
number `iters` of rounds of `play_gol` by all threads leaves the current grid of
every thread equal to the initial grid, and after each round `total_live` is 4. -/
theorem block_stability (data : gol_data) (h : Heap)
    (hcells : data.rows * data.cols ≤ 2147483647) (hr : 4 ≤ data.rows)
    (hc : 4 ≤ data.cols) (hT : 1 ≤ data.num_threads) (hptr : data.next_board = !data.array)
    (hlenN : ((h.block data.next_board).length : Int) = data.rows * data.cols)
    (r c : Int) (hr0 : 0 ≤ r) (hr1 : r < data.rows) (hc0 : 0 ≤ c) (hc1 : c < data.cols)
    (hg : h.block data.array = mk_board data.rows data.cols
      (live_at [(r, c), (r, (c + 1) % data.cols), ((r + 1) % data.rows, c),
        ((r + 1) % data.rows, (c + 1) % data.cols)])) :
    ∃ ts h1, play_gol_all data h = some (ts, h1) ∧ ts ≠ [] ∧
      (∀ t ∈ ts, h1.block t.data.array = h.block data.array) ∧
      (1 ≤ data.iters → h1.total_live = 4) := by
  have hfit : fits data.rows data.cols := fits_of_cells (by omega) (by omega) hcells
  have hr2 : 0 ≤ data.rows := by omega
  have hc2 : 0 < data.cols := by omega
  have hlenA : ((h.block data.array).length : Int) = data.rows * data.cols := by
    rw [hg]
    exact mk_board_length_int _ _ hr2 hc2.le _
  have hfix : mk_board data.rows data.cols
      (next_state (h.block data.array) data.rows data.cols) = h.block data.array := by
    rw [hg]
    exact next_block data.rows data.cols hr hc hr0 hr1 hc0 hc1
  obtain ⟨f1, f2⟩ := rounds_heap_fixed data (h.block data.array) hfix data.iters.toNat
    data.array h rfl
  refine ⟨_, _, play_gol_all_spec data hfit hr2 hc2 hT hptr h hlenA hlenN,
    threads_at_ne_nil data _ hT, ?_, ?_⟩
  · intro t ht
    rw [mem_threads_at data _ ht]
    exact f1
  · intro hit
    rw [f2 (by omega), hg]
    exact sum_block data.rows data.cols hr hc hr0 hr1 hc0 hc1

theorem mod_ne {n a b : Int} (h0 : 0 < b - a) (h1 : b - a < n) : b % n ≠ a % n := by
  intro h
  rw [Int.emod_eq_emod_iff_emod_sub_eq_zero, Int.emod_eq_of_lt h0.le h1] at h
  omega

theorem block_stability_witness :
    (ex_data.rows * ex_data.cols ≤ 2147483647 ∧
      4 ≤ ex_data.rows ∧ 4 ≤ ex_data.cols ∧ 1 ≤ ex_data.num_threads ∧
      ex_data.next_board = !ex_data.array ∧
      ((block_heap.block ex_data.next_board).length : Int) = ex_data.rows * ex_data.cols ∧
      (0 ≤ (1 : Int) ∧ (1 : Int) < ex_data.rows) ∧ (0 ≤ (1 : Int) ∧ (1 : Int) < ex_data.cols) ∧
      block_heap.block ex_data.array = mk_board ex_data.rows ex_data.cols
        (live_at [(1, 1), (1, (1 + 1) % ex_data.cols), ((1 + 1) % ex_data.rows, 1),
          ((1 + 1) % ex_data.rows, (1 + 1) % ex_data.cols)])) ∧
    ∃ ts h1, play_gol_all ex_data block_heap = some (ts, h1) ∧ ts ≠ [] ∧
      (∀ t ∈ ts, h1.block t.data.array = block_heap.block ex_data.array) ∧
      (1 ≤ ex_data.iters → h1.total_live = 4) :=
  ⟨⟨by decide, by decide, by decide, by decide, by decide, by decide, by decide, by decide,
      by decide⟩,
    block_stability ex_data block_heap (by decide) (by decide) (by decide) (by decide) (by decide)
      (by decide) 1 1 (by decide) (by decide) (by decide) (by decide) (by decide)⟩

theorem ind_pair_le (c : Int) {w w1 : Int} (h : w ≠ w1) :
    ind_mem [c] w + ind_mem [c] w1 ≤ 1 := by
  simp only [ind_mem, List.mem_singleton]
  split_ifs <;> omega

theorem ind_nonneg (s : List Int) (x : Int) : 0 ≤ ind_mem s x := by
  rcases ind_mem_binary s x with h | h <;> omega

theorem mod_pred_mod (a n : Int) : (a % n - 1) % n = (a - 1) % n := by
  rw [Int.sub_emod, Int.emod_emod, ← Int.sub_emod]

theorem tri_triple (n : Int) (hn : 5 ≤ n) {c y : Int} (hc0 : 0 ≤ c) (hc : c < n)
    (hy0 : 0 ≤ y) (hy : y < n) :
    (ind_mem [c] y = 1 →
      tri n (ind_mem [(c - 1) % n, c, (c + 1) % n]) y = 3 ∧
      ind_mem [(c - 1) % n, c, (c + 1) % n] y = 1) ∧
    (ind_mem [c] y = 0 → ind_mem [(c - 1) % n, c, (c + 1) % n] y = 1 →
      tri n (ind_mem [(c - 1) % n, c, (c + 1) % n]) y = 2) ∧
    (ind_mem [(c - 1) % n, c, (c + 1) % n] y = 0 →
      0 ≤ tri n (ind_mem [(c - 1) % n, c, (c + 1) % n]) y ∧
      tri n (ind_mem [(c - 1) % n, c, (c + 1) % n]) y ≤ 1) := by
  have hn0 : n ≠ 0 := by omega
  have hn1 : 0 < n := by omega
  have hv : ∀ z : Int, ind_mem [(c - 1) % n, c, (c + 1) % n] (z % n)
      = tri n (ind_mem [c]) (z % n) := fun z =>
    (tri_single n (by omega) hc0 hc (Int.emod_nonneg z hn0) (Int.emod_lt_of_pos z hn1)).symm
  have hvy : ind_mem [(c - 1) % n, c, (c + 1) % n] y = tri n (ind_mem [c]) y :=
    (tri_single n (by omega) hc0 hc hy0 hy).symm
  have e1 : ((y - 1) % n - 1) % n = (y - 2) % n := by
    rw [mod_pred_mod]
    congr 1
    ring
  have e3 : ((y - 1) % n + 1) % n = y := by
    rw [Int.emod_add_emod, sub_add_cancel, wrap_self hy0 hy]
  have e4 : ((y + 1) % n - 1) % n = y := by
    rw [mod_pred_mod, add_sub_cancel_right, wrap_self hy0 hy]
  have e6 : ((y + 1) % n + 1) % n = (y + 2) % n := by
    rw [Int.emod_add_emod]
    congr 1
    ring
  have hT : tri n (ind_mem [(c - 1) % n, c, (c + 1) % n]) y
      = ind_mem [c] ((y - 2) % n) + 2 * ind_mem [c] ((y - 1) % n) + 3 * ind_mem [c] y
        + 2 * ind_mem [c] ((y + 1) % n) + ind_mem [c] ((y + 2) % n) := by
    rw [tri, hv, hv, hv]
    simp only [tri, Int.emod_emod, e1, e3, e4, e6, wrap_self hy0 hy]
    ring
  have hV : ind_mem [(c - 1) % n, c, (c + 1) % n] y
      = ind_mem [c] ((y - 1) % n) + ind_mem [c] y + ind_mem [c] ((y + 1) % n) := by
    rw [hvy, tri, wrap_self hy0 hy]
  have hy' : y = y % n := (wrap_self hy0 hy).symm
  have p1 := ind_pair_le c (mod_ne (n := n) (a := y - 2) (b := y - 1) (by omega) (by omega))
  have p2 := ind_pair_le c (mod_ne (n := n) (a := y - 2) (b := y) (by omega) (by omega))
  have p3 := ind_pair_le c (mod_ne (n := n) (a := y - 2) (b := y + 1) (by omega) (by omega))
  have p4 := ind_pair_le c (mod_ne (n := n) (a := y - 2) (b := y + 2) (by omega) (by omega))
  have p5 := ind_pair_le c (mod_ne (n := n) (a := y - 1) (b := y) (by omega) (by omega))
  have p6 := ind_pair_le c (mod_ne (n := n) (a := y - 1) (b := y + 1) (by omega) (by omega))
  have p7 := ind_pair_le c (mod_ne (n := n) (a := y - 1) (b := y + 2) (by omega) (by omega))
  have p8 := ind_pair_le c (mod_ne (n := n) (a := y) (b := y + 1) (by omega) (by omega))
  have p9 := ind_pair_le c (mod_ne (n := n) (a := y) (b := y + 2) (by omega) (by omega))
  have p10 := ind_pair_le c (mod_ne (n := n) (a := y + 1) (b := y + 2) (by omega) (by omega))
  rw [← hy'] at p2 p5 p8 p9
  have q1 := ind_nonneg [c] ((y - 2) % n)
  have q2 := ind_nonneg [c] ((y - 1) % n)
  have q3 := ind_nonneg [c] y
  have q4 := ind_nonneg [c] ((y + 1) % n)
  have q5 := ind_nonneg [c] ((y + 2) % n)
  rw [hT, hV]
  generalize ind_mem [c] ((y - 2) % n) = u1 at *
  generalize ind_mem [c] ((y - 1) % n) = u2 at *
  generalize ind_mem [c] y = u3 at *
  generalize ind_mem [c] ((y + 1) % n) = u4 at *
  generalize ind_mem [c] ((y + 2) % n) = u5 at *
  refine ⟨fun _ => ⟨?_, ?_⟩, fun _ _ => ?_, fun _ => ⟨?_, ?_⟩⟩ <;> omega

theorem blinker_rule (s s3 l l1 L : Int) (hs : s = 0 ∨ s = 1) (hs3 : s3 = 0 ∨ s3 = 1)
    (hss : s = 1 → s3 = 1) (hl : l = 0 ∨ l = 1) (hl1 : l1 = 0 ∨ l1 = 1)
    (h1 : l1 = 1 → L = 3 ∧ l = 1) (h2 : l1 = 0 → l = 1 → L = 2)
    (h3 : l = 0 → 0 ≤ L ∧ L ≤ 1) :
    (let c := s3 * L - s * l
     if c ≤ 1 ∨ c ≥ 4 then 0 else if c = 3 then 1 else s * l) = s3 * l1 := by
  rcases hl1 with hl1 | hl1
  · rcases hl with hl | hl
    · obtain ⟨b0, b1⟩ := h3 hl
      subst hl hl1
      simp only [mul_zero, sub_zero]
      rcases hs3 with hs3 | hs3
      · subst hs3
        simp
      · subst hs3
        rw [one_mul, if_pos (Or.inl b1)]
    · have hL := h2 hl1 hl
      subst hl hl1 hL
      rcases hs3 with hs3 | hs3 <;> rcases hs with hs | hs
      · subst hs hs3
        decide
      · have := hss hs
        omega
      · subst hs hs3
        decide
      · subst hs hs3
        decide
  · obtain ⟨hL, hl⟩ := h1 hl1
    subst hl hl1 hL
    rcases hs3 with hs3 | hs3 <;> rcases hs with hs | hs
    · subst hs hs3
      decide
    · have := hss hs
      omega
    · subst hs hs3
      decide
    · subst hs hs3
      decide

theorem ind_single_triple (n r x : Int) :
    ind_mem [r] x = 1 → ind_mem [(r - 1) % n, r, (r + 1) % n] x = 1 := by
  simp only [ind_mem, List.mem_cons, List.mem_singleton, List.not_mem_nil, or_false]
  intro h
  split_ifs at h with h1
  · rw [if_pos (Or.inr (Or.inl h1))]
  · omega

/-- One generation turns the horizontal blinker into the vertical one. -/
theorem next_blinker_h (rows cols : Int) (hr : 3 ≤ rows) (hc : 5 ≤ cols) {r c : Int}
    (hr0 : 0 ≤ r) (hr1 : r < rows) (hc0 : 0 ≤ c) (hc1 : c < cols) :
    mk_board rows cols (next_state (mk_board rows cols
        (live_at [(r, (c - 1) % cols), (r, c), (r, (c + 1) % cols)])) rows cols)
      = mk_board rows cols
        (live_at [((r - 1) % rows, c), (r, c), ((r + 1) % rows, c)]) := by
  apply mk_board_congr rows cols (by omega) (by omega)
  intro x y hx0 hx hy0 hy
  rw [live_at_row, live_at_col, next_state_prod _ _ _ _ (ind_mem_binary _) (ind_mem_binary _)
    hx0 hx hy0 hy, tri_single rows hr hr0 hr1 hx0 hx]
  obtain ⟨t1, t2, t3⟩ := tri_triple cols hc hc0 hc1 hy0 hy
  exact blinker_rule _ _ _ _ _ (ind_mem_binary _ _) (ind_mem_binary _ _)
    (ind_single_triple rows r x) (ind_mem_binary _ _) (ind_mem_binary _ _) t1 t2 t3

/-- One generation turns the vertical blinker into the horizontal one. -/
theorem next_blinker_v (rows cols : Int) (hr : 5 ≤ rows) (hc : 3 ≤ cols) {r c : Int}
    (hr0 : 0 ≤ r) (hr1 : r < rows) (hc0 : 0 ≤ c) (hc1 : c < cols) :
    mk_board rows cols (next_state (mk_board rows cols
        (live_at [((r - 1) % rows, c), (r, c), ((r + 1) % rows, c)])) rows cols)
      = mk_board rows cols
        (live_at [(r, (c - 1) % cols), (r, c), (r, (c + 1) % cols)]) := by
  apply mk_board_congr rows cols (by omega) (by omega)
  intro x y hx0 hx hy0 hy
  rw [live_at_row, live_at_col, next_state_prod _ _ _ _ (ind_mem_binary _) (ind_mem_binary _)
    hx0 hx hy0 hy, tri_single cols hc hc0 hc1 hy0 hy]
  obtain ⟨t1, t2, t3⟩ := tri_triple rows hr hr0 hr1 hx0 hx
  have hrule := blinker_rule _ _ _ _ _ (ind_mem_binary [c] y) (ind_mem_binary _ y)
    (ind_single_triple cols c y) (ind_mem_binary _ x) (ind_mem_binary [r] x) t1 t2 t3
  simp only [mul_comm] at hrule ⊢
  exact hrule

/-- Claim C7, as the code has it. On a grid of `rows ≥ 5` by `cols ≥ 5` cells, at most
`INT_MAX` cells in all, whose live cells are exactly
`(r, c-1)`, `(r, c)`, `(r, c+1)`, one round of `play_gol` by all threads gives the
grid whose live cells are exactly `(r-1, c)`, `(r, c)`, `(r+1, c)`, and one further
round gives the first grid again (coordinates modulo `rows` and `cols`). -/
theorem blinker_oscillation (data : gol_data) (h : Heap)
    (hcells : data.rows * data.cols ≤ 2147483647) (hr : 5 ≤ data.rows)
    (hc : 5 ≤ data.cols) (hT : 1 ≤ data.num_threads) (hptr : data.next_board = !data.array)
    (hlenN : ((h.block data.next_board).length : Int) = data.rows * data.cols)
    (r c : Int) (hr0 : 0 ≤ r) (hr1 : r < data.rows) (hc0 : 0 ≤ c) (hc1 : c < data.cols)
    (hg : h.block data.array = mk_board data.rows data.cols
      (live_at [(r, (c - 1) % data.cols), (r, c), (r, (c + 1) % data.cols)])) :
    ∃ ts ts1 h1 ts2 h2, spawn data = some ts ∧
      play_gol_round ts h = some (ts1, h1) ∧ ts1 ≠ [] ∧
      (∀ t ∈ ts1, h1.block t.data.array = mk_board data.rows data.cols
        (live_at [((r - 1) % data.rows, c), (r, c), ((r + 1) % data.rows, c)])) ∧
      play_gol_round ts1 h1 = some (ts2, h2) ∧ ts2 ≠ [] ∧
      (∀ t ∈ ts2, h2.block t.data.array = mk_board data.rows data.cols
        (live_at [(r, (c - 1) % data.cols), (r, c), (r, (c + 1) % data.cols)])) := by
  have hfit : fits data.rows data.cols := fits_of_cells (by omega) (by omega) hcells
  have hr2 : 0 ≤ data.rows := by omega
  have hc2 : 0 < data.cols := by omega
  have hlenA : ((h.block data.array).length : Int) = data.rows * data.cols := by
    rw [hg]
    exact mk_board_length_int _ _ hr2 hc2.le _
  have hlenN1 : ((h.block (!data.array)).length : Int) = data.rows * data.cols := by
    rw [← hptr]
    exact hlenN
  have hb1 : (round_heap data data.array h).block (!data.array)
      = mk_board data.rows data.cols
        (live_at [((r - 1) % data.rows, c), (r, c), ((r + 1) % data.rows, c)]) := by
    rw [round_heap_block_other, hg]
    exact next_blinker_h data.rows data.cols (by omega) hc hr0 hr1 hc0 hc1
  have hb2 : (round_heap data (!data.array) (round_heap data data.array h)).block
      (!(!data.array)) = mk_board data.rows data.cols
        (live_at [(r, (c - 1) % data.cols), (r, c), (r, (c + 1) % data.cols)]) := by
    rw [round_heap_block_other, hb1]
    exact next_blinker_v data.rows data.cols hr (by omega) hr0 hr1 hc0 hc1
  refine ⟨_, _, _, _, _, spawn_eq data hr2 hc2.le hT hptr,
    play_gol_round_spec data hfit data.array hr2 hc2 hT h hlenA hlenN1,
    threads_at_ne_nil data _ hT, ?_,
    play_gol_round_spec data hfit (!data.array) hr2 hc2 hT (round_heap data data.array h) ?_ ?_,
    threads_at_ne_nil data _ hT, ?_⟩
  · intro t ht
    rw [mem_threads_at data _ ht]
    exact hb1
  · rw [hb1]
    exact mk_board_length_int _ _ hr2 hc2.le _
  · rw [Bool.not_not, round_heap_block_same]
    exact hlenA
  · intro t ht
    rw [mem_threads_at data _ ht]
    exact hb2

theorem blinker_oscillation_witness :
    (ex_data.rows * ex_data.cols ≤ 2147483647 ∧
      5 ≤ ex_data.rows ∧ 5 ≤ ex_data.cols ∧ 1 ≤ ex_data.num_threads ∧
      ex_data.next_board = !ex_data.array ∧
      ((ex_heap.block ex_data.next_board).length : Int) = ex_data.rows * ex_data.cols ∧
      (0 ≤ (2 : Int) ∧ (2 : Int) < ex_data.rows) ∧ (0 ≤ (2 : Int) ∧ (2 : Int) < ex_data.cols) ∧
      ex_heap.block ex_data.array = mk_board ex_data.rows ex_data.cols
        (live_at [(2, (2 - 1) % ex_data.cols), (2, 2), (2, (2 + 1) % ex_data.cols)])) ∧
    ∃ ts ts1 h1 ts2 h2, spawn ex_data = some ts ∧
      play_gol_round ts ex_heap = some (ts1, h1) ∧ ts1 ≠ [] ∧
      (∀ t ∈ ts1, h1.block t.data.array = mk_board ex_data.rows ex_data.cols
        (live_at [((2 - 1) % ex_data.rows, 2), (2, 2), ((2 + 1) % ex_data.rows, 2)])) ∧
      play_gol_round ts1 h1 = some (ts2, h2) ∧ ts2 ≠ [] ∧
      (∀ t ∈ ts2, h2.block t.data.array = mk_board ex_data.rows ex_data.cols
        (live_at [(2, (2 - 1) % ex_data.cols), (2, 2), (2, (2 + 1) % ex_data.cols)])) :=
  ⟨⟨by decide, by decide, by decide, by decide, by decide, by decide, by decide, by decide,
      by decide⟩,
    blinker_oscillation ex_data ex_heap (by decide) (by decide) (by decide) (by decide) (by decide)
      (by decide) 2 2 (by decide) (by decide) (by decide) (by decide) (by decide)⟩

theorem count_one_zero {l : List Int} (hbin : ∀ v ∈ l, v = 0 ∨ v = 1) (h0 : l.count 1 = 0) :
    ∀ v ∈ l, v = 0 := by
  intro v hv
  rcases hbin v hv with h | h
  · exact h
  · subst h
    exact absurd hv (List.count_eq_zero.1 h0)

/-- A binary list with exactly one entry equal to 1 is 1 at one index and 0 at
every other index. -/
theorem single_one_index (l : List Int) (hbin : ∀ v ∈ l, v = 0 ∨ v = 1)
    (hone : l.count 1 = 1) :
    ∃ n, n < l.length ∧ ∀ m, m < l.length → l[m]? = some (if m = n then 1 else 0) := by
  induction l with
  | nil => simp at hone
  | cons a l ih =>
    have hbin1 : ∀ v ∈ l, v = 0 ∨ v = 1 := fun v hv => hbin v (List.mem_cons_of_mem _ hv)
    rcases hbin a (List.mem_cons_self _ _) with ha | ha
    · subst ha
      rw [List.count_cons_of_ne (by decide)] at hone
      obtain ⟨n, hn, hall⟩ := ih hbin1 hone
      refine ⟨n + 1, by simp [hn], ?_⟩
      intro m hm
      cases m with
      | zero => simp
      | succ m =>
        simp only [List.length_cons, Nat.add_lt_add_iff_right] at hm
        simp only [List.getElem?_cons_succ, hall m hm, Nat.add_right_cancel_iff]
    · subst ha
      rw [List.count_cons_self] at hone
      have hz := count_one_zero hbin1 (by omega)
      refine ⟨0, by simp, ?_⟩
      intro m hm
      cases m with
      | zero => simp
      | succ m =>
        simp only [List.length_cons, Nat.add_lt_add_iff_right] at hm
        simp only [List.getElem?_cons_succ, List.getElem?_eq_getElem hm, Nat.add_eq_zero,
          one_ne_zero, and_false, if_false, Option.some.injEq]
        exact hz _ (List.getElem_mem _)

/-- A binary grid with exactly one live cell is the board of that cell. -/
theorem single_live_grid (rows cols : Int) (hc : 0 < cols) (g : List Int)
    (hlen : (g.length : Int) = rows * cols) (hbin : ∀ v ∈ g, v = 0 ∨ v = 1)
    (hone : g.count 1 = 1) :
    ∃ r c : Int, (0 ≤ r ∧ r < rows) ∧ (0 ≤ c ∧ c < cols) ∧
      g = mk_board rows cols (live_at [(r, c)]) := by
  obtain ⟨n, hn, hall⟩ := single_one_index g hbin hone
  have hy0 := Int.emod_nonneg (n : Int) (show cols ≠ 0 by omega)
  have hy := Int.emod_lt_of_pos (n : Int) hc
  have hx0 : 0 ≤ (n : Int) / cols := Int.ediv_nonneg (by omega) (by omega)
  have hsum := Int.emod_add_ediv (n : Int) cols
  have hcomm : cols * ((n : Int) / cols) = (n : Int) / cols * cols := mul_comm _ _
  have hx : (n : Int) / cols < rows := by
    by_contra hge
    have h1 : rows * cols ≤ (n : Int) / cols * cols :=
      mul_le_mul_of_nonneg_right (by omega) (by omega)
    omega
  refine ⟨(n : Int) / cols, (n : Int) % cols, ⟨hx0, hx⟩, ⟨hy0, hy⟩, ?_⟩
  apply eq_mk_board rows cols hc _ g hlen
  intro x y x0 x1 y0 y1
  obtain ⟨b0, b1⟩ := idx_bounds x0 x1 y0 y1
  rw [hall _ (by omega)]
  congr 1
  simp only [live_at, List.mem_singleton, Prod.mk.injEq]
  by_cases he : (x * cols + y).toNat = n
  · have he2 : x * cols + y = (n : Int) / cols * cols + (n : Int) % cols := by omega
    obtain ⟨e1, e2⟩ := idx_inj y0 y1 hy0 hy he2
    rw [if_pos he, if_pos ⟨e1, e2⟩]
  · rw [if_neg he, if_neg]
    rintro ⟨e1, e2⟩
    apply he
    rw [e1, e2]
    omega

/-- Claim C9, as the code has it. On a binary grid of `rows ≥ 3` by `cols ≥ 3` cells,
at most `INT_MAX` cells in all, with exactly one live cell, one round of `play_gol`
by all threads (any `T ≥ 1`, either axis) leaves a
grid with no live cell, and `total_live = 0`. -/
theorem loneliness (data : gol_data) (h : Heap)
    (hcells : data.rows * data.cols ≤ 2147483647) (hr : 3 ≤ data.rows) (hc : 3 ≤ data.cols)
    (hT : 1 ≤ data.num_threads) (hptr : data.next_board = !data.array)
    (hlenA : ((h.block data.array).length : Int) = data.rows * data.cols)
    (hlenN : ((h.block data.next_board).length : Int) = data.rows * data.cols)
    (hbin : ∀ v ∈ h.block data.array, v = 0 ∨ v = 1)
    (hone : (h.block data.array).count 1 = 1) :
    ∃ ts ts1 h1, spawn data = some ts ∧ play_gol_round ts h = some (ts1, h1) ∧ ts1 ≠ [] ∧
      (∀ t ∈ ts1, ((h1.block t.data.array).length : Int) = data.rows * data.cols) ∧
      (∀ t ∈ ts1, ∀ v ∈ h1.block t.data.array, v = 0) ∧
      h1.total_live = 0 := by
  have hfit : fits data.rows data.cols := fits_of_cells (by omega) (by omega) hcells
  obtain ⟨r, c, ⟨hr0, hr1⟩, ⟨hc0, hc1⟩, hg⟩ := single_live_grid data.rows data.cols
    (by omega) _ hlenA hbin hone
  obtain ⟨ts, ts1, h1, a1, a2, a3, a4, a5, a6⟩ :=
    loneliness_at data h hcells hr hc hT hptr hlenN r c hr0 hr1 hc0 hc1 hg
  refine ⟨ts, ts1, h1, a1, a2, a3, fun t ht => ?_, a5, a6⟩
  rw [a4 t ht]
  exact mk_board_length_int _ _ (by omega) (by omega) _

theorem loneliness_witness :
    (lone_data.rows * lone_data.cols ≤ 2147483647 ∧
      3 ≤ lone_data.rows ∧ 3 ≤ lone_data.cols ∧ 1 ≤ lone_data.num_threads ∧
      lone_data.next_board = !lone_data.array ∧
      ((lone_heap.block lone_data.array).length : Int) = lone_data.rows * lone_data.cols ∧
      ((lone_heap.block lone_data.next_board).length : Int) = lone_data.rows * lone_data.cols ∧
      (∀ v ∈ lone_heap.block lone_data.array, v = 0 ∨ v = 1) ∧
      (lone_heap.block lone_data.array).count 1 = 1) ∧
    ∃ ts ts1 h1, spawn lone_data = some ts ∧ play_gol_round ts lone_heap = some (ts1, h1) ∧
      ts1 ≠ [] ∧
      (∀ t ∈ ts1, ((h1.block t.data.array).length : Int) = lone_data.rows * lone_data.cols) ∧
      (∀ t ∈ ts1, ∀ v ∈ h1.block t.data.array, v = 0) ∧
      h1.total_live = 0 :=
  ⟨⟨by decide, by decide, by decide, by decide, by decide, by decide, by decide, by decide,
      by decide⟩,
    loneliness lone_data lone_heap (by decide) (by decide) (by decide) (by decide) (by decide)
      (by decide)
      (by decide) (by decide) (by decide)⟩

/-! ### More threads than indices -/

theorem part_point_small (n T k : Int) (hn : 0 ≤ n) (hT : n < T) :
    part_point n T k = min k n := by
  unfold part_point
  rw [Int.ediv_eq_zero_of_lt hn hT, Int.emod_eq_of_lt hn hT]
  simp

theorem compute_partition_nil (t : Thread) (h : Heap) (hc : cells_of t.part = []) :
    compute_partition t h = some (h, 0) := by
  rw [compute_partition_eq, hc]
  rfl

theorem cells_of_empty_range (data : gol_data) (p : Part) (hp : p.hi data < p.lo data) :
    cells_of p = [] := by
  unfold Part.hi Part.lo at hp
  unfold cells_of
  split_ifs at hp
  · rw [intRange_empty hp]
    simp
  · rw [intRange_empty hp]
    rfl

/-- Claim C11. On an axis of length `N ≥ 0` split among `T > N` threads, `partition`
returns bounds for every thread `k` in `[0, T)`: the single index `k` when `k < N`,
and the empty range `end = start - 1` when `k ≥ N`. A thread with such an empty
range visits no cell in its computing loop: the loop returns the heap unchanged
with `liveCells = 0`, and its share of the round leaves the heap, `total_live`
included, as it was. -/
theorem more_threads_than_indices (data : gol_data) (hN : 0 ≤ axis_len data)
    (hT : axis_len data < data.num_threads) (k : Int) (hk0 : 0 ≤ k)
    (_hk : k < data.num_threads) :
    ∃ p, partition { data with id := k } = some p ∧
      (k < axis_len data → p.lo data = k ∧ p.hi data = k) ∧
      (axis_len data ≤ k → p.hi data = p.lo data - 1 ∧ cells_of p = [] ∧
        ∀ h : Heap,
          compute_partition { data := { data with id := k }, part := p } h = some (h, 0) ∧
          ∃ t1, round_body { data := { data with id := k }, part := p } h = some (t1, h)) := by
  have hT1 : 1 ≤ data.num_threads := by omega
  obtain ⟨p, hp⟩ := partition_some data hN hT1 hk0
  obtain ⟨hlo, hhi⟩ := partition_lo_hi data hN hT1 hk0 hp
  rw [part_point_small _ _ _ hN hT] at hlo hhi
  refine ⟨p, hp, fun hlt => ?_, fun hge => ?_⟩
  · rw [hlo, hhi]
    constructor <;> omega
  · have hemp : p.hi data = p.lo data - 1 := by
      rw [hlo, hhi]
      omega
    have hcells : cells_of p = [] := cells_of_empty_range data p (by omega)
    refine ⟨hemp, hcells, fun h => ?_⟩
    have hcp := compute_partition_nil { data := { data with id := k }, part := p } h hcells
    refine ⟨hcp, ?_⟩
    unfold round_body
    rw [hcp]
    simp

theorem more_threads_than_indices_witness :
    (0 ≤ axis_len lone_data ∧ axis_len lone_data < lone_data.num_threads ∧ (0 : Int) ≤ 7 ∧
      (7 : Int) < lone_data.num_threads) ∧
    ∃ p, partition { lone_data with id := 7 } = some p ∧
      (7 < axis_len lone_data → p.lo lone_data = 7 ∧ p.hi lone_data = 7) ∧
      (axis_len lone_data ≤ 7 → p.hi lone_data = p.lo lone_data - 1 ∧ cells_of p = [] ∧
        ∀ h : Heap,
          compute_partition { data := { lone_data with id := 7 }, part := p } h
            = some (h, 0) ∧
          ∃ t1, round_body { data := { lone_data with id := 7 }, part := p } h
            = some (t1, h)) :=
  ⟨⟨by decide, by decide, by decide, by decide⟩,
    more_threads_than_indices lone_data (by decide) (by decide) 7 (by decide) (by decide)⟩

/-! ### The partitioned round and the sequential step -/

theorem load_eq_get (h : Heap) (p : Bool) {off : Int} (h0 : 0 ≤ off) :
    h.load p off = (h.block p)[off.toNat]? := by
  simp [Heap.load, h0]

/-- Claim C14, as the code has it. For `rows ≥ 1`, `cols ≥ 1` on a grid that fits
(`rows * cols`, `2 * rows` and `2 * cols` at most `INT_MAX`), any current grid,
any number `T ≥ 1` of threads and either partition axis, after one round of all threads every in-range
cell `(x, y)` of the next grid holds the value `cell_state(x, y)` computes on the
current grid; and a run with another number of threads or the other axis on the
same grid ends in the same heap. -/
theorem partitioned_round_eq_step (data : gol_data) (h : Heap)
    (hfit : fits data.rows data.cols) (hr : 1 ≤ data.rows)
    (hc : 1 ≤ data.cols) (hT : 1 ≤ data.num_threads) (hptr : data.next_board = !data.array)
    (hlenA : ((h.block data.array).length : Int) = data.rows * data.cols)
    (hlenN : ((h.block data.next_board).length : Int) = data.rows * data.cols) :
    ∃ ts ts1 h1, spawn data = some ts ∧ play_gol_round ts h = some (ts1, h1) ∧
      (∀ x y : Int, 0 ≤ x → x < data.rows → 0 ≤ y → y < data.cols →
        ∃ v, cell_state h x y data = some v ∧
          h1.load data.next_board (x * data.cols + y) = some v) ∧
      (∀ other : gol_data, other.rows = data.rows → other.cols = data.cols →
        other.array = data.array → other.next_board = data.next_board →
        1 ≤ other.num_threads →
        ∃ us us1, spawn other = some us ∧ play_gol_round us h = some (us1, h1)) := by
  have hr0 : 0 ≤ data.rows := by omega
  have hc0 : 0 < data.cols := by omega
  have hlenN1 : ((h.block (!data.array)).length : Int) = data.rows * data.cols := by
    rw [← hptr]
    exact hlenN
  refine ⟨_, _, _, spawn_eq data hr0 hc0.le hT hptr,
    play_gol_round_spec data hfit data.array hr0 hc0 hT h hlenA hlenN1, ?_, ?_⟩
  · intro x y hx0 hx hy0 hy
    obtain ⟨b0, _⟩ := idx_bounds hx0 hx hy0 hy
    refine ⟨_, cell_state_eq h data hfit hlenA hx0 hx hy0 hy, ?_⟩
    rw [load_eq_get _ _ b0, hptr, round_heap_block_other,
      mk_board_get data.rows data.cols _ hx0 hx hy0 hy]
  · intro other e1 e2 e3 e4 hT2
    have hptr2 : other.next_board = !other.array := by rw [e3, e4, hptr]
    have hround := play_gol_round_spec other (by rw [e1, e2]; exact hfit) other.array
      (by omega) (by omega) hT2 h
      (by rw [e1, e2, e3]; exact hlenA) (by rw [e1, e2, e3]; exact hlenN1)
    have hheap : round_heap other other.array h = round_heap data data.array h := by
      unfold round_heap
      rw [e1, e2, e3]
    rw [hheap] at hround
    exact ⟨_, _, spawn_eq other (by omega) (by omega) hT2 hptr2, hround⟩

theorem partitioned_round_eq_step_witness :
    (fits ex_data.rows ex_data.cols ∧
      1 ≤ ex_data.rows ∧ 1 ≤ ex_data.cols ∧ 1 ≤ ex_data.num_threads ∧
      ex_data.next_board = !ex_data.array ∧
      ((ex_heap.block ex_data.array).length : Int) = ex_data.rows * ex_data.cols ∧
      ((ex_heap.block ex_data.next_board).length : Int) = ex_data.rows * ex_data.cols) ∧
    ∃ ts ts1 h1, spawn ex_data = some ts ∧ play_gol_round ts ex_heap = some (ts1, h1) ∧
      (∀ x y : Int, 0 ≤ x → x < ex_data.rows → 0 ≤ y → y < ex_data.cols →
        ∃ v, cell_state ex_heap x y ex_data = some v ∧
          h1.load ex_data.next_board (x * ex_data.cols + y) = some v) ∧
      (∀ other : gol_data, other.rows = ex_data.rows → other.cols = ex_data.cols →
        other.array = ex_data.array → other.next_board = ex_data.next_board →
        1 ≤ other.num_threads →
        ∃ us us1, spawn other = some us ∧ play_gol_round us ex_heap = some (us1, h1)) :=
  ⟨⟨by decide, by decide, by decide, by decide, by decide, by decide, by decide⟩,
    partitioned_round_eq_step ex_data ex_heap (by decide) (by decide) (by decide) (by decide)
      (by decide) (by decide) (by decide)⟩

/-! ### Index safety -/

/-- Claim C18, as the code has it. For `rows ≥ 1`, `cols ≥ 1` on a grid that fits
(`rows * cols`, `2 * rows` and `2 * cols` at most `INT_MAX`), `T ≥ 1` threads,
either axis and a thread id `k` in `[0, T)`, every cell `(j, k')` the thread visits
is in range, the index
`j * cols + k'` it writes lies in `[0, rows * cols)`, and for such a cell every pair
of wrapped coordinates that `cell_state` passes to `get_value_at` is in range, so
`get_value_at` returns a non-`NULL` address whose index lies in `[0, rows * cols)`. -/
theorem index_safety (data : gol_data) (hfit : fits data.rows data.cols)
    (hr : 1 ≤ data.rows) (hc : 1 ≤ data.cols)
    (hT : 1 ≤ data.num_threads) (k : Int) (hk0 : 0 ≤ k) (hk : k < data.num_threads) :
    ∃ p, partition { data with id := k } = some p ∧ ∀ c ∈ cells_of p,
      (0 ≤ c.1 ∧ c.1 < data.rows) ∧ (0 ≤ c.2 ∧ c.2 < data.cols) ∧
      (0 ≤ c.1 * data.cols + c.2 ∧ c.1 * data.cols + c.2 < data.rows * data.cols) ∧
      get_value_at c.1 c.2 { data with id := k } = some (c.1 * data.cols + c.2) ∧
      ∀ i ∈ intRange (c.1 - 1) (c.1 + 1), ∀ j ∈ intRange (c.2 - 1) (c.2 + 1),
        ∃ wi wj, c_mod (to_int (i + data.rows)) data.rows = some wi ∧
          c_mod (to_int (j + data.cols)) data.cols = some wj ∧
          (0 ≤ wi ∧ wi < data.rows) ∧ (0 ≤ wj ∧ wj < data.cols) ∧
          get_value_at wi wj { data with id := k } = some (wi * data.cols + wj) ∧
          0 ≤ wi * data.cols + wj ∧ wi * data.cols + wj < data.rows * data.cols := by
  have hn := axis_len_nonneg data (show 0 ≤ data.rows by omega) (show 0 ≤ data.cols by omega)
  refine ⟨_, partition_eq { data with id := k } hn hT hk0, ?_⟩
  intro c hcell
  obtain ⟨⟨x0, x1⟩, y0, y1⟩ :=
    cells_in_range data (by omega) (by omega) hT hk0 hk c hcell
  refine ⟨⟨x0, x1⟩, ⟨y0, y1⟩, idx_bounds x0 x1 y0 y1, ?_, ?_⟩
  · simp [get_value_at, x1, y1, index_eq hfit x0 x1 y0 y1]
  · intro i hi j hj
    rw [mem_intRange] at hi hj
    have a0 := Int.emod_nonneg i (show data.rows ≠ 0 by omega)
    have a1 := Int.emod_lt_of_pos i (show 0 < data.rows by omega)
    have b0 := Int.emod_nonneg j (show data.cols ≠ 0 by omega)
    have b1 := Int.emod_lt_of_pos j (show 0 < data.cols by omega)
    obtain ⟨e0, e1⟩ := idx_bounds a0 a1 b0 b1
    exact ⟨_, _, wrap_mod hr (by omega) (by omega) hfit.2.1,
      wrap_mod hc (by omega) (by omega) hfit.2.2, ⟨a0, a1⟩, ⟨b0, b1⟩,
      by simp [get_value_at, a1, b1, index_eq hfit a0 a1 b0 b1], e0, e1⟩

theorem index_safety_witness :
    (fits ex_data.rows ex_data.cols ∧ 1 ≤ ex_data.rows ∧ 1 ≤ ex_data.cols ∧
      1 ≤ ex_data.num_threads ∧ (0 : Int) ≤ 4 ∧
      (4 : Int) < ex_data.num_threads) ∧
    ∃ p, partition { ex_data with id := 4 } = some p ∧ cells_of p ≠ [] ∧ ∀ c ∈ cells_of p,
      (0 ≤ c.1 ∧ c.1 < ex_data.rows) ∧ (0 ≤ c.2 ∧ c.2 < ex_data.cols) ∧
      (0 ≤ c.1 * ex_data.cols + c.2 ∧ c.1 * ex_data.cols + c.2 < ex_data.rows * ex_data.cols) ∧
      get_value_at c.1 c.2 { ex_data with id := 4 } = some (c.1 * ex_data.cols + c.2) ∧
      ∀ i ∈ intRange (c.1 - 1) (c.1 + 1), ∀ j ∈ intRange (c.2 - 1) (c.2 + 1),
        ∃ wi wj, c_mod (to_int (i + ex_data.rows)) ex_data.rows = some wi ∧
          c_mod (to_int (j + ex_data.cols)) ex_data.cols = some wj ∧
          (0 ≤ wi ∧ wi < ex_data.rows) ∧ (0 ≤ wj ∧ wj < ex_data.cols) ∧
          get_value_at wi wj { ex_data with id := 4 } = some (wi * ex_data.cols + wj) ∧
          0 ≤ wi * ex_data.cols + wj ∧ wi * ex_data.cols + wj < ex_data.rows * ex_data.cols := by
  refine ⟨⟨by decide, by decide, by decide, by decide, by decide, by decide⟩, ?_⟩
  obtain ⟨p, hp, hall⟩ :=
    index_safety ex_data (by decide) (by decide) (by decide) (by decide) 4 (by decide)
      (by decide)
  have hp2 : partition { ex_data with id := 4 }
      = some { start_row := 4, start_col := 0, end_row := 4, end_col := 4 } := by decide
  refine ⟨p, hp, ?_, hall⟩
  rw [hp2] at hp
  simp only [Option.some.injEq] at hp
  subst hp
  decide

/-! ### The order of swap, accumulation and barriers -/

theorem next_action_wait_iff (p : Nat) :
    next_action p = some Action.wait ↔ p % 8 = 1 ∨ p % 8 = 5 ∨ p % 8 = 7 := by
  have h : p % 8 < 8 := Nat.mod_lt _ (by decide)
  unfold next_action
  generalize p % 8 = r at *
  interval_cases r <;> decide

theorem next_wait_gt (p : Nat) : p < next_wait p := by
  unfold next_wait
  split_ifs <;> omega

theorem next_wait_mono (p : Nat) : next_wait p ≤ next_wait (p + 1) := by
  unfold next_wait
  split_ifs <;> omega

theorem next_wait_is_wait (p : Nat) :
    next_wait p % 8 = 1 ∨ next_wait p % 8 = 5 ∨ next_wait p % 8 = 7 := by
  unfold next_wait
  split_ifs <;> omega

/-- No thread is ahead of the next barrier wait of another thread. -/
theorem run_schedule_inv (T iters : Nat) (ks : List Nat) :
    ∀ k m, k < T → m < T →
      run_schedule T iters ks k ≤ next_wait (run_schedule T iters ks m) := by
  unfold run_schedule
  induction ks using List.reverseRecOn with
  | nil =>
    intro k m _ _
    exact Nat.zero_le _
  | append_singleton ks k0 ih =>
    intro k m hk hm
    rw [List.foldl_append]
    simp only [List.foldl_cons, List.foldl_nil]
    generalize List.foldl (sched_step T iters) (fun _ => 0) ks = ps at ih ⊢
    unfold sched_step
    split_ifs with hstep
    · obtain ⟨hk0, _, hwait⟩ := hstep
      by_cases e1 : k = k0 <;> by_cases e2 : m = k0
      · rw [e1, e2]
        simp only [Function.update_same]
        have := next_wait_gt (ps k0 + 1)
        omega
      · rw [e1]
        simp only [Function.update_same, Function.update_noteq e2]
        by_cases hw : next_action (ps k0) = some Action.wait
        · have h1 := hwait hw m hm
          have h2 := next_wait_gt (ps m)
          omega
        · have h1 := ih k0 m hk0 hm
          have h2 := next_wait_is_wait (ps m)
          rw [next_action_wait_iff] at hw
          have h3 : ps k0 ≠ next_wait (ps m) := by
            intro e
            rw [e] at hw
            exact hw h2
          omega
      · rw [e2]
        simp only [Function.update_same, Function.update_noteq e1]
        have h1 := ih k k0 hk hk0
        have h2 := next_wait_mono (ps k0)
        omega
      · simp only [Function.update_noteq e1, Function.update_noteq e2]
        exact ih k m hk hm
    · exact ih k m hk hm

theorem next_action_round (i : Nat) :
    next_action (8 * i + 2) = some Action.compute ∧
    next_action (8 * i + 3) = some Action.swap ∧
    next_action (8 * i + 4) = some Action.accumulate ∧
    next_action (8 * i + 5) = some Action.wait := by
  unfold next_action
  rw [Nat.mul_add_mod, Nat.mul_add_mod, Nat.mul_add_mod, Nat.mul_add_mod]
  decide

/-- Claim C13, as the code has it. In iteration `i` a thread executes, in this order,
its computing loop, the swap of its own two pointers, the accumulation into
`total_live` and the wait on the barrier. Under any schedule, a thread that has
passed the barrier that follows the accumulation of iteration `i` finds that every
thread has executed its accumulation (hence its computing loop and its swap) of
iteration `i`; and a thread that has started its computing loop of iteration `i`
finds that every thread has completed the iterations before `i`. -/
theorem barrier_ordering (T iters : Nat) (ks : List Nat) (i k m : Nat) (hk : k < T)
    (hm : m < T) :
    (next_action (8 * i + 2) = some Action.compute ∧
      next_action (8 * i + 3) = some Action.swap ∧
      next_action (8 * i + 4) = some Action.accumulate ∧
      next_action (8 * i + 5) = some Action.wait) ∧
    (8 * i + 6 ≤ run_schedule T iters ks k → 8 * i + 5 ≤ run_schedule T iters ks m) ∧
    (8 * i + 2 ≤ run_schedule T iters ks k → 8 * i + 1 ≤ run_schedule T iters ks m) := by
  have hinv := run_schedule_inv T iters ks k m hk hm
  refine ⟨next_action_round i, fun h => ?_, fun h => ?_⟩
  · unfold next_wait at hinv
    split_ifs at hinv <;> omega
  · unfold next_wait at hinv
    split_ifs at hinv <;> omega

theorem barrier_ordering_witness :
    ((0 : Nat) < 2 ∧ (1 : Nat) < 2 ∧
      run_schedule 2 1 [0, 1, 0, 1, 0, 0, 0, 1, 1, 1, 0] 0 = 6 ∧
      run_schedule 2 1 [0, 1, 0, 1, 0, 0, 0, 1, 1, 1, 0] 1 = 5) ∧
    (next_action (8 * 0 + 2) = some Action.compute ∧
      next_action (8 * 0 + 3) = some Action.swap ∧
      next_action (8 * 0 + 4) = some Action.accumulate ∧
      next_action (8 * 0 + 5) = some Action.wait) ∧
    (8 * 0 + 6 ≤ run_schedule 2 1 [0, 1, 0, 1, 0, 0, 0, 1, 1, 1, 0] 0 →
      8 * 0 + 5 ≤ run_schedule 2 1 [0, 1, 0, 1, 0, 0, 0, 1, 1, 1, 0] 1) ∧
    (8 * 0 + 2 ≤ run_schedule 2 1 [0, 1, 0, 1, 0, 0, 0, 1, 1, 1, 0] 0 →
      8 * 0 + 1 ≤ run_schedule 2 1 [0, 1, 0, 1, 0, 0, 0, 1, 1, 1, 0] 1) :=
  ⟨⟨by decide, by decide, by decide, by decide⟩,
    barrier_ordering 2 1 [0, 1, 0, 1, 0, 0, 0, 1, 1, 1, 0] 0 0 1 (by decide) (by decide)⟩

/-- Claim C13 fails as stated: with two threads, after the schedule in which
thread 0 resets, thread 1 resets, and thread 0 passes the first barrier, runs its
computing loop and swaps its pointers, thread 0 has executed its swap of the
first iteration (4 actions completed, the last one the swap) while thread 1 has
completed one action only: it has not started its computing loop and has added
nothing to `total_live`. -/
theorem swap_before_barrier :
    run_schedule 2 1 [0, 1, 0, 0, 0] 0 = 4 ∧ run_schedule 2 1 [0, 1, 0, 0, 0] 1 = 1 ∧
    round_actions.take 4
      = [Action.reset, Action.wait, Action.compute, Action.swap] ∧
    ¬ (∀ (ks : List Nat) (i k m : Nat), k < 2 → m < 2 →
        8 * i + 4 ≤ run_schedule 2 1 ks k → 8 * i + 5 ≤ run_schedule 2 1 ks m) := by
  refine ⟨by decide, by decide, by decide, fun hall => ?_⟩
  have h := hall [0, 1, 0, 0, 0] 0 0 1 (by decide) (by decide) (by decide)
  revert h
  decide

/-! ### `initialize_board` -/

theorem foldlM_none_of_mem {α σ : Type} (f : σ → α → Option σ) (l : List α) (a : α)
    (ha : a ∈ l) (hf : ∀ s, f s a = none) (s : σ) : l.foldlM f s = none := by
  induction l generalizing s with
  | nil => simp at ha
  | cons b l ih =>
    rw [List.foldlM_cons]
    rcases List.mem_cons.1 ha with e | e
    · subst e
      rw [hf]
      rfl
    · cases hb : f s b with
      | none => rfl
      | some s1 => exact ih e s1

theorem foldlM_congr_mem {α σ : Type} (f g : σ → α → Option σ) (l : List α)
    (hfg : ∀ a ∈ l, ∀ s, f s a = g s a) (s : σ) : l.foldlM f s = l.foldlM g s := by
  induction l generalizing s with
  | nil => rfl
  | cons b l ih =>
    rw [List.foldlM_cons, List.foldlM_cons, hfg b (List.mem_cons_self _ _)]
    congr 1
    funext s1
    exact ih (fun a ha => hfg a (List.mem_cons_of_mem _ ha)) s1

/-- The shape of a call of `initialize_board` that returns 0. -/
theorem initialize_board_ok (cfg : Config) (env : Env) (data : gol_data)
    (infile : Option (List Int)) (d : gol_data) (h : Heap)
    (hok : initialize_board cfg env data infile = Except.ok (d, h)) :
    ∃ (tr tc ti tn : Int) (toks b0 b1 : List Int) (hz h2 : Heap),
      infile = some (tr :: tc :: ti :: tn :: toks) ∧
      d = { data with rows := scan_value tr, cols := scan_value tc, iters := scan_value ti,
                      num_threads := cfg.NUM_THREADS, grid_allocation := cfg.PARTITION,
                      output_mode := cfg.OUTPUT_MODE, array := false, next_board := true } ∧
      malloc env false (alloc_size (scan_value tr) (scan_value tc)) = some b0 ∧
      malloc env true (alloc_size (scan_value tr) (scan_value tc)) = some b1 ∧
      zero_fill d { block0 := b0, block1 := b1, total_live := 0 } = some hz ∧
      read_coords d (scan_value tn).toNat toks hz = Except.ok h2 ∧
      h = { h2 with total_live := scan_value tn } := by
  rcases infile with _ | toks
  · simp [initialize_board, bind, Except.bind, throw, throwThe, MonadExceptOf.throw] at hok
  rcases toks with _ | ⟨rows, _ | ⟨cols, _ | ⟨iters, _ | ⟨numcoords, toks⟩⟩⟩⟩
  · simp [initialize_board, scan_int, bind, Except.bind, throw, throwThe,
      MonadExceptOf.throw, pure, Except.pure] at hok
  · simp [initialize_board, scan_int, bind, Except.bind, throw, throwThe,
      MonadExceptOf.throw, pure, Except.pure] at hok
  · simp [initialize_board, scan_int, bind, Except.bind, throw, throwThe,
      MonadExceptOf.throw, pure, Except.pure] at hok
  · cases hm0 : malloc env false (alloc_size (scan_value rows) (scan_value cols)) <;>
      simp [initialize_board, scan_int, bind, Except.bind, throw, throwThe,
        MonadExceptOf.throw, pure, Except.pure, hm0] at hok
  · cases hm0 : malloc env false (alloc_size (scan_value rows) (scan_value cols)) with
    | none =>
      simp [initialize_board, scan_int, bind, Except.bind, throw, throwThe,
        MonadExceptOf.throw, pure, Except.pure, hm0] at hok
    | some b0 =>
      cases hm1 : malloc env true (alloc_size (scan_value rows) (scan_value cols)) with
      | none =>
        simp [initialize_board, scan_int, bind, Except.bind, throw, throwThe,
          MonadExceptOf.throw, pure, Except.pure, hm0, hm1] at hok
      | some b1 =>
        simp only [initialize_board, scan_int, bind, Except.bind, throw, throwThe,
          MonadExceptOf.throw, pure, Except.pure, hm0, hm1, initial_heap] at hok
        cases hz : zero_fill
            { rows := scan_value rows, cols := scan_value cols, iters := scan_value iters,
              array := false, next_board := true,
              output_mode := cfg.OUTPUT_MODE, id := data.id, grid_allocation := cfg.PARTITION,
              num_threads := cfg.NUM_THREADS, print_partition := data.print_partition }
            { block0 := b0, block1 := b1, total_live := 0 } with
        | none =>
          rw [hz] at hok
          simp at hok
        | some h1 =>
          rw [hz] at hok
          simp only [] at hok
          cases hrc : read_coords
              { rows := scan_value rows, cols := scan_value cols, iters := scan_value iters,
                array := false, next_board := true,
                output_mode := cfg.OUTPUT_MODE, id := data.id,
                grid_allocation := cfg.PARTITION, num_threads := cfg.NUM_THREADS,
                print_partition := data.print_partition }
              (scan_value numcoords).toNat toks h1 with
          | error e =>
            rw [hrc] at hok
            simp at hok
          | ok h2 =>
            rw [hrc] at hok
            simp only [Except.ok.injEq, Prod.mk.injEq] at hok
            obtain ⟨rfl, rfl⟩ := hok
            exact ⟨rows, cols, iters, numcoords, toks, b0, b1, h1, h2, rfl, rfl, hm0, hm1, hz,
              hrc, rfl⟩

/-- A loop of stores of one value at the cells of a list: when it succeeds, every
index was inside the block. -/
theorem fold_store (p : Bool) (cols v : Int) (l : List (Int × Int)) (h h1 : Heap)
    (hf : l.foldlM (fun (g : Heap) (c : Int × Int) => g.store p (c.1 * cols + c.2) v) h
      = some h1) :
    h1 = h.set_block p (write_cells cols (fun _ _ => v) (h.block p) l) ∧
    ∀ c ∈ l, 0 ≤ c.1 * cols + c.2 ∧ c.1 * cols + c.2 < ((h.block p).length : Int) := by
  induction l generalizing h with
  | nil =>
    simp only [List.foldlM_nil, Option.pure_def, Option.some.injEq] at hf
    subst hf
    exact ⟨(set_block_self h p).symm, fun c hc => by simp at hc⟩
  | cons c l ih =>
    rw [List.foldlM_cons] at hf
    by_cases hb : 0 ≤ c.1 * cols + c.2 ∧ c.1 * cols + c.2 < ((h.block p).length : Int)
    · rw [store_eq h p v hb.1 hb.2] at hf
      simp only [Option.bind_eq_bind, Option.some_bind] at hf
      obtain ⟨e1, e2⟩ := ih _ hf
      rw [block_set_block_same] at e1 e2
      rw [set_block_set_block] at e1
      refine ⟨e1, ?_⟩
      intro c1 hc1
      rcases List.mem_cons.1 hc1 with e | e
      · rw [e]
        exact hb
      · have := e2 c1 e
        rw [List.length_set] at this
        exact this
    · simp [Heap.store, hb] at hf

theorem zero_fill_eq (data : gol_data) (h : Heap) :
    zero_fill data h = (all_cells data.rows data.cols).foldlM
      (fun (g : Heap) (c : Int × Int) =>
        g.store data.array (to_int (to_int (c.1 * data.cols) + c.2)) 0) h := by
  unfold zero_fill all_cells
  exact foldlM_nested _ _
    (fun g i j => g.store data.array (to_int (to_int (i * data.cols) + j)) 0) h

theorem mem_all_cells_iff (rows cols : Int) (c : Int × Int) :
    c ∈ all_cells rows cols ↔ (0 ≤ c.1 ∧ c.1 < rows) ∧ (0 ≤ c.2 ∧ c.2 < cols) := by
  simp only [all_cells, List.mem_flatMap, List.mem_map, mem_intRange]
  constructor
  · rintro ⟨j, hj, k, hk, rfl⟩
    exact ⟨⟨hj.1, by omega⟩, hk.1, by omega⟩
  · rintro ⟨⟨a, b⟩, e, f⟩
    exact ⟨c.1, ⟨a, by omega⟩, c.2, ⟨e, by omega⟩, rfl⟩

theorem malloc_length (env : Env) (p : Bool) (bytes : Nat) (b : List Int)
    (hm : malloc env p bytes = some b) : b.length = bytes / 4 := by
  unfold malloc at hm
  split_ifs at hm
  simp only [Option.some.injEq] at hm
  subst hm
  simp

/-- The zero-filling loop does not succeed on a grid of more than 2^31 cells: the
index of the cell number 2^31 is computed as `-2^31`. -/
theorem zero_fill_bound (data : gol_data) (h hz : Heap) (hf : zero_fill data h = some hz)
    (hc : 1 ≤ data.cols) : data.rows * data.cols ≤ 2147483648 := by
  by_contra hgt
  have hlt : 2147483648 < data.rows * data.cols := by omega
  have hq : 2147483648 / data.cols < data.rows :=
    Int.ediv_lt_of_lt_mul (by omega) hlt
  have hq0 : 0 ≤ 2147483648 / data.cols := Int.ediv_nonneg (by decide) (by omega)
  have hm0 := Int.emod_nonneg 2147483648 (show data.cols ≠ 0 by omega)
  have hm1 := Int.emod_lt_of_pos 2147483648 (show 0 < data.cols by omega)
  have hidx : 2147483648 / data.cols * data.cols + 2147483648 % data.cols = 2147483648 := by
    rw [mul_comm]
    exact Int.ediv_add_emod _ _
  rw [zero_fill_eq, foldlM_none_of_mem _ _ (2147483648 / data.cols, 2147483648 % data.cols)
    ((mem_all_cells_iff _ _ _).2 ⟨⟨hq0, hq⟩, hm0, hm1⟩)] at hf
  · cases hf
  · intro s
    simp only [to_int_add, hidx]
    simp [Heap.store, to_int]

/-- When the zero-filling loop succeeds on a grid of at least 1×1 cells in a block
of `alloc_size rows cols` bytes, the block has `rows * cols` cells and they are all 0. -/
theorem zero_fill_ok (data : gol_data) (h hz : Heap) (hf : zero_fill data h = some hz)
    (hr : 1 ≤ data.rows) (hc : 1 ≤ data.cols)
    (hlen : (h.block data.array).length = alloc_size data.rows data.cols / 4) :
    ((h.block data.array).length : Int) = data.rows * data.cols ∧
    hz = h.set_block data.array (mk_board data.rows data.cols (fun _ _ => 0)) := by
  have hb := zero_fill_bound data h hz hf hc
  rw [zero_fill_eq, foldlM_congr_mem _
    (fun (g : Heap) (c : Int × Int) => g.store data.array (c.1 * data.cols + c.2) 0) _
    (fun c hc1 s => by
      obtain ⟨⟨x0, x1⟩, y0, y1⟩ := (mem_all_cells_iff _ _ c).1 hc1
      rw [index_exact hb x0 x1 y0 y1])] at hf
  obtain ⟨e1, e2⟩ := fold_store _ _ _ _ _ _ hf
  have hlast := e2 (data.rows - 1, data.cols - 1)
    ((mem_all_cells_iff _ _ _).2 ⟨⟨by simp; omega, by simp⟩, by simp; omega, by simp⟩)
  simp only [] at hlast
  have hmul : (data.rows - 1) * data.cols + (data.cols - 1) = data.rows * data.cols - 1 := by
    ring
  have hpos : 0 < data.rows * data.cols := mul_pos (by omega) (by omega)
  have hlen2 : ((h.block data.array).length : Int) = data.rows * data.cols := by
    rw [hlen] at hlast ⊢
    unfold alloc_size at hlast ⊢
    rw [mul_assoc] at hlast ⊢
    generalize data.rows * data.cols = rc at *
    omega
  refine ⟨hlen2, ?_⟩
  rw [e1]
  congr 1
  apply eq_mk_board data.rows data.cols (by omega)
  · rw [write_cells_length]
    exact hlen2
  · intro x y hx0 hx hy0 hy
    exact write_cells_get data.rows data.cols (fun _ _ => 0) _
      (fun c hc1 => (mem_all_cells_iff _ _ c).1 hc1) _ hlen2 hx0 hx hy0 hy
      (Or.inl ((mem_all_cells_iff _ _ (x, y)).2 ⟨⟨hx0, hx⟩, hy0, hy⟩))

/-- When the loop over the coordinate pairs completes, all `n` pairs were read and
each passed the test of `get_value_at`. -/
theorem read_coords_lt (d : gol_data) (n : Nat) (toks : List Int) (h h2 : Heap)
    (hrc : read_coords d n toks h = Except.ok h2) :
    (listed_pairs n toks).length = n ∧
    ∀ p ∈ listed_pairs n toks, p.1 < d.rows ∧ p.2 < d.cols := by
  induction n generalizing toks h with
  | zero =>
    cases toks <;> simp [listed_pairs]
  | succ n ih =>
    rcases toks with _ | ⟨r, _ | ⟨c, rest⟩⟩
    · simp [read_coords, throw, throwThe, MonadExceptOf.throw] at hrc
    · simp [read_coords, throw, throwThe, MonadExceptOf.throw] at hrc
    · by_cases hgv : scan_value r < d.rows ∧ scan_value c < d.cols
      · simp only [read_coords, get_value_at, if_pos hgv] at hrc
        cases hst : h.store d.array
            (to_int (to_int (scan_value r * d.cols) + scan_value c)) 1 with
        | none =>
          rw [hst] at hrc
          simp [throw, throwThe, MonadExceptOf.throw] at hrc
        | some h1 =>
          rw [hst] at hrc
          obtain ⟨e1, e2⟩ := ih rest h1 hrc
          refine ⟨by simp [listed_pairs, e1], ?_⟩
          intro p hp
          simp only [listed_pairs, List.mem_cons] at hp
          rcases hp with e | e
          · rw [e]
            exact hgv
          · exact e2 p e
      · simp [read_coords, get_value_at, if_neg hgv, throw, throwThe,
          MonadExceptOf.throw] at hrc

/-- The loop over the coordinate pairs writes the value 1 into cells of the block
`data->array` and nothing else. -/
theorem read_coords_block (d : gol_data) (n : Nat) (toks : List Int) (h h2 : Heap)
    (hrc : read_coords d n toks h = Except.ok h2) :
    ∃ g, h2 = h.set_block d.array g ∧ g.length = (h.block d.array).length ∧
      ∀ v ∈ g, v ∈ h.block d.array ∨ v = 1 := by
  induction n generalizing toks h with
  | zero =>
    simp only [read_coords, pure, Except.pure, Except.ok.injEq] at hrc
    subst hrc
    exact ⟨h.block d.array, (set_block_self h d.array).symm, rfl, fun v hv => Or.inl hv⟩
  | succ n ih =>
    rcases toks with _ | ⟨r, _ | ⟨c, rest⟩⟩
    · simp [read_coords, throw, throwThe, MonadExceptOf.throw] at hrc
    · simp [read_coords, throw, throwThe, MonadExceptOf.throw] at hrc
    · by_cases hgv : scan_value r < d.rows ∧ scan_value c < d.cols
      · simp only [read_coords, get_value_at, if_pos hgv] at hrc
        generalize to_int (to_int (scan_value r * d.cols) + scan_value c) = off at hrc
        by_cases hb : 0 ≤ off ∧ off < ((h.block d.array).length : Int)
        · rw [store_eq h d.array 1 hb.1 hb.2] at hrc
          obtain ⟨g, e1, e2, e3⟩ := ih rest _ hrc
          rw [block_set_block_same] at e2 e3
          rw [set_block_set_block] at e1
          refine ⟨g, e1, by rw [e2, List.length_set], ?_⟩
          intro v hv
          rcases e3 v hv with e | e
          · rcases List.mem_or_eq_of_mem_set e with e4 | e4
            · exact Or.inl e4
            · exact Or.inr e4
          · exact Or.inr e
        · simp [Heap.store, hb, throw, throwThe, MonadExceptOf.throw] at hrc
      · simp [read_coords, get_value_at, if_neg hgv, throw, throwThe,
          MonadExceptOf.throw] at hrc

/-- When the loop over the coordinate pairs completes and the indices of the pairs
are computed exactly, each pair was written inside the block. -/
theorem read_coords_ok (d : gol_data) (n : Nat) (toks : List Int) (h h2 : Heap)
    (hrc : read_coords d n toks h = Except.ok h2)
    (hex : ∀ p ∈ listed_pairs n toks,
      to_int (to_int (p.1 * d.cols) + p.2) = p.1 * d.cols + p.2) :
    (∀ p ∈ listed_pairs n toks,
      0 ≤ p.1 * d.cols + p.2 ∧ p.1 * d.cols + p.2 < ((h.block d.array).length : Int)) ∧
    h2 = h.set_block d.array
      (write_cells d.cols (fun _ _ => 1) (h.block d.array) (listed_pairs n toks)) := by
  induction n generalizing toks h with
  | zero =>
    simp only [read_coords, pure, Except.pure, Except.ok.injEq] at hrc
    subst hrc
    cases toks <;> simp [listed_pairs, write_cells, set_block_self]
  | succ n ih =>
    rcases toks with _ | ⟨r, _ | ⟨c, rest⟩⟩
    · simp [read_coords, throw, throwThe, MonadExceptOf.throw] at hrc
    · simp [read_coords, throw, throwThe, MonadExceptOf.throw] at hrc
    · have hex0 := hex (scan_value r, scan_value c) (by simp [listed_pairs])
      simp only [] at hex0
      by_cases hgv : scan_value r < d.rows ∧ scan_value c < d.cols
      · by_cases hb : 0 ≤ scan_value r * d.cols + scan_value c ∧
            scan_value r * d.cols + scan_value c < ((h.block d.array).length : Int)
        · simp only [read_coords, get_value_at, if_pos hgv, hex0,
            store_eq h d.array 1 hb.1 hb.2] at hrc
          obtain ⟨e2, e3⟩ := ih rest _ hrc
            (fun p hp => hex p (by simp only [listed_pairs, List.mem_cons]; exact Or.inr hp))
          rw [block_set_block_same] at e2 e3
          rw [set_block_set_block] at e3
          refine ⟨?_, ?_⟩
          · intro p hp
            simp only [listed_pairs, List.mem_cons] at hp
            rcases hp with e | e
            · rw [e]
              exact hb
            · have := e2 p e
              rw [List.length_set] at this
              exact this
          · rw [e3]
            rfl
        · simp [read_coords, get_value_at, if_pos hgv, hex0, Heap.store, hb, throw, throwThe,
            MonadExceptOf.throw] at hrc
      · simp [read_coords, get_value_at, if_neg hgv, throw, throwThe,
          MonadExceptOf.throw] at hrc

/-- The record and the heap left by a call of `initialize_board` that returns 0 on
a grid of at least 1×1 cells: the grid has at most 2^31 cells, both blocks have
`rows * cols` cells, and the loop over the coordinate pairs ran on the zero
board. -/
theorem initialize_board_shape (cfg : Config) (env : Env) (data : gol_data)
    (tr tc ti tn : Int) (toks : List Int) (d : gol_data) (h : Heap)
    (hok : initialize_board cfg env data (some (tr :: tc :: ti :: tn :: toks))
      = Except.ok (d, h))
    (hr : 1 ≤ d.rows) (hc : 1 ≤ d.cols) :
    d.array = false ∧ d.next_board = true ∧ d.rows = scan_value tr ∧ d.cols = scan_value tc ∧
    d.iters = scan_value ti ∧ d.num_threads = cfg.NUM_THREADS ∧
    d.rows * d.cols ≤ 2147483648 ∧ h.total_live = scan_value tn ∧
    ∃ b1 h2, ((b1.length : Nat) : Int) = d.rows * d.cols ∧
      read_coords d (scan_value tn).toNat toks
        { block0 := mk_board d.rows d.cols (fun _ _ => 0), block1 := b1, total_live := 0 }
        = Except.ok h2 ∧
      h = { h2 with total_live := scan_value tn } := by
  obtain ⟨tr1, tc1, ti1, tn1, toks1, b0, b1, hz, h2, e0, hd, hm0, hm1, hzf,
    hrc, rfl⟩ := initialize_board_ok cfg env data _ d h hok
  simp only [Option.some.injEq, List.cons.injEq] at e0
  obtain ⟨rfl, rfl, rfl, rfl, rfl⟩ := e0
  have d1 : d.array = false := by rw [hd]
  have d2 : d.next_board = true := by rw [hd]
  have d3 : d.rows = scan_value tr := by rw [hd]
  have d4 : d.cols = scan_value tc := by rw [hd]
  have d5 : d.iters = scan_value ti := by rw [hd]
  have d6 : d.num_threads = cfg.NUM_THREADS := by rw [hd]
  have l0 := malloc_length env false _ b0 hm0
  have l1 := malloc_length env true _ b1 hm1
  rw [← d3, ← d4] at l0 l1
  have hb := zero_fill_bound d _ hz hzf hc
  obtain ⟨z1, z2⟩ := zero_fill_ok d { block0 := b0, block1 := b1, total_live := 0 } hz hzf
    hr hc (by rw [d1]; exact l0)
  subst z2
  rw [d1] at z1 hrc
  simp only [Heap.block, Heap.set_block, Bool.false_eq_true, if_false] at z1 hrc
  refine ⟨d1, d2, d3, d4, d5, d6, hb, rfl, b1, h2, ?_, hrc, rfl⟩
  rw [l1, ← l0]
  exact z1

/-- The heap left by a call of `initialize_board` that returns 0 on a grid of at
least 1×1 cells, for pairs with non-negative coordinates: the grid is the zero
board with the cells of the listed pairs set to 1. -/
theorem initialize_board_grid (cfg : Config) (env : Env) (data : gol_data)
    (tr tc ti tn : Int) (toks : List Int) (d : gol_data) (h : Heap)
    (hok : initialize_board cfg env data (some (tr :: tc :: ti :: tn :: toks))
      = Except.ok (d, h))
    (hr : 1 ≤ d.rows) (hc : 1 ≤ d.cols)
    (hnn : ∀ p ∈ listed_pairs (scan_value tn).toNat toks, 0 ≤ p.1 ∧ 0 ≤ p.2) :
    h.block d.array = write_cells d.cols (fun _ _ => 1)
      (mk_board d.rows d.cols (fun _ _ => 0)) (listed_pairs (scan_value tn).toNat toks) ∧
    ∀ p ∈ listed_pairs (scan_value tn).toNat toks,
      (0 ≤ p.1 ∧ p.1 < d.rows) ∧ (0 ≤ p.2 ∧ p.2 < d.cols) := by
  obtain ⟨d1, _, _, _, _, _, hb, _, b1, h2, _, hrc, rfl⟩ :=
    initialize_board_shape cfg env data tr tc ti tn toks d h hok hr hc
  obtain ⟨_, r2⟩ := read_coords_lt _ _ _ _ _ hrc
  have hin : ∀ p ∈ listed_pairs (scan_value tn).toNat toks,
      (0 ≤ p.1 ∧ p.1 < d.rows) ∧ (0 ≤ p.2 ∧ p.2 < d.cols) := fun p hp =>
    ⟨⟨(hnn p hp).1, (r2 p hp).1⟩, (hnn p hp).2, (r2 p hp).2⟩
  obtain ⟨_, r3⟩ := read_coords_ok _ _ _ _ _ hrc
    (fun p hp => index_exact hb (hin p hp).1.1 (hin p hp).1.2 (hin p hp).2.1 (hin p hp).2.2)
  refine ⟨?_, hin⟩
  subst r3
  rw [d1]
  rfl

theorem write_cells_get_not_mem (rows cols : Int) (f : Int → Int → Int)
    (l : List (Int × Int))
    (hl : ∀ c ∈ l, (0 ≤ c.1 ∧ c.1 < rows) ∧ (0 ≤ c.2 ∧ c.2 < cols))
    (g : List Int) {x y : Int} (hx0 : 0 ≤ x) (hx : x < rows) (hy0 : 0 ≤ y) (hy : y < cols)
    (hmem : (x, y) ∉ l) :
    (write_cells cols f g l)[(x * cols + y).toNat]? = g[(x * cols + y).toNat]? := by
  induction l generalizing g with
  | nil => rfl
  | cons c l ih =>
    obtain ⟨⟨cx0, cx⟩, cy0, cy⟩ := hl c (List.mem_cons_self _ _)
    obtain ⟨b0, b1⟩ := idx_bounds hx0 hx hy0 hy
    obtain ⟨d0, d1⟩ := idx_bounds cx0 cx cy0 cy
    simp only [write_cells, List.foldl_cons]
    have h1 := ih (fun c1 hc1 => hl c1 (List.mem_cons_of_mem _ hc1))
      (g.set (c.1 * cols + c.2).toNat (f c.1 c.2))
      (fun hm => hmem (List.mem_cons_of_mem _ hm))
    simp only [write_cells] at h1
    rw [h1, List.getElem?_set]
    have hne : (c.1 * cols + c.2).toNat ≠ (x * cols + y).toNat := by
      intro he
      have he2 : c.1 * cols + c.2 = x * cols + y := by omega
      obtain ⟨e1, e2⟩ := idx_inj cy0 cy hy0 hy he2
      exact hmem (by rw [← e1, ← e2]; exact List.mem_cons_self _ _)
    rw [if_neg hne]

/-- The zero board with the in-range cells of a list set to 1 is the grid whose
live cells are exactly those of the list. -/
theorem cell_write_ones (rows cols : Int) (l : List (Int × Int))
    (hl : ∀ c ∈ l, (0 ≤ c.1 ∧ c.1 < rows) ∧ (0 ≤ c.2 ∧ c.2 < cols))
    {x y : Int} (hx0 : 0 ≤ x) (hx : x < rows) (hy0 : 0 ≤ y) (hy : y < cols) :
    cell (write_cells cols (fun _ _ => 1) (mk_board rows cols (fun _ _ => 0)) l) cols x y
      = live_at l x y := by
  have hlen := mk_board_length_int rows cols (by omega) (by omega) (fun _ _ => 0)
  unfold cell live_at
  by_cases hm : (x, y) ∈ l
  · have h1 := write_cells_get rows cols (fun _ _ => 1) l hl _ hlen hx0 hx hy0 hy (Or.inl hm)
    simp [List.getD, h1, hm]
  · have h1 := write_cells_get_not_mem rows cols (fun _ _ => 1) l hl
      (mk_board rows cols (fun _ _ => 0)) hx0 hx hy0 hy hm
    rw [mk_board_get rows cols _ hx0 hx hy0 hy] at h1
    simp [List.getD, h1, hm]

theorem grid_sum_congr (rows cols : Int) (f g : Int → Int → Int)
    (hfg : ∀ x y : Int, 0 ≤ x → x < rows → 0 ≤ y → y < cols → f x y = g x y) :
    grid_sum rows cols f = grid_sum rows cols g := by
  unfold grid_sum
  congr 1
  apply List.map_congr_left
  intro x hx
  rw [mem_intRange] at hx
  congr 1
  apply List.map_congr_left
  intro y hy
  rw [mem_intRange] at hy
  exact hfg x y hx.1 (by omega) hy.1 (by omega)

theorem grid_sum_add (rows cols : Int) (f g : Int → Int → Int) :
    grid_sum rows cols (fun x y => f x y + g x y)
      = grid_sum rows cols f + grid_sum rows cols g := by
  unfold grid_sum
  simp only [List.sum_map_add]

theorem grid_sum_degenerate (rows cols : Int) (f : Int → Int → Int)
    (h : rows ≤ 0 ∨ cols ≤ 0) : grid_sum rows cols f = 0 := by
  unfold grid_sum
  rcases h with h | h
  · rw [intRange_empty (show rows - 1 < 0 by omega)]
    rfl
  · rw [intRange_empty (show cols - 1 < 0 by omega)]
    simp

/-- The grid whose live cells are the pairwise distinct in-range cells of a list
has as many live cells as the list has entries. -/
theorem grid_sum_live_at (rows cols : Int) (l : List (Int × Int))
    (hl : ∀ c ∈ l, (0 ≤ c.1 ∧ c.1 < rows) ∧ (0 ≤ c.2 ∧ c.2 < cols)) (hnd : l.Nodup) :
    grid_sum rows cols (live_at l) = l.length := by
  induction l with
  | nil =>
    have e : live_at [] = fun _ _ => (0 : Int) := by
      funext x y
      simp [live_at]
    rw [e]
    unfold grid_sum
    simp
  | cons c l ih =>
    obtain ⟨hc, hnd1⟩ := List.nodup_cons.1 hnd
    obtain ⟨⟨cx0, cx⟩, cy0, cy⟩ := hl c (List.mem_cons_self _ _)
    have e : live_at (c :: l) = fun x y => live_at [c] x y + live_at l x y := by
      funext x y
      simp only [live_at, List.mem_cons, List.mem_singleton, List.not_mem_nil, or_false]
      by_cases h1 : (x, y) = c
      · have h2 : (x, y) ∉ l := by
          rw [h1]
          exact hc
        simp [h1, h2, hc]
      · simp [h1]
    have e1 : grid_sum rows cols (live_at [c]) = 1 := by
      have e2 : live_at [c] = live_at [(c.1, c.2)] := rfl
      rw [e2, live_at_single, grid_sum_prod, sum_ind_single rows cx0 cx,
        sum_ind_single cols cy0 cy]
      rfl
    rw [e, grid_sum_add, e1, ih (fun c1 hc1 => hl c1 (List.mem_cons_of_mem _ hc1)) hnd1]
    simp only [List.length_cons]
    push_cast
    ring

/-- Claim C16, as the code has it. For every input that `initialize_board` accepts
and whose listed pairs, as `fscanf` stores them, have non-negative coordinates,
all the listed pairs were read, the grid has value 1 exactly at the listed
`(row, col)` pairs and 0 at every other cell, and `total_live` is the count field
of the input; that field is the number of cells equal to 1 when it is not negative
and the listed pairs are pairwise distinct. -/
theorem initial_grid_and_total (cfg : Config) (env : Env) (data : gol_data)
    (tr tc ti tn : Int) (toks : List Int) (d : gol_data) (h : Heap)
    (hok : initialize_board cfg env data (some (tr :: tc :: ti :: tn :: toks))
      = Except.ok (d, h))
    (hnn : ∀ p ∈ listed_pairs (scan_value tn).toNat toks, 0 ≤ p.1 ∧ 0 ≤ p.2) :
    d.rows = scan_value tr ∧ d.cols = scan_value tc ∧
    (listed_pairs (scan_value tn).toNat toks).length = (scan_value tn).toNat ∧
    (∀ x y : Int, 0 ≤ x → x < d.rows → 0 ≤ y → y < d.cols →
      cell (h.block d.array) d.cols x y
        = live_at (listed_pairs (scan_value tn).toNat toks) x y) ∧
    h.total_live = scan_value tn ∧
    (0 ≤ scan_value tn → (listed_pairs (scan_value tn).toNat toks).Nodup →
      h.total_live = live_cells d.rows d.cols (h.block d.array)) := by
  obtain ⟨tr1, tc1, ti1, tn1, toks1, b0, b1, hz, h2, e0, hd, _, _, _, hrc, hh⟩ :=
    initialize_board_ok cfg env data _ d h hok
  simp only [Option.some.injEq, List.cons.injEq] at e0
  obtain ⟨rfl, rfl, rfl, rfl, rfl⟩ := e0
  have d3 : d.rows = scan_value tr := by rw [hd]
  have d4 : d.cols = scan_value tc := by rw [hd]
  have htl : h.total_live = scan_value tn := by rw [hh]
  obtain ⟨r1, r2⟩ := read_coords_lt _ _ _ _ _ hrc
  by_cases hdim : 1 ≤ d.rows ∧ 1 ≤ d.cols
  · obtain ⟨a9, hin⟩ :=
      initialize_board_grid cfg env data tr tc ti tn toks d h hok hdim.1 hdim.2 hnn
    have hcell : ∀ x y : Int, 0 ≤ x → x < d.rows → 0 ≤ y → y < d.cols →
        cell (h.block d.array) d.cols x y
          = live_at (listed_pairs (scan_value tn).toNat toks) x y := by
      intro x y hx0 hx hy0 hy
      rw [a9]
      exact cell_write_ones d.rows d.cols _ hin hx0 hx hy0 hy
    refine ⟨d3, d4, r1, hcell, htl, fun h0 hnd => ?_⟩
    unfold live_cells
    rw [grid_sum_congr d.rows d.cols _ (live_at (listed_pairs (scan_value tn).toNat toks)),
      grid_sum_live_at d.rows d.cols _ hin hnd, htl, r1, Int.toNat_of_nonneg h0]
    intro x y hx0 hx hy0 hy
    rw [hcell x y hx0 hx hy0 hy]
    unfold live_at
    by_cases hm : (x, y) ∈ listed_pairs (scan_value tn).toNat toks <;> simp [hm]
  · have hnil : listed_pairs (scan_value tn).toNat toks = [] := by
      rw [List.eq_nil_iff_forall_not_mem]
      intro p hp
      have h1 := hnn p hp
      have h2 := r2 p hp
      omega
    refine ⟨d3, d4, r1, fun x y hx0 hx hy0 hy => ?_, htl, fun h0 _ => ?_⟩
    · omega
    · rw [hnil, List.length_nil] at r1
      unfold live_cells
      rw [grid_sum_degenerate _ _ _ (by omega), htl]
      omega

theorem initial_grid_and_total_witness :
    (initialize_board source_config ex_env ex_data (some [5, 5, 1, 3, 2, 1, 2, 2, 2, 3])
        = Except.ok (ex_data, ex_heap) ∧
      ∀ p ∈ listed_pairs (scan_value 3).toNat [2, 1, 2, 2, 2, 3], 0 ≤ p.1 ∧ 0 ≤ p.2) ∧
    (listed_pairs (scan_value 3).toNat [2, 1, 2, 2, 2, 3] = [(2, 1), (2, 2), (2, 3)] ∧
      ex_data.rows = scan_value 5 ∧ ex_data.cols = scan_value 5 ∧
      (listed_pairs (scan_value 3).toNat [2, 1, 2, 2, 2, 3]).length = (scan_value 3).toNat ∧
      (∀ x y : Int, 0 ≤ x → x < ex_data.rows → 0 ≤ y → y < ex_data.cols →
        cell (ex_heap.block ex_data.array) ex_data.cols x y
          = live_at (listed_pairs (scan_value 3).toNat [2, 1, 2, 2, 2, 3]) x y) ∧
      ex_heap.total_live = scan_value 3 ∧
      (0 ≤ scan_value 3 → (listed_pairs (scan_value 3).toNat [2, 1, 2, 2, 2, 3]).Nodup →
        ex_heap.total_live = live_cells ex_data.rows ex_data.cols
          (ex_heap.block ex_data.array))) :=
  ⟨⟨by rfl, by decide⟩, by decide,
    initial_grid_and_total source_config ex_env ex_data 5 5 1 3 [2, 1, 2, 2, 2, 3] ex_data
      ex_heap (by rfl) (by decide)⟩

/-- Claim C16 fails as stated: for the input `5 5 1 2  2 2  2 2`, which lists the cell
`(2, 2)` twice, `initialize_board` returns 0 and sets `total_live = 2`, while the
grid has one cell equal to 1. And for the input `5 5 1 1  4294967298 0` the pair
stored by `fscanf` is `(2, 0)`: `initialize_board` returns 0 with the cell `(2, 0)`
set to 1. On a grid of more than 2^31 cells (50000 × 46341) the zero-filling loop
computes a negative index and writes before the block: the call has no result. -/
theorem duplicate_pairs_total :
    (∃ d h, initialize_board source_config ex_env ex_data (some [5, 5, 1, 2, 2, 2, 2, 2])
        = Except.ok (d, h) ∧
      h.total_live = 2 ∧ (h.block d.array).count 1 = 1 ∧
      live_cells d.rows d.cols (h.block d.array) = 1) ∧
    (∃ d h, initialize_board source_config ex_env ex_data (some [5, 5, 1, 1, 4294967298, 0])
        = Except.ok (d, h) ∧
      scan_value 4294967298 = 2 ∧ cell (h.block d.array) d.cols 2 0 = 1) ∧
    (∀ h : Heap, zero_fill wide_data h = none) :=
  ⟨⟨{ ex_data with iters := 1 },
      { block0 := [0, 0, 0, 0, 0,  0, 0, 0, 0, 0,  0, 0, 1, 0, 0,  0, 0, 0, 0, 0,
                   0, 0, 0, 0, 0],
        block1 := List.replicate 25 7, total_live := 2 },
      by rfl, by decide, by decide, by decide⟩,
    ⟨{ ex_data with iters := 1 },
      { block0 := [0, 0, 0, 0, 0,  0, 0, 0, 0, 0,  1, 0, 0, 0, 0,  0, 0, 0, 0, 0,
                   0, 0, 0, 0, 0],
        block1 := List.replicate 25 7, total_live := 1 },
      by rfl, by decide, by decide⟩,
    fun h => by
      cases hz : zero_fill wide_data h with
      | none => rfl
      | some z => exact absurd (zero_fill_bound wide_data h z hz (by decide)) (by decide)⟩

/-! ### Rejected and accepted inputs -/

theorem get_value_at_none_iff (i j : Int) (data : gol_data) :
    get_value_at i j data = none ↔ data.rows ≤ i ∨ data.cols ≤ j := by
  unfold get_value_at
  split_ifs with h
  · simp only [reduceCtorEq, false_iff]
    omega
  · simp only [true_iff]
    omega

theorem zero_fill_degenerate (data : gol_data) (h : Heap)
    (hdim : data.rows ≤ 0 ∨ data.cols ≤ 0) : zero_fill data h = some h := by
  rw [zero_fill_eq]
  have e : all_cells data.rows data.cols = [] := by
    rw [List.eq_nil_iff_forall_not_mem]
    intro c hc
    rw [mem_all_cells_iff] at hc
    omega
  rw [e]
  rfl

theorem read_coords_first_rejected (d : gol_data) (n : Nat) (toks : List Int) (h : Heap)
    (hdim : d.rows ≤ 0 ∨ d.cols ≤ 0)
    (hfirst : ∀ p ∈ listed_pairs 1 toks, 0 ≤ p.1 ∧ 0 ≤ p.2) :
    read_coords d (n + 1) toks h = Except.error (Stop.returned 1) := by
  rcases toks with _ | ⟨r, _ | ⟨c, rest⟩⟩
  · rfl
  · rfl
  · obtain ⟨h1, h2⟩ := hfirst (scan_value r, scan_value c) (by simp [listed_pairs])
    simp only [] at h1 h2
    have hgv : get_value_at (scan_value r) (scan_value c) d = none := by
      rw [get_value_at_none_iff]
      omega
    simp only [read_coords, hgv]
    rfl

/-- Claim C12, as the code has it. For an input whose row count or column count, as
`fscanf` stores it, is zero or negative, whose count of live cells is at least 1
and whose first coordinate pair is missing or has non-negative coordinates,
`initialize_board` returns status 1, or the process exits with status 1 at a
failed `malloc`; in each case `main` exits with status 1 before any thread is
created. -/
theorem nonpositive_dims_rejected (cfg : Config) (env : Env) (data : gol_data)
    (tr tc ti tn : Int) (toks : List Int) (argc : Int)
    (hdim : scan_value tr ≤ 0 ∨ scan_value tc ≤ 0) (hn : 1 ≤ scan_value tn)
    (hfirst : ∀ p ∈ listed_pairs 1 toks, 0 ≤ p.1 ∧ 0 ≤ p.2) :
    (initialize_board cfg env data (some (tr :: tc :: ti :: tn :: toks))
        = Except.error (Stop.returned 1) ∨
      initialize_board cfg env data (some (tr :: tc :: ti :: tn :: toks))
        = Except.error (Stop.exited 1)) ∧
    main cfg env data argc (some (tr :: tc :: ti :: tn :: toks))
      = Except.error (Stop.exited 1) := by
  have hinit : initialize_board cfg env data
        (some (tr :: tc :: ti :: tn :: toks)) = Except.error (Stop.returned 1) ∨
      initialize_board cfg env data (some (tr :: tc :: ti :: tn :: toks))
        = Except.error (Stop.exited 1) := by
    obtain ⟨n, hn1⟩ : ∃ n : Nat, (scan_value tn).toNat = n + 1 :=
      ⟨(scan_value tn).toNat - 1, by omega⟩
    cases hm0 : malloc env false (alloc_size (scan_value tr) (scan_value tc)) with
    | none =>
      right
      simp [initialize_board, scan_int, bind, Except.bind, throw, throwThe,
        MonadExceptOf.throw, pure, Except.pure, hm0]
    | some b0 =>
      cases hm1 : malloc env true (alloc_size (scan_value tr) (scan_value tc)) with
      | none =>
        right
        simp [initialize_board, scan_int, bind, Except.bind, throw, throwThe,
          MonadExceptOf.throw, pure, Except.pure, hm0, hm1]
      | some b1 =>
        left
        simp only [initialize_board, scan_int, bind, Except.bind, throw, throwThe,
          MonadExceptOf.throw, pure, Except.pure, hm0, hm1, initial_heap]
        rw [zero_fill_degenerate _ _ hdim, hn1]
        simp only []
        rw [read_coords_first_rejected _ n toks _ hdim hfirst]
  refine ⟨hinit, ?_⟩
  unfold main
  by_cases ha : argc < 2
  · rw [if_pos ha]
    rfl
  · rw [if_neg ha]
    rcases hinit with e | e <;> rw [e] <;> rfl

theorem nonpositive_dims_rejected_witness :
    ((scan_value 0 ≤ 0 ∨ scan_value 5 ≤ 0) ∧ 1 ≤ scan_value 1 ∧
      ∀ p ∈ listed_pairs 1 [0, 0], 0 ≤ p.1 ∧ 0 ≤ p.2) ∧
    (initialize_board source_config ex_env ex_data (some [0, 5, 1, 1, 0, 0])
        = Except.error (Stop.returned 1) ∨
      initialize_board source_config ex_env ex_data (some [0, 5, 1, 1, 0, 0])
        = Except.error (Stop.exited 1)) ∧
    main source_config ex_env ex_data 2 (some [0, 5, 1, 1, 0, 0])
      = Except.error (Stop.exited 1) :=
  ⟨⟨by decide, by decide, by decide⟩,
    nonpositive_dims_rejected source_config ex_env ex_data 0 5 1 1 [0, 0] 2 (by decide)
      (by decide) (by decide)⟩

/-- Claim C12 fails as stated: for the input `-1 -1 1 0` the two calls of `malloc`
ask for 4 bytes each, no cell is written and no pair is read; `initialize_board`
returns 0 with `rows = cols = -1`, and `main` creates its 12 threads and returns 0. -/
theorem nonpositive_dims_accepted :
    alloc_size (-1) (-1) = 4 ∧
    initialize_board source_config ex_env ex_data (some [-1, -1, 1, 0])
      = Except.ok ({ ex_data with rows := -1, cols := -1 },
          { block0 := [7], block1 := [7], total_live := 0 }) ∧
    (spawn { ex_data with rows := -1, cols := -1 }).map List.length = some 12 ∧
    main source_config ex_env ex_data 2 (some [-1, -1, 1, 0])
      = Except.ok { board := some ([], 0), live := 0, rounds := 1 } :=
  ⟨by decide, by rfl, by decide, by rfl⟩

/-- Claim C15 at the inputs `5 5 1 1  1 -1` and `5 5 1 1  -1 0`. The pair `(1, -1)`
is outside the grid, but `get_value_at` returns the address of index 4, the cell
`(0, 4)`, and `initialize_board` sets that cell and returns 0. For the pair
`(-1, 0)`, `get_value_at` returns the address of index -5, and `initialize_board`
writes before the start of the block. -/
theorem negative_coordinates_not_rejected :
    get_value_at 1 (-1) ex_data = some 4 ∧ get_value_at (-1) 0 ex_data = some (-5) ∧
    initialize_board source_config ex_env ex_data (some [5, 5, 1, 1, 1, -1])
      = Except.ok (ex_data,
          { block0 := [0, 0, 0, 0, 1,  0, 0, 0, 0, 0,  0, 0, 0, 0, 0,  0, 0, 0, 0, 0,
                       0, 0, 0, 0, 0],
            block1 := List.replicate 25 7, total_live := 1 }) ∧
    initialize_board source_config ex_env ex_data (some [5, 5, 1, 1, -1, 0])
      = Except.error Stop.undefined :=
  ⟨by decide, by decide, by rfl, by rfl⟩

/-! ### The binary-grid invariant -/

theorem write_cells_binary (cols : Int) (f : Int → Int → Int)
    (hf : ∀ x y, f x y = 0 ∨ f x y = 1) (l : List (Int × Int)) (g : List Int)
    (hg : ∀ v ∈ g, v = 0 ∨ v = 1) : ∀ v ∈ write_cells cols f g l, v = 0 ∨ v = 1 := by
  induction l generalizing g with
  | nil => exact hg
  | cons c l ih =>
    simp only [write_cells, List.foldl_cons]
    apply ih
    intro v hv
    rcases List.mem_or_eq_of_mem_set hv with h1 | h1
    · exact hg v h1
    · rw [h1]
      exact hf _ _

theorem generation_binary (rows cols : Int) (n : Nat) (g : List Int)
    (hg : ∀ v ∈ g, v = 0 ∨ v = 1) : ∀ v ∈ generation rows cols n g, v = 0 ∨ v = 1 := by
  induction n generalizing g with
  | zero => exact hg
  | succ n ih =>
    simp only [generation]
    exact ih _ (mk_board_binary _ _ _ (fun x y => next_state_binary hg _ _ x y))

theorem generation_length (rows cols : Int) (hr : 0 ≤ rows) (hc : 0 ≤ cols) (n : Nat)
    (g : List Int) (hg : (g.length : Int) = rows * cols) :
    ((generation rows cols n g).length : Int) = rows * cols := by
  induction n generalizing g with
  | zero => exact hg
  | succ n ih =>
    simp only [generation]
    exact ih _ (mk_board_length_int rows cols hr hc _)

/-- After at least one round `total_live` is the sum of the current grid. -/
theorem rounds_heap_total (data : gol_data) (n : Nat) (hn : 1 ≤ n) (p : Bool) (h : Heap) :
    (rounds_heap data n p h).total_live
      = (generation data.rows data.cols n (h.block p)).sum := by
  induction n generalizing p h with
  | zero => exact absurd hn (by decide)
  | succ n ih =>
    simp only [rounds_heap, generation]
    rcases Nat.eq_zero_or_pos n with h0 | hpos
    · subst h0
      simp only [rounds_heap, generation]
      exact round_heap_total_live data p h
    · rw [ih hpos, round_heap_block_other]

theorem binary_sum_bounds (l : List Int) (hl : ∀ v ∈ l, v = 0 ∨ v = 1) :
    0 ≤ l.sum ∧ l.sum ≤ (l.length : Int) := by
  rw [← count_one_eq_sum l hl]
  have := List.count_le_length (1 : Int) l
  omega

/-- The grid left by a call of `initialize_board` that returns 0 on a grid of at
least 1×1 cells: both blocks have `rows * cols` cells, and every cell of the grid
is 0 or 1. -/
theorem initialize_board_binary (cfg : Config) (env : Env) (data : gol_data)
    (tr tc ti tn : Int) (toks : List Int) (d : gol_data) (h : Heap)
    (hok : initialize_board cfg env data (some (tr :: tc :: ti :: tn :: toks))
      = Except.ok (d, h))
    (hr : 1 ≤ d.rows) (hc : 1 ≤ d.cols) :
    d.next_board = !d.array ∧ d.num_threads = cfg.NUM_THREADS ∧
    ((h.block d.array).length : Int) = d.rows * d.cols ∧
    ((h.block d.next_board).length : Int) = d.rows * d.cols ∧
    ∀ v ∈ h.block d.array, v = 0 ∨ v = 1 := by
  obtain ⟨d1, d2, _, _, _, d6, _, _, b1, h2, hb1, hrc, rfl⟩ :=
    initialize_board_shape cfg env data tr tc ti tn toks d h hok hr hc
  obtain ⟨g, e1, e2, e3⟩ := read_coords_block _ _ _ _ _ hrc
  subst e1
  rw [d1] at e2 e3 ⊢
  rw [d2]
  simp only [Heap.block, Heap.set_block, Bool.false_eq_true, if_false, if_true] at e2 e3 ⊢
  refine ⟨rfl, d6, ?_, hb1, ?_⟩
  · rw [e2]
    exact mk_board_length_int _ _ (by omega) (by omega) _
  · intro v hv
    rcases e3 v hv with e | e
    · left
      simp only [mk_board, List.mem_map] at e
      obtain ⟨n, _, rfl⟩ := e
      rfl
    · exact Or.inr e

/-- Claim C17, as the code has it. On a grid that fits (`rows * cols`, `2 * rows`
and `2 * cols` at most `INT_MAX`) and whose cells are all 0 or 1, `cell_state`
returns 0 or 1 for every in-range cell. So from a grid of `rows ≥ 1` by `cols ≥ 1`
cells that fits, built by `initialize_board`, after the `iters` rounds of the run
every cell of the current grid is 0 or 1, and when at least one round was played
`0 ≤ total_live ≤ rows * cols`. -/
theorem binary_invariant (cfg : Config) (env : Env) (data : gol_data)
    (tr tc ti tn : Int) (toks : List Int) (d : gol_data) (h : Heap)
    (hok : initialize_board cfg env data (some (tr :: tc :: ti :: tn :: toks))
      = Except.ok (d, h))
    (hr : 1 ≤ d.rows) (hc : 1 ≤ d.cols) (hT : 1 ≤ cfg.NUM_THREADS)
    (hfit : fits d.rows d.cols) :
    (∀ (g : Heap) (e : gol_data) (x y : Int), fits e.rows e.cols →
      ((g.block e.array).length : Int) = e.rows * e.cols →
      (∀ v ∈ g.block e.array, v = 0 ∨ v = 1) →
      0 ≤ x → x < e.rows → 0 ≤ y → y < e.cols →
      cell_state g x y e = some 0 ∨ cell_state g x y e = some 1) ∧
    ∃ ts h1, play_gol_all d h = some (ts, h1) ∧ ts ≠ [] ∧
      (∀ t ∈ ts, ((h1.block t.data.array).length : Int) = d.rows * d.cols ∧
        ∀ v ∈ h1.block t.data.array, v = 0 ∨ v = 1) ∧
      (1 ≤ d.iters → 0 ≤ h1.total_live ∧ h1.total_live ≤ d.rows * d.cols) := by
  constructor
  · intro g e x y hfe hlen hbin hx0 hx hy0 hy
    rw [cell_state_eq g e hfe hlen hx0 hx hy0 hy]
    rcases next_state_binary hbin e.rows e.cols x y with h0 | h1
    · left
      rw [h0]
    · right
      rw [h1]
  · obtain ⟨hptr, d6, hlenA, hlenN, hbin0⟩ :=
      initialize_board_binary cfg env data tr tc ti tn toks d h hok hr hc
    have hT1 : 1 ≤ d.num_threads := by rw [d6]; exact hT
    obtain ⟨b1, _⟩ := rounds_heap_blocks d d.iters.toNat d.array h
    refine ⟨_, _, play_gol_all_spec d hfit (by omega) (by omega) hT1 hptr h hlenA hlenN,
      threads_at_ne_nil d _ hT1, ?_, ?_⟩
    · intro t ht
      rw [mem_threads_at d _ ht, b1]
      exact ⟨generation_length d.rows d.cols (by omega) (by omega) d.iters.toNat _ hlenA,
        generation_binary _ _ _ _ hbin0⟩
    · intro hit
      rw [rounds_heap_total d d.iters.toNat (by omega) d.array h]
      have hb := binary_sum_bounds _ (generation_binary d.rows d.cols d.iters.toNat _ hbin0)
      have hl := generation_length d.rows d.cols (by omega) (by omega) d.iters.toNat _ hlenA
      omega

theorem binary_invariant_witness :
    (initialize_board source_config ex_env ex_data (some [5, 5, 1, 3, 2, 1, 2, 2, 2, 3])
        = Except.ok (ex_data, ex_heap) ∧
      1 ≤ ex_data.rows ∧ 1 ≤ ex_data.cols ∧ 1 ≤ source_config.NUM_THREADS ∧
      fits ex_data.rows ex_data.cols) ∧
    ∃ ts h1, play_gol_all ex_data ex_heap = some (ts, h1) ∧ ts ≠ [] ∧
      (∀ t ∈ ts, ((h1.block t.data.array).length : Int) = ex_data.rows * ex_data.cols ∧
        ∀ v ∈ h1.block t.data.array, v = 0 ∨ v = 1) ∧
      (1 ≤ ex_data.iters → 0 ≤ h1.total_live ∧ h1.total_live ≤ ex_data.rows * ex_data.cols) :=
  ⟨⟨by rfl, by decide, by decide, by decide, by decide⟩,
    (binary_invariant source_config ex_env ex_data 5 5 1 3 [2, 1, 2, 2, 2, 3] ex_data ex_heap
      (by rfl) (by decide) (by decide) (by decide) (by decide)).2⟩

/-! ### Grids that do not fit -/

/-- When an index that `cell_state` passes to a read is computed as a negative
number, the read is outside the block and `cell_state` has no value. -/
theorem cell_state_undefined (data : gol_data) (x y i j wi wj off : Int)
    (hi : i ∈ intRange (x - 1) (x + 1)) (hj : j ∈ intRange (y - 1) (y + 1))
    (hwi : c_mod (to_int (i + data.rows)) data.rows = some wi)
    (hwj : c_mod (to_int (j + data.cols)) data.cols = some wj)
    (hoff : get_value_at wi wj data = some off) (hneg : off < 0) (h : Heap) :
    cell_state h x y data = none := by
  unfold cell_state
  dsimp only []
  rw [foldlM_none_of_mem _ _ i hi]
  · rfl
  · intro s
    apply foldlM_none_of_mem _ _ j hj
    intro s1
    simp [hwi, hwj, hoff, deref, Heap.load, not_le.2 hneg]

theorem compute_partition_undefined (t : Thread) (x y : Int)
    (hx : x ∈ intRange t.part.start_row t.part.end_row)
    (hy : y ∈ intRange t.part.start_col t.part.end_col)
    (hbad : ∀ g, cell_state g x y t.data = none) (h : Heap) :
    compute_partition t h = none := by
  unfold compute_partition
  apply foldlM_none_of_mem _ _ x hx
  intro s
  apply foldlM_none_of_mem _ _ y hy
  intro s1
  simp [compute_cell, hbad]

theorem run_bodies_undefined (ts : List Thread) (t : Thread) (ht : t ∈ ts)
    (hbad : ∀ h, compute_partition t h = none) (h : Heap) : run_bodies ts h = none := by
  induction ts generalizing h with
  | nil => simp at ht
  | cons t1 ts ih =>
    rcases List.mem_cons.1 ht with e | e
    · subst e
      simp [run_bodies, round_body, hbad]
    · cases hb : round_body t1 h with
      | none => simp [run_bodies, hb]
      | some r =>
        obtain ⟨t2, h1⟩ := r
        simp [run_bodies, hb, ih e h1]

/-- When a cell of the part of thread `k` has no `cell_state`, the round of the
threads created by `main` has no result, and neither has a run of at least one
round. -/
theorem round_undefined (data : gol_data) (hr : 0 ≤ data.rows) (hc : 0 ≤ data.cols)
    (hT : 1 ≤ data.num_threads) (hptr : data.next_board = !data.array) (k x y : Int)
    (hk : 0 ≤ k ∧ k < data.num_threads)
    (hx : (part_of data k).start_row ≤ x ∧ x ≤ (part_of data k).end_row)
    (hy : (part_of data k).start_col ≤ y ∧ y ≤ (part_of data k).end_col)
    (hbad : ∀ g, cell_state g x y (thread_at data data.array k).data = none) :
    (∀ ts, spawn data = some ts → ∀ h, play_gol_round ts h = none) ∧
    (1 ≤ data.iters → ∀ h, play_gol_all data h = none) := by
  have hround : ∀ h, play_gol_round (threads_at data data.array) h = none := by
    intro h
    unfold play_gol_round
    apply run_bodies_undefined _ (thread_at data data.array k)
    · unfold threads_at
      exact List.mem_map.2 ⟨k, mem_intRange.2 ⟨hk.1, by omega⟩, rfl⟩
    · intro g
      exact compute_partition_undefined _ x y (mem_intRange.2 hx) (mem_intRange.2 hy) hbad g
  constructor
  · intro ts hs h
    rw [spawn_eq data hr hc hT hptr] at hs
    simp only [Option.some.injEq] at hs
    subst hs
    exact hround h
  · intro hit h
    unfold play_gol_all
    rw [spawn_eq data hr hc hT hptr]
    obtain ⟨n, hn⟩ : ∃ n : Nat, data.iters.toNat = n + 1 := ⟨data.iters.toNat - 1, by omega⟩
    simp [hn, play_gol_rounds, hround]

/-- On the grid of 50000 × 46341 cells the index of a cell of the rows 46341 to
49999 is computed as a negative number, so `cell_state` has no value at a cell
next to such a row. -/
theorem wide_cell_undefined (x y i : Int) (hi : i ∈ intRange (x - 1) (x + 1))
    (hi1 : 46341 ≤ i ∧ i < 50000) (hy : 0 ≤ y ∧ y < 46341) (k : Int) (p : Bool) (h : Heap) :
    cell_state h x y (thread_at wide_data p k).data = none := by
  have hm0 := Int.emod_nonneg (y + 46341) (show (46341 : Int) ≠ 0 by decide)
  have hm1 := Int.emod_lt_of_pos (y + 46341) (show (0 : Int) < 46341 by decide)
  apply cell_state_undefined _ x y i y i ((y + 46341) % 46341)
    (to_int (to_int (i * 46341) + (y + 46341) % 46341)) hi
  · rw [intRange_three]
    simp
  · show c_mod (to_int (i + 50000)) 50000 = some i
    rw [to_int_eq (by omega) (by omega)]
    simp [c_mod, Int.tmod_eq_emod (show 0 ≤ i + 50000 by omega)
      (show (0 : Int) ≤ 50000 by decide)]
    omega
  · show c_mod (to_int (y + 46341)) 46341 = some ((y + 46341) % 46341)
    rw [to_int_eq (by omega) (by omega)]
    simp [c_mod, Int.tmod_eq_emod (show 0 ≤ y + 46341 by omega)
      (show (0 : Int) ≤ 46341 by decide)]
  · show get_value_at i ((y + 46341) % 46341) (thread_at wide_data p k).data = _
    unfold get_value_at
    rw [if_pos ⟨hi1.2, hm1⟩]
    rfl
  · rw [to_int_add, to_int_high (by omega) (by omega)]
    omega

/-- On the grid of 1500000000 × 1 cells the sum `i + rows` for the row below the
last one is computed as a negative number, and so is the index read. -/
theorem tall_cell_undefined (k : Int) (p : Bool) (h : Heap) :
    cell_state h 1499999999 0 (thread_at tall_data p k).data = none := by
  apply cell_state_undefined _ 1499999999 0 1500000000 0 (-1294967296) 0 (-1294967296)
  · decide
  · decide
  · show c_mod (to_int (1500000000 + 1500000000)) 1500000000 = some (-1294967296)
    decide
  · show c_mod (to_int (0 + 1)) 1 = some 0
    decide
  · show (if (-1294967296 : Int) < 1500000000 ∧ (0 : Int) < 1 then
      some (to_int (to_int (-1294967296 * 1) + 0)) else none) = some (-1294967296)
    decide
  · decide

/-- On the grid of 1 × 1500000000 cells the sum `j + cols` for the column after the
last one is computed as a negative number, and so is the index read. -/
theorem flat_cell_undefined (k : Int) (p : Bool) (h : Heap) :
    cell_state h 0 1499999999 (thread_at flat_data p k).data = none := by
  apply cell_state_undefined _ 0 1499999999 0 1500000000 0 (-1294967296) (-1294967296)
  · decide
  · decide
  · show c_mod (to_int (0 + 1)) 1 = some 0
    decide
  · show c_mod (to_int (1500000000 + 1500000000)) 1500000000 = some (-1294967296)
    decide
  · show (if (0 : Int) < 1 ∧ (-1294967296 : Int) < 1500000000 then
      some (to_int (to_int (0 * 1500000000) + -1294967296)) else none) = some (-1294967296)
    decide
  · decide

/-- One round on the grid of 50000 × 46341 cells, and a run of one round, have no
result: thread 11 visits the cell `(46341, 0)`. -/
theorem wide_round_undefined :
    (∀ ts, spawn wide_data = some ts → ∀ h, play_gol_round ts h = none) ∧
    ∀ h, play_gol_all wide_data h = none := by
  obtain ⟨h1, h2⟩ := round_undefined wide_data (by decide) (by decide) (by decide) (by decide)
    11 46341 0 (by decide) (by decide) (by decide)
    (fun g => wide_cell_undefined 46341 0 46341 (by decide) (by decide) (by decide) 11 _ g)
  exact ⟨h1, h2 (by decide)⟩

/-- One round on the grid of 1500000000 × 1 cells has no result: thread 11 visits
the cell `(1499999999, 0)`. -/
theorem tall_round_undefined :
    (∀ ts, spawn tall_data = some ts → ∀ h, play_gol_round ts h = none) ∧
    ∀ h, play_gol_all tall_data h = none := by
  obtain ⟨h1, h2⟩ := round_undefined tall_data (by decide) (by decide) (by decide) (by decide)
    11 1499999999 0 (by decide) (by decide) (by decide)
    (fun g => tall_cell_undefined 11 _ g)
  exact ⟨h1, h2 (by decide)⟩

/-- One round on the grid of 1 × 1500000000 cells has no result: thread 0 visits
the cell `(0, 1499999999)`. -/
theorem flat_round_undefined :
    (∀ ts, spawn flat_data = some ts → ∀ h, play_gol_round ts h = none) ∧
    ∀ h, play_gol_all flat_data h = none := by
  obtain ⟨h1, h2⟩ := round_undefined flat_data (by decide) (by decide) (by decide) (by decide)
    0 0 1499999999 (by decide) (by decide) (by decide)
    (fun g => flat_cell_undefined 0 _ g)
  exact ⟨h1, h2 (by decide)⟩

theorem mem_cells_of (p : Part) (x y : Int) :
    (x, y) ∈ cells_of p ↔
      (p.start_row ≤ x ∧ x ≤ p.end_row) ∧ (p.start_col ≤ y ∧ y ≤ p.end_col) := by
  simp only [cells_of, List.mem_flatMap, List.mem_map, mem_intRange, Prod.mk.injEq]
  constructor
  · rintro ⟨j, hj, k, hk, rfl, rfl⟩
    exact ⟨hj, hk⟩
  · rintro ⟨hx, hy⟩
    exact ⟨x, hx, y, hy, rfl, rfl⟩

/-- Claim C1 fails as stated on grids whose index computations leave the range of
`int`. On the grid of 50000 × 46341 cells the in-range cell `(46341, 0)` has the
index `46341 * 46341 = 2147488281`, which `get_value_at` computes as
`-2147479015`: `cell_state` reads outside the grid, whatever the grid holds. On
the grid of 1500000000 × 1 cells `cell_state` computes `(i + rows) % rows` for the
last row as `-1294967296`, and on the grid of 1 × 1500000000 cells it computes
`(j + cols) % cols` for the last column as `-1294967296`; both pass the test of
`get_value_at` and the read is outside the grid. -/
theorem cell_state_overflow :
    ((0 : Int) ≤ 46341 ∧ (46341 : Int) < wide_data.rows ∧ (0 : Int) < wide_data.cols ∧
      get_value_at 46341 0 wide_data = some (-2147479015) ∧
      ∀ h : Heap, cell_state h 46341 0 wide_data = none) ∧
    ((1499999999 : Int) < tall_data.rows ∧ (0 : Int) < tall_data.cols ∧
      c_mod (to_int (1500000000 + tall_data.rows)) tall_data.rows = some (-1294967296) ∧
      ∀ h : Heap, cell_state h 1499999999 0 tall_data = none) ∧
    ((0 : Int) < flat_data.rows ∧ (1499999999 : Int) < flat_data.cols ∧
      c_mod (to_int (1500000000 + flat_data.cols)) flat_data.cols = some (-1294967296) ∧
      ∀ h : Heap, cell_state h 0 1499999999 flat_data = none) :=
  ⟨⟨by decide, by decide, by decide, by decide,
      fun h => wide_cell_undefined 46341 0 46341 (by decide) (by decide) (by decide) 0 false h⟩,
    ⟨by decide, by decide, by decide, fun h => tall_cell_undefined 0 false h⟩,
    ⟨by decide, by decide, by decide, fun h => flat_cell_undefined 0 false h⟩⟩

/-- Claim C18 fails as stated on grids whose index computations leave the range of
`int`. On the grid of 50000 × 46341 cells thread 11 visits the cell `(46341, 0)`,
whose index `get_value_at` computes as `-2147479015`. On the grid of
1500000000 × 1 cells thread 11 visits the cell `(1499999999, 0)`, for which
`cell_state` passes the row coordinate `-1294967296` to `get_value_at`, which
returns an address before the grid; and likewise for the column coordinate on the
grid of 1 × 1500000000 cells, in thread 0. -/
theorem index_overflow :
    (∃ p, partition { wide_data with id := 11 } = some p ∧ (46341, 0) ∈ cells_of p ∧
      get_value_at 46341 0 { wide_data with id := 11 } = some (-2147479015) ∧
      ¬ (0 : Int) ≤ -2147479015) ∧
    (∃ p, partition { tall_data with id := 11 } = some p ∧ (1499999999, 0) ∈ cells_of p ∧
      (1500000000 : Int) ∈ intRange (1499999999 - 1) (1499999999 + 1) ∧
      c_mod (to_int (1500000000 + tall_data.rows)) tall_data.rows = some (-1294967296) ∧
      get_value_at (-1294967296) 0 { tall_data with id := 11 } = some (-1294967296)) ∧
    (∃ p, partition { flat_data with id := 0 } = some p ∧ (0, 1499999999) ∈ cells_of p ∧
      (1500000000 : Int) ∈ intRange (1499999999 - 1) (1499999999 + 1) ∧
      c_mod (to_int (1500000000 + flat_data.cols)) flat_data.cols = some (-1294967296) ∧
      get_value_at 0 (-1294967296) { flat_data with id := 0 } = some (-1294967296)) :=
  ⟨⟨{ start_row := 45834, start_col := 0, end_row := 49999, end_col := 46340 }, by decide,
      (mem_cells_of _ _ _).2 (by decide), by decide, by decide⟩,
    ⟨{ start_row := 1375000000, start_col := 0, end_row := 1499999999, end_col := 0 },
      by decide, (mem_cells_of _ _ _).2 (by decide), by decide, by decide, by decide⟩,
    ⟨{ start_row := 0, start_col := 0, end_row := 0, end_col := 1499999999 },
      by decide, (mem_cells_of _ _ _).2 (by decide), by decide, by decide, by decide⟩⟩

theorem spawn_wide : spawn wide_data = some (threads_at wide_data false) :=
  spawn_eq wide_data (by decide) (by decide) (by decide) (by decide)

theorem spawn_tall : spawn tall_data = some (threads_at tall_data false) :=
  spawn_eq tall_data (by decide) (by decide) (by decide) (by decide)

theorem spawn_flat : spawn flat_data = some (threads_at flat_data false) :=
  spawn_eq flat_data (by decide) (by decide) (by decide) (by decide)

/-- Claim C4 fails as stated on grids whose index computations leave the range of
`int`: on the grids of 50000 × 46341, of 1500000000 × 1 and of 1 × 1500000000
cells the threads are created, but whatever the grid holds a thread reads outside
the grid in its computing loop; the round has no result, and `total_live` is not
the number of cells equal to 1 of a next grid. -/
theorem count_overflow :
    (∃ ts, spawn wide_data = some ts ∧ ∀ h : Heap, ¬ ∃ ts1 h1,
      play_gol_round ts h = some (ts1, h1) ∧
      h1.total_live = (((h1.block wide_data.next_board).count 1 : Nat) : Int)) ∧
    (∃ ts, spawn tall_data = some ts ∧ ∀ h : Heap, ¬ ∃ ts1 h1,
      play_gol_round ts h = some (ts1, h1) ∧
      h1.total_live = (((h1.block tall_data.next_board).count 1 : Nat) : Int)) ∧
    (∃ ts, spawn flat_data = some ts ∧ ∀ h : Heap, ¬ ∃ ts1 h1,
      play_gol_round ts h = some (ts1, h1) ∧
      h1.total_live = (((h1.block flat_data.next_board).count 1 : Nat) : Int)) := by
  refine ⟨⟨_, spawn_wide, ?_⟩, ⟨_, spawn_tall, ?_⟩, ⟨_, spawn_flat, ?_⟩⟩
  · rintro h ⟨ts1, h1, e, _⟩
    rw [wide_round_undefined.1 _ spawn_wide h] at e
    cases e
  · rintro h ⟨ts1, h1, e, _⟩
    rw [tall_round_undefined.1 _ spawn_tall h] at e
    cases e
  · rintro h ⟨ts1, h1, e, _⟩
    rw [flat_round_undefined.1 _ spawn_flat h] at e
    cases e

/-- Claim C14 fails as stated on grids whose index computations leave the range of
`int`: on the grids of 50000 × 46341, of 1500000000 × 1 and of 1 × 1500000000
cells there is an in-range cell at which `cell_state` reads outside the grid,
whatever the grid holds, and the round of the threads has no result. -/
theorem round_overflow :
    (∃ ts, spawn wide_data = some ts ∧ ∀ h : Heap,
      cell_state h 46341 0 wide_data = none ∧ play_gol_round ts h = none) ∧
    (∃ ts, spawn tall_data = some ts ∧ ∀ h : Heap,
      cell_state h 1499999999 0 tall_data = none ∧ play_gol_round ts h = none) ∧
    (∃ ts, spawn flat_data = some ts ∧ ∀ h : Heap,
      cell_state h 0 1499999999 flat_data = none ∧ play_gol_round ts h = none) :=
  ⟨⟨_, spawn_wide, fun h =>
      ⟨wide_cell_undefined 46341 0 46341 (by decide) (by decide) (by decide) 0 false h,
        wide_round_undefined.1 _ spawn_wide h⟩⟩,
    ⟨_, spawn_tall, fun h =>
      ⟨tall_cell_undefined 0 false h, tall_round_undefined.1 _ spawn_tall h⟩⟩,
    ⟨_, spawn_flat, fun h =>
      ⟨flat_cell_undefined 0 false h, flat_round_undefined.1 _ spawn_flat h⟩⟩⟩

/-- Claim C6 fails as stated on a grid of more than `INT_MAX` cells: on the grid of
50000 × 46341 cells (`rows ≥ 4`, `cols ≥ 4`) a run of one round has no result,
whatever the grid holds: thread 11 reads outside the grid at the cell
`(46341, 0)`. -/
theorem block_overflow :
    (4 ≤ wide_data.rows ∧ 4 ≤ wide_data.cols ∧ 1 ≤ wide_data.num_threads ∧
      1 ≤ wide_data.iters ∧ ¬ wide_data.rows * wide_data.cols ≤ 2147483647) ∧
    ∀ h : Heap, ¬ ∃ ts h1, play_gol_all wide_data h = some (ts, h1) := by
  refine ⟨by decide, ?_⟩
  rintro h ⟨ts, h1, e⟩
  rw [wide_round_undefined.2 h] at e
  cases e

/-- Claim C7 fails as stated on a grid of more than `INT_MAX` cells: on the grid of
50000 × 46341 cells (`rows ≥ 5`, `cols ≥ 5`) the first round has no result,
whatever the grid holds, so it does not yield the vertical blinker. -/
theorem blinker_overflow :
    (5 ≤ wide_data.rows ∧ 5 ≤ wide_data.cols ∧ 1 ≤ wide_data.num_threads ∧
      ¬ wide_data.rows * wide_data.cols ≤ 2147483647) ∧
    ∃ ts, spawn wide_data = some ts ∧
      ∀ h : Heap, ¬ ∃ ts1 h1, play_gol_round ts h = some (ts1, h1) ∧ ts1 ≠ [] := by
  refine ⟨by decide, _, spawn_wide, ?_⟩
  rintro h ⟨ts1, h1, e, _⟩
  rw [wide_round_undefined.1 _ spawn_wide h] at e
  cases e

/-- Claim C8 fails as stated on a grid of more than `INT_MAX` cells: on the grid of
50000 × 46341 cells (`rows ≥ 3`, `cols ≥ 3`) `cell_state` has no value at the
last-row cell `(rows - 1, 1)` nor at the last-column cell `(46341, cols - 1)`,
whatever the grid holds: the indices of the cells of row 49999 and of row 46341
are computed as negative numbers. -/
theorem wrap_overflow :
    (3 ≤ wide_data.rows ∧ 3 ≤ wide_data.cols ∧
      ¬ wide_data.rows * wide_data.cols ≤ 2147483647) ∧
    (∀ h : Heap, cell_state h (wide_data.rows - 1) 1 wide_data = none) ∧
    (∀ h : Heap, cell_state h 46341 (wide_data.cols - 1) wide_data = none) :=
  ⟨by decide,
    fun h => wide_cell_undefined 49999 1 49999 (by decide) (by decide) (by decide) 0 false h,
    fun h => wide_cell_undefined 46341 46340 46341 (by decide) (by decide) (by decide) 0
      false h⟩

/-- Claim C9 fails as stated on a grid of more than `INT_MAX` cells: on the grid of
50000 × 46341 cells (`rows ≥ 3`, `cols ≥ 3`) the round has no result, whatever the
grid holds, so it does not leave a grid with no live cell and `total_live = 0`. -/
theorem loneliness_overflow :
    (3 ≤ wide_data.rows ∧ 3 ≤ wide_data.cols ∧ 1 ≤ wide_data.num_threads ∧
      ¬ wide_data.rows * wide_data.cols ≤ 2147483647) ∧
    ∃ ts, spawn wide_data = some ts ∧
      ∀ h : Heap, ¬ ∃ ts1 h1, play_gol_round ts h = some (ts1, h1) ∧ h1.total_live = 0 := by
  refine ⟨by decide, _, spawn_wide, ?_⟩
  rintro h ⟨ts1, h1, e, _⟩
  rw [wide_round_undefined.1 _ spawn_wide h] at e
  cases e

/-- Claim C17 fails as stated. Before the first round: for the input
`1 1 0 2  0 0  0 0` (a 1×1 grid, no round, the cell `(0, 0)` listed twice)
`initialize_board` returns 0 with `total_live = 2`, the run of the threads leaves
the heap as it is, and `total_live = 2` exceeds `rows * cols = 1`. Without positive
dimensions: for the input `-1 -1 1 0` the block of `rows * cols = 1` cell is never
zero-filled, and after the round the current grid of every thread still holds the
value `malloc` left there (7 in `ex_env`). On grids whose index computations leave
the range of `int` (50000 × 46341, 1500000000 × 1 and 1 × 1500000000 cells)
`cell_state` has no value at an in-range cell, whatever the grid holds. -/
theorem total_live_exceeds_cells :
    (∃ d h ts, initialize_board source_config ex_env ex_data (some [1, 1, 0, 2, 0, 0, 0, 0])
        = Except.ok (d, h) ∧
      play_gol_all d h = some (ts, h) ∧ h.total_live = 2 ∧ d.rows * d.cols = 1 ∧
      ¬ h.total_live ≤ d.rows * d.cols) ∧
    (∃ d h ts h1, initialize_board source_config ex_env ex_data (some [-1, -1, 1, 0])
        = Except.ok (d, h) ∧
      play_gol_all d h = some (ts, h1) ∧ d.rows * d.cols = 1 ∧
      ∀ t ∈ ts, h1.block t.data.array = [7]) ∧
    ((∀ h : Heap, cell_state h 46341 0 wide_data = none) ∧
      (∀ h : Heap, cell_state h 1499999999 0 tall_data = none) ∧
      (∀ h : Heap, cell_state h 0 1499999999 flat_data = none)) :=
  ⟨⟨{ ex_data with rows := 1, cols := 1, iters := 0 },
      { block0 := [1], block1 := [7], total_live := 2 },
      threads_at { ex_data with rows := 1, cols := 1, iters := 0 } false,
      by rfl, by decide, by decide, by decide, by decide⟩,
    ⟨{ ex_data with rows := -1, cols := -1, iters := 1 },
      { block0 := [7], block1 := [7], total_live := 0 },
      ((play_gol_all { ex_data with rows := -1, cols := -1, iters := 1 }
        { block0 := [7], block1 := [7], total_live := 0 }).getD ([], initial_heap)).1,
      { block0 := [7], block1 := [7], total_live := 0 },
      by rfl, by decide, by decide, by decide⟩,
    ⟨fun h => wide_cell_undefined 46341 0 46341 (by decide) (by decide) (by decide) 0 false h,
      fun h => tall_cell_undefined 0 false h, fun h => flat_cell_undefined 0 false h⟩⟩

end GameOfLife
